import Mathlib

/-!
# gocode: the build orchestration pipeline

A shallow embedding of `internal/orchestrator/orchestrator.go` (plan parsing,
context building, the task loop of `ExecuteBuild`) and of the parts of the Go
standard library it calls (`strings`, `regexp`, `fmt`).

## Strings

Text that the program parses is modelled as the list of its Unicode code points
(`Str`); this is a Go string holding valid UTF-8.  Go measures and slices strings
in bytes (`len(s)`, `s[:n]`), and a slice may cut a code point in two, so text that
the program slices is modelled as its UTF-8 encoding (`Bytes`, one `Nat` below 256
per byte); `utf8` is the encoder.
-/

namespace GoCode

/-- A Go string holding valid UTF-8, as the list of its code points. -/
abbrev Str := List Char

/-- A Go string as its sequence of bytes. -/
abbrev Bytes := List Nat

/-- The UTF-8 encoding of one code point (`utf8.AppendRune`). -/
def utf8EncodeChar (c : Char) : Bytes :=
  let n := c.toNat
  if n < 0x80 then [n]
  else if n < 0x800 then [0xC0 + n / 64, 0x80 + n % 64]
  else if n < 0x10000 then [0xE0 + n / 4096, 0x80 + n / 64 % 64, 0x80 + n % 64]
  else [0xF0 + n / 262144, 0x80 + n / 4096 % 64, 0x80 + n / 64 % 64, 0x80 + n % 64]

/-- The bytes of a string. -/
def utf8 (s : Str) : Bytes :=
  s.flatMap utf8EncodeChar

/-! ## Package `strings` -/

/-- The predicate `unicode.IsSpace`: in Latin-1 the characters
`'\t', '\n', '\v', '\f', '\r', ' '`, U+0085 and U+00A0, elsewhere the code points
with the White_Space property. -/
def isSpace (c : Char) : Bool :=
  let n := c.toNat
  (0x09 ≤ n && n ≤ 0x0D) || n == 0x20 || n == 0x85 || n == 0xA0 || n == 0x1680 ||
  (0x2000 ≤ n && n ≤ 0x200A) || n == 0x2028 || n == 0x2029 || n == 0x202F ||
  n == 0x205F || n == 0x3000

/-- Go `strings.TrimSpace`: all leading and trailing white space removed. -/
def TrimSpace (s : Str) : Str :=
  ((s.dropWhile isSpace).reverse.dropWhile isSpace).reverse

/-- Go `strings.TrimSuffix`: `s` without the trailing `suffix`, or `s` itself when
it does not end in `suffix`. -/
def TrimSuffix (s suffix : Str) : Str :=
  if suffix.isSuffixOf s then s.take (s.length - suffix.length) else s

/-- The function `unicode.ToLower` on the code points that the role group `(\w+)`
of `taskRegex` can hold: the ASCII letters, digits and underscore, and the two
code points that fold to an ASCII letter, U+212A (Kelvin sign, lower case `k`) and
U+017F (long s, which is its own lower case).  `ToLower` is applied to text of
that class only; the case table of package `unicode` for other code points is not
reproduced. -/
def toLowerRune (c : Char) : Char :=
  if 'A' ≤ c ∧ c ≤ 'Z' then Char.ofNat (c.toNat + 32)
  else if c = Char.ofNat 0x212A then 'k'
  else c

/-- Go `strings.ToLower`. -/
def ToLower (s : Str) : Str :=
  s.map toLowerRune

/-- Go `strings.Split(s, "\n")`: the pieces between the newlines, always at least
one piece.  `cur` holds the piece being read. -/
def splitAux : Str → Str → List Str
  | [], cur => [cur.reverse]
  | c :: cs, cur => if c = '\n' then cur.reverse :: splitAux cs [] else splitAux cs (c :: cur)

/-- Go `strings.Split(s, "\n")`. -/
def splitLines (s : Str) : List Str :=
  splitAux s []

/-- Go `strings.Join` on byte strings. -/
def joinBytes : List Bytes → Bytes → Bytes
  | [], _ => []
  | [a], _ => a
  | a :: b :: rest, sep => a ++ sep ++ joinBytes (b :: rest) sep

/-! ## Package `regexp`

A backtracking matcher with Go's leftmost-first semantics: among the matches that
start leftmost, the one a backtracking search finds first. -/

/-- Regular expressions, as far as `taskRegex` needs them. -/
inductive Regex where
  /-- the empty expression -/
  | empty : Regex
  /-- one character of a class -/
  | char (p : Char → Bool) : Regex
  /-- `^` without the `m` flag: beginning of text -/
  | bol : Regex
  /-- `$` without the `m` flag: end of text -/
  | eol : Regex
  /-- concatenation -/
  | seq (a b : Regex) : Regex
  /-- `a|b`, preferring `a` -/
  | alt (a b : Regex) : Regex
  /-- `a*` when `greedy`, `a*?` otherwise -/
  | star (a : Regex) (greedy : Bool) : Regex
  /-- capturing group number `i` -/
  | group (i : Nat) (a : Regex) : Regex

namespace Regex

/-- `a+` when `greedy`, `a+?` otherwise. -/
def plus (a : Regex) (greedy : Bool) : Regex :=
  seq a (star a greedy)

/-- `a?`. -/
def opt (a : Regex) : Regex :=
  alt a empty

/-- A literal character. -/
def lit (c : Char) : Regex :=
  char (fun x => x == c)

/-- Concatenation of a list of expressions. -/
def cat : List Regex → Regex
  | [] => empty
  | [a] => a
  | a :: rest => seq a (cat rest)

end Regex

/-- The state of a match attempt: `pos` characters of the text are consumed, `rest`
is the text from there on, `caps` the groups closed so far, latest first. -/
structure MatchState where
  pos : Nat
  rest : Str
  caps : List (Nat × Str)

/-- A continuation: the rest of the pattern. -/
abbrev Cont := MatchState → Option MatchState

/-- Repetition of `step`, at most `fuel` times; an iteration that consumes nothing
is not repeated.  A greedy repetition tries one more iteration before it tries the
continuation, a lazy one the other way around. -/
def starLoop (step : MatchState → Cont → Option MatchState) (greedy : Bool) :
    Nat → MatchState → Cont → Option MatchState
  | 0, st, k => k st
  | fuel + 1, st, k =>
    let more : Unit → Option MatchState := fun _ =>
      step st (fun st' =>
        if st'.rest.length < st.rest.length then starLoop step greedy fuel st' k else none)
    if greedy then (more ()).orElse (fun _ => k st) else (k st).orElse more

/-- Matching `re` from state `st`, then the continuation `k`; alternatives are tried
in the order of preference.  A repetition gets as much fuel as there are characters
left: every iteration consumes at least one. -/
def Regex.run : Regex → MatchState → Cont → Option MatchState
  | .empty, st, k => k st
  | .char p, st, k =>
    match st.rest with
    | [] => none
    | c :: cs => if p c then k { st with pos := st.pos + 1, rest := cs } else none
  | .bol, st, k => if st.pos = 0 then k st else none
  | .eol, st, k => if st.rest.isEmpty then k st else none
  | .seq a b, st, k => Regex.run a st (fun st' => Regex.run b st' k)
  | .alt a b, st, k => (Regex.run a st k).orElse (fun _ => Regex.run b st k)
  | .star a greedy, st, k => starLoop (fun s c => Regex.run a s c) greedy st.rest.length st k
  | .group i a, st, k =>
    Regex.run a st (fun st' => k { st' with caps := (i, st.rest.take (st'.pos - st.pos)) :: st'.caps })

/-- The text of group `i`, empty when the group took no part in the match. -/
def capture (caps : List (Nat × Str)) (i : Nat) : Str :=
  match caps.find? (fun e => e.1 == i) with
  | some e => e.2
  | none => []

/-- The leftmost match of `re` in the text `before ++ s`, starting at or after
`s`; `pos` is the length of `before`. -/
def findFrom (re : Regex) : Nat → Str → Option (Nat × MatchState)
  | pos, [] => (Regex.run re ⟨pos, [], []⟩ some).map (fun st => (pos, st))
  | pos, c :: cs =>
    match Regex.run re ⟨pos, c :: cs, []⟩ some with
    | some st => some (pos, st)
    | none => findFrom re (pos + 1) cs

/-- Go `Regexp.FindStringSubmatch` for an expression with `groups` capturing
groups: nil when there is no match, otherwise the matched text followed by the text
of each group. -/
def FindStringSubmatch (re : Regex) (groups : Nat) (s : Str) : List Str :=
  match findFrom re 0 s with
  | none => []
  | some (start, st) =>
    ((s.drop start).take (st.pos - start)) :: (List.range groups).map (fun i => capture st.caps (i + 1))

/-! ## The plan parser -/

/-- The class `\d`. -/
def reDigit (c : Char) : Bool :=
  '0' ≤ c && c ≤ '9'

/-- The class `\s` of package `regexp`: `[\t\n\f\r ]`. -/
def reSpace (c : Char) : Bool :=
  c == '\t' || c == '\n' || c == Char.ofNat 0x0C || c == '\r' || c == ' '

/-- The class `\w` under the flag `i`: `[0-9A-Za-z_]` and the code points that fold
to one of them, U+017F and U+212A (the parser of `regexp/syntax` closes a Perl
class under simple case folding when the flag is set). -/
def reWord (c : Char) : Bool :=
  ('0' ≤ c && c ≤ '9') || ('A' ≤ c && c ≤ 'Z') || ('a' ≤ c && c ≤ 'z') || c == '_' ||
  c == Char.ofNat 0x017F || c == Char.ofNat 0x212A

/-- The class `.` without the flag `s`: every character but the newline. -/
def reAny (c : Char) : Bool :=
  c != '\n'

open Regex in
/-- The expression of `parsePlan`,
``(?i)^\d+\.\s*\*?\*?\[(\w+)\]\*?\*?\s*(.+?)(?:\s*```|\s*$)``.
The literals `.`, `*`, `[`, `]` and the backquote have no other case. -/
def taskRegex : Regex :=
  cat [bol, plus (char reDigit) true, lit '.', star (char reSpace) true,
    opt (lit '*'), opt (lit '*'), lit '[', group 1 (plus (char reWord) true), lit ']',
    opt (lit '*'), opt (lit '*'), star (char reSpace) true,
    group 2 (plus (char reAny) false),
    alt (cat [star (char reSpace) true, lit '`', lit '`', lit '`'])
        (cat [star (char reSpace) true, eol])]

/-- The agent types of `pkg/models/agent.go` are strings. -/
abbrev AgentType := Str

def PlannerAgent : AgentType := "planner".toList
def FrontendAgent : AgentType := "frontend".toList
def BackendAgent : AgentType := "backend".toList
def SecurityAgent : AgentType := "security".toList

/-- The structure `models.Response`, without the fields `Metadata` and `Actions`,
which the orchestrator never reads. -/
structure Response where
  Content : Str
  TokensUsed : Int
  Model : Str
  Agent : AgentType
  deriving DecidableEq, Repr

/-- The structure `Task` of the orchestrator; a nil `Result` is `none`. -/
structure Task where
  ID : Str
  AgentType : AgentType
  Description : Str
  Dependencies : List Str
  Status : Str
  Result : Option Response
  deriving DecidableEq, Repr

/-- The method `mapAgentName`: the agent type of a name of the plan, the empty
string for an unknown name. -/
def mapAgentName (name : Str) : AgentType :=
  let n := ToLower name
  if n = "backend".toList then BackendAgent
  else if n = "frontend".toList then FrontendAgent
  else if n = "security".toList then SecurityAgent
  else if n = "planner".toList then PlannerAgent
  else []

/-- The identifier `fmt.Sprintf("task_%d", taskID)`. -/
def taskIDString (taskID : Nat) : Str :=
  "task_".toList ++ (Nat.repr taskID).toList

/-- The state of the loop of `parsePlan`: the tasks appended so far and the
counter `taskID`. -/
structure ParseState where
  tasks : List Task
  taskID : Nat

/-- One iteration of the loop of `parsePlan`, on one line of the plan. -/
def parseLine (st : ParseState) (line : Str) : ParseState :=
  let line := TrimSpace line
  if line = [] then st
  else
    let «matches» := FindStringSubmatch taskRegex 2 line
    if «matches».length ≥ 3 then
      let agentName := ToLower («matches».getD 1 [])
      let description := TrimSpace («matches».getD 2 [])
      let description := TrimSuffix description ".".toList
      let description := TrimSuffix description ":".toList
      let agentType := mapAgentName agentName
      if agentType = [] then st
      else
        { tasks := st.tasks ++ [{ ID := taskIDString st.taskID, AgentType := agentType,
                                  Description := description, Dependencies := [],
                                  Status := "pending".toList, Result := none }],
          taskID := st.taskID + 1 }
    else st

/-- The method `parsePlan`: the executable tasks of the planner's response. -/
def parsePlan (planContent : Str) : List Task :=
  ((splitLines planContent).foldl parseLine ⟨[], 1⟩).tasks

/-! ## The context builder -/

/-- The method `truncateText`: `len` and the slice count bytes. -/
def truncateText (text : Bytes) (maxLen : Nat) : Bytes :=
  if text.length ≤ maxLen then text else text.take maxLen ++ utf8 "...".toList

/-- The entry of a completed task in the context,
`fmt.Sprintf("\n- %s (%s): %s", task.Description, task.AgentType,
o.truncateText(task.Result.Content, 200))`. -/
def contextEntry (task : Task) (result : Response) : Bytes :=
  utf8 "\n- ".toList ++ utf8 task.Description ++ utf8 " (".toList ++ utf8 task.AgentType
    ++ utf8 "): ".toList ++ truncateText (utf8 result.Content) 200

/-- The loop of `buildContext`: one entry for every task with a result and the
status `completed`. -/
def contextLoop (contextParts : List Bytes) : List Task → List Bytes
  | [] => contextParts
  | task :: rest =>
    match task.Result with
    | some result =>
      if task.Status = "completed".toList then
        contextLoop (contextParts ++ [contextEntry task result]) rest
      else contextLoop contextParts rest
    | none => contextLoop contextParts rest

/-- The method `buildContext`: the context from the results of the previous
tasks. -/
def buildContext (previousTasks : List Task) : Bytes :=
  if previousTasks.length = 0 then []
  else joinBytes (contextLoop [utf8 "Previous task results:".toList] previousTasks) (utf8 "\n".toList)

/-! ## The orchestrator

The run of `ExecuteBuild` is modelled with its effects made explicit: every call
that leaves the orchestrator (the file writer, an agent, the terminal) is an `Event`
of the trace of the run, and what such a call returns is given by the collaborator
as a function of the trace so far, so that a collaborator may answer differently
from call to call. -/

/-- The calls of a run that leave the orchestrator. -/
inductive Event where
  /-- `ui.ClearScreen()` -/
  | ClearScreen : Event
  /-- `fmt.Printf` with the text printed -/
  | Printf (text : Str) : Event
  /-- `ui.DisplayProgress(stage, current, total, startTime)` -/
  | DisplayProgress (stage : Bytes) (current total : Nat) : Event
  /-- `ui.DisplayStageComplete(stage, current, total, startTime)` -/
  | DisplayStageComplete (stage : Bytes) (current total : Nat) : Event
  /-- `ui.DisplayWarning(message)` -/
  | DisplayWarning (message : Str) : Event
  /-- `ui.DisplayError(err)`, with the message of the error -/
  | DisplayError (message : Str) : Event
  /-- `ui.DisplayFinalResults(totalStages, startTime, projectPath)` -/
  | DisplayFinalResults (totalStages : Nat) : Event
  /-- `o.fileWriter.CreateProjectStructure()` -/
  | CreateProjectStructure : Event
  /-- `Process(context, message)` on the agent registered for `agentType` -/
  | Process (agentType : AgentType) (context : Bytes) (message : Str) : Event
  /-- `o.fileWriter.ExtractCodeBlocks(content)` -/
  | ExtractCodeBlocks (content : Str) : Event
  /-- `o.fileWriter.WriteFile(filename, code)` -/
  | WriteFile (filename code : Str) : Event
  deriving DecidableEq, Repr

/-- An agent (`models.Agent`), as far as the orchestrator uses it: its name, its type
(the method `Type`) and `Process`, which returns a response or the message of an
error. -/
structure Agent where
  Name : Str
  agentType : AgentType
  Process : List Event → Bytes → Str → Except Str Response

/-- The registry of `internal/agents/registry.go`: the map from agent types to
agents, as the list of its entries. -/
structure Registry where
  agents : List (AgentType × Agent)

/-- The method `Registry.GetAgent`. -/
def Registry.GetAgent (r : Registry) (agentType : AgentType) : Except Str Agent :=
  match r.agents.find? (fun e => e.1 == agentType) with
  | some e => .ok e.2
  | none => .error ("agent type ".toList ++ agentType ++ " not found".toList)

/-- The package `filewriter` is not part of the sources: its three methods that the
orchestrator calls are parameters.  An error is `some` message, nil is `none`;
`ExtractCodeBlocks` returns a map, given here as the list of its entries in the
order in which `range` visits them. -/
structure FileWriter where
  CreateProjectStructure : List Event → Option Str
  ExtractCodeBlocks : List Event → Str → List (Str × Str)
  WriteFile : List Event → Str → Str → Option Str

/-- The structure `Orchestrator`; the field `config` is never read. -/
structure Orchestrator where
  registry : Registry
  fileWriter : FileWriter

/-- The loop of `writeGeneratedFiles` over the code blocks. -/
def writeLoop (fw : FileWriter) (trace : List Event) : List (Str × Str) → List Event
  | [] => trace
  | (filename, code) :: rest =>
    if TrimSpace code = [] then writeLoop fw trace rest
    else
      match fw.WriteFile trace filename code with
      | some err =>
        writeLoop fw (trace ++ [Event.WriteFile filename code,
          Event.Printf ("⚠️  Failed to write ".toList ++ filename ++ ": ".toList ++ err
            ++ "\n".toList)]) rest
      | none => writeLoop fw (trace ++ [Event.WriteFile filename code]) rest

/-- The method `writeGeneratedFiles`: the trace after the code blocks of `content`
are written to files. -/
def writeGeneratedFiles (o : Orchestrator) (trace : List Event) (content : Str) : List Event :=
  writeLoop o.fileWriter (trace ++ [Event.ExtractCodeBlocks content])
    (o.fileWriter.ExtractCodeBlocks trace content)

/-- The prompt `planPrompt` of `ExecuteBuild`. -/
def planPrompt (description : Str) : Str :=
  "Create a detailed execution plan for: \"".toList ++ description ++
  ("\"\n\nPlease structure your response as a numbered list of tasks that can be executed by specialized agents.\n" ++
   "For each task, specify:\n1. The task description\n" ++
   "2. Which agent should handle it (backend, frontend, security, etc.)\n" ++
   "3. Any dependencies on other tasks\n\nFormat your response like this:\n" ++
   "1. [AGENT_TYPE] Task description\n2. [AGENT_TYPE] Task description (depends on task 1)\n...\n\n" ++
   "Available agents: backend, frontend, security, planner\n" ++
   "Focus on creating actionable, specific tasks that agents can execute independently.\n" ++
   "When providing code, use proper code blocks with filenames where possible.").toList

/-- The state of the task loop of `ExecuteBuild`: the trace so far and, for every
iteration done, the loop variable `task` as the iteration left it.  The loop
variable is a copy of the element of `tasks` (`for i, task := range tasks`). -/
structure LoopState where
  trace : List Event
  locals : List Task

/-- The name of the stage of a task,
`fmt.Sprintf("%s: %s", task.AgentType, task.Description[:min(40, len(task.Description))])`. -/
def stageName (task : Task) : Bytes :=
  utf8 task.AgentType ++ utf8 ": ".toList
    ++ (utf8 task.Description).take (min 40 (utf8 task.Description).length)

/-- One iteration of the task loop of `ExecuteBuild`, for the task at index `i`. -/
def taskStep (o : Orchestrator) (tasks : List Task) (totalStages : Nat)
    (s : LoopState) (i : Nat) (task : Task) : LoopState :=
  let stage := stageName task
  let trace := s.trace ++ [Event.DisplayProgress stage (i + 3) totalStages]
  match o.registry.GetAgent task.AgentType with
  | .error err =>
    { trace := trace ++ [Event.DisplayWarning ("Skipping task - agent ".toList ++ task.AgentType
        ++ " not available: ".toList ++ err)],
      locals := s.locals ++ [task] }
  | .ok agent =>
    let context := buildContext (tasks.take i)
    match agent.Process trace context task.Description with
    | .error err =>
      { trace := trace ++ [Event.Process task.AgentType context task.Description,
          Event.DisplayError ("task failed: ".toList ++ err)],
        locals := s.locals ++ [task] }
    | .ok response =>
      let trace := trace ++ [Event.Process task.AgentType context task.Description]
      let task := { task with Result := some response }
      let task := { task with Status := "completed".toList }
      let trace := writeGeneratedFiles o trace response.Content
      { trace := trace ++ [Event.DisplayStageComplete stage (i + 3) totalStages],
        locals := s.locals ++ [task] }

/-- The task loop of `ExecuteBuild` from index `i` on. -/
def taskLoop (o : Orchestrator) (tasks : List Task) (totalStages : Nat) :
    LoopState → Nat → List Task → LoopState
  | s, _, [] => s
  | s, i, task :: rest => taskLoop o tasks totalStages (taskStep o tasks totalStages s i task) (i + 1) rest

/-- The outcome of a run of `ExecuteBuild`: the error returned (`none` is nil), the
trace, the slice `tasks` at the end of the run and the loop variable of every
iteration. -/
structure BuildRun where
  err : Option Str
  trace : List Event
  tasks : List Task
  locals : List Task

/-- The trace of a run when `CreateProjectStructure` is called. -/
def startTrace (description : Str) : List Event :=
  [Event.ClearScreen,
   Event.Printf ("🚀 Building: ".toList ++ description ++ "\n\n".toList),
   Event.DisplayProgress (utf8 "Creating project structure".toList) 0 10]

/-- The trace of a run when the planner is called, after the project structure is
created. -/
def planningTrace (description : Str) : List Event :=
  startTrace description ++ [Event.CreateProjectStructure,
    Event.DisplayStageComplete (utf8 "Creating project structure".toList) 1 10,
    Event.DisplayProgress (utf8 "Planning project".toList) 1 10]

/-- The trace of a run when the task loop begins. -/
def plannedTrace (description : Str) : List Event :=
  planningTrace description ++ [Event.Process PlannerAgent [] (planPrompt description),
    Event.DisplayStageComplete (utf8 "Planning project".toList) 2 10]

/-- The method `ExecuteBuild`. -/
def ExecuteBuild (o : Orchestrator) (description : Str) : BuildRun :=
  match o.fileWriter.CreateProjectStructure (startTrace description) with
  | some err =>
    { err := some ("failed to create project structure: ".toList ++ err),
      trace := startTrace description ++ [Event.CreateProjectStructure],
      tasks := [], locals := [] }
  | none =>
    match o.registry.GetAgent PlannerAgent with
    | .error err =>
      { err := some ("failed to get planner agent: ".toList ++ err),
        trace := planningTrace description, tasks := [], locals := [] }
    | .ok planner =>
      match planner.Process (planningTrace description) [] (planPrompt description) with
      | .error err =>
        { err := some ("failed to create plan: ".toList ++ err),
          trace := planningTrace description
            ++ [Event.Process PlannerAgent [] (planPrompt description)],
          tasks := [], locals := [] }
      | .ok planResponse =>
        let tasks := parsePlan planResponse.Content
        if tasks.length = 0 then
          { err := some "no executable tasks found in plan".toList,
            trace := plannedTrace description, tasks := tasks, locals := [] }
        else
          let totalStages := tasks.length + 2
          let s := taskLoop o tasks totalStages ⟨plannedTrace description, []⟩ 0 tasks
          { err := none, trace := s.trace ++ [Event.DisplayFinalResults totalStages],
            tasks := tasks, locals := s.locals }

/-- The agent invocations of a trace, in order: the agent type, the context and the
message of every `Process` call. -/
def invocations : List Event → List (AgentType × Bytes × Str)
  | [] => []
  | Event.Process agentType context message :: rest => (agentType, context, message) :: invocations rest
  | _ :: rest => invocations rest

/-- The invocations that the task loop makes for `rest`, the tasks from index `i`
on: one for every task whose role the registry resolves, with the context built
from the tasks before it. -/
def taskInvocations (o : Orchestrator) (tasks : List Task) : Nat → List Task → List (AgentType × Bytes × Str)
  | _, [] => []
  | i, task :: rest =>
    match o.registry.GetAgent task.AgentType with
    | .ok _ => (task.AgentType, buildContext (tasks.take i), task.Description)
        :: taskInvocations o tasks (i + 1) rest
    | .error _ => taskInvocations o tasks (i + 1) rest

/-- What an iteration of the task loop makes of its loop variable: it leaves the
task as it is, or, when the role resolves, it completes it with a result. -/
def LocalOf (o : Orchestrator) (task loc : Task) : Prop :=
  loc = task ∨
    ∃ agent response, o.registry.GetAgent task.AgentType = .ok agent ∧
      loc = { task with Result := some response, Status := "completed".toList }

/-- An agent that answers every request with the same text. -/
def fixedAgent (name : Str) (agentType : AgentType) (content : Str) : Agent :=
  { Name := name, agentType := agentType,
    Process := fun _ _ _ => .ok { Content := content, TokensUsed := 0, Model := [], Agent := agentType } }

/-- An agent whose every request fails. -/
def failingAgent (name : Str) (agentType : AgentType) : Agent :=
  { Name := name, agentType := agentType, Process := fun _ _ _ => .error "request failed".toList }

/-- A file writer that creates the project structure, finds no code block and
writes every file. -/
def quietWriter : FileWriter :=
  { CreateProjectStructure := fun _ => none, ExtractCodeBlocks := fun _ _ => [],
    WriteFile := fun _ _ _ => none }

/-- Scenario A of the specification: the planner returns the plan
`1. [BACKEND] Create todo API`, `2. [FRONTEND] Build todo UI`, and the backend and
frontend agents answer. -/
def scenarioA : Orchestrator :=
  { registry := ⟨[(PlannerAgent, fixedAgent "Planner".toList PlannerAgent
        "1. [BACKEND] Create todo API
2. [FRONTEND] Build todo UI".toList),
      (BackendAgent, fixedAgent "Backend".toList BackendAgent "API code".toList),
      (FrontendAgent, fixedAgent "Frontend".toList FrontendAgent "UI code".toList)]⟩,
    fileWriter := quietWriter }

/-- Scenario A with a backend agent whose request fails. -/
def scenarioFailure : Orchestrator :=
  { registry := ⟨[(PlannerAgent, fixedAgent "Planner".toList PlannerAgent
        "1. [BACKEND] Create todo API
2. [FRONTEND] Build todo UI".toList),
      (BackendAgent, failingAgent "Backend".toList BackendAgent),
      (FrontendAgent, fixedAgent "Frontend".toList FrontendAgent "UI code".toList)]⟩,
    fileWriter := quietWriter }

/-- Scenario A with a registry without backend agent. -/
def scenarioUnresolved : Orchestrator :=
  { registry := ⟨[(PlannerAgent, fixedAgent "Planner".toList PlannerAgent
        "1. [BACKEND] Create todo API
2. [FRONTEND] Build todo UI".toList),
      (FrontendAgent, fixedAgent "Frontend".toList FrontendAgent "UI code".toList)]⟩,
    fileWriter := quietWriter }

/-- Scenario B of the specification: the planner returns the plan
`3. [UNKNOWN_ROLE] Do something`. -/
def scenarioB : Orchestrator :=
  { registry := ⟨[(PlannerAgent, fixedAgent "Planner".toList PlannerAgent
        "3. [UNKNOWN_ROLE] Do something".toList),
      (BackendAgent, fixedAgent "Backend".toList BackendAgent "API code".toList)]⟩,
    fileWriter := quietWriter }

/-- A pending task, as `parsePlan` makes it. -/
def pendingTask : Task :=
  { ID := "task_1".toList, AgentType := BackendAgent, Description := "Create todo API".toList,
    Dependencies := [], Status := "pending".toList, Result := none }

/-! ## What a repetition of one character class computes

`greedyChars` and `lazyChars` are the search that `Regex.run` performs on `p*` and
`p*?`, written by recursion on the text. -/

/-- The search of `p*` followed by `k`: the longest run of `p` first, then shorter
ones. -/
def greedyChars (p : Char → Bool) (k : Cont) : Nat → Str → List (Nat × Str) → Option MatchState
  | pos, [], caps => k ⟨pos, [], caps⟩
  | pos, c :: cs, caps =>
    if p c then (greedyChars p k (pos + 1) cs caps).orElse (fun _ => k ⟨pos, c :: cs, caps⟩)
    else k ⟨pos, c :: cs, caps⟩

/-- The search of `p*?` followed by `k`: the shortest run of `p` first, then longer
ones. -/
def lazyChars (p : Char → Bool) (k : Cont) : Nat → Str → List (Nat × Str) → Option MatchState
  | pos, [], caps => k ⟨pos, [], caps⟩
  | pos, c :: cs, caps =>
    (k ⟨pos, c :: cs, caps⟩).orElse (fun _ => if p c then lazyChars p k (pos + 1) cs caps else none)

/-- What `\*?\*?` takes when a `[` has to follow: the number of stars and the text
after them. -/
def dropStars : Str → Nat × Str
  | c :: d :: r => if c = '*' then (if d = '*' then (2, r) else (1, d :: r)) else (0, c :: d :: r)
  | [c] => if c = '*' then (1, []) else (0, [c])
  | [] => (0, [])

/-- The part ``^\d+\.\s*\*?\*?\[(\w+)\]`` of `taskRegex`, which matches in one way
at most: the role token, the number of characters matched and the text after the
closing bracket. -/
def scanHead (line : Str) : Option (Str × Nat × Str) :=
  let ds := line.takeWhile reDigit
  if ds = [] then none
  else
    match line.dropWhile reDigit with
    | [] => none
    | c :: r1 =>
      if c = '.' then
        let sp := r1.takeWhile reSpace
        let sr := dropStars (r1.dropWhile reSpace)
        match sr.2 with
        | [] => none
        | c2 :: r3 =>
          if c2 = '[' then
            let w := r3.takeWhile reWord
            if w = [] then none
            else
              match r3.dropWhile reWord with
              | [] => none
              | c3 :: r4 =>
                if c3 = ']' then
                  some (w, ds.length + 1 + sp.length + sr.1 + 1 + w.length + 1, r4)
                else none
          else none
      else none

/-- The end ``(?:\s*```|\s*$)`` of `taskRegex`: the number of characters it matches
at the beginning of `u` and the text after them. -/
def scanEnd (u : Str) : Option (Nat × Str) :=
  let sp := (u.takeWhile reSpace).length
  match u.dropWhile reSpace with
  | [] => some (sp, [])
  | [_] => none
  | [_, _] => none
  | c1 :: c2 :: c3 :: r =>
    if c1 = '`' ∧ c2 = '`' ∧ c3 = '`' then some (sp + 3, r) else none

/-- The lazy group `(.+?)` before the end of `taskRegex`, with `n` characters in the
group already and `u` the text after them: the length of the group, the length of
the end and the text after the match. -/
def lazyDesc : Nat → Str → Option (Nat × Nat × Str)
  | n, [] => (scanEnd []).map (fun e => (n, e))
  | n, c :: cs =>
    match scanEnd (c :: cs) with
    | some e => some (n, e)
    | none => if reAny c then lazyDesc (n + 1) cs else none

open Regex in
/-- The end of `taskRegex`. -/
def taskEnd : Regex :=
  alt (cat [star (char reSpace) true, lit '`', lit '`', lit '`'])
      (cat [star (char reSpace) true, eol])

/-- The number that a string of decimal digits writes. -/
def fromDigits (s : Str) : Nat :=
  s.foldl (fun a c => 10 * a + (c.toNat - 48)) 0

/-- The invariant of the loop of `parsePlan`: the tasks are numbered from 1 in
order, the counter is the number of the next task, every task is pending and has no
result. -/
def ParseInv (st : ParseState) : Prop :=
  st.taskID = st.tasks.length + 1 ∧
  st.tasks.map (fun t => t.ID) = (List.range st.tasks.length).map (fun i => taskIDString (i + 1)) ∧
  ∀ t ∈ st.tasks, t.Status = "pending".toList ∧ t.Result = none

/-- Go `strings.Join(lines, "\n")`. -/
def joinLines : List Str → Str
  | [] => []
  | [a] => a
  | a :: b :: rest => a ++ '\n' :: joinLines (b :: rest)

/-! ## What `taskRegex` computes after the closing bracket -/

/-- Group 2 when ``(.+?)(?:\s*```|\s*$)`` is matched at the beginning of `v`. -/
def descGroup : Str → Option Str
  | [] => none
  | c :: cs => if reAny c then (lazyDesc 1 cs).map (fun r => (c :: cs).take r.1) else none

/-- Group 2 when ``\s*(.+?)(?:\s*```|\s*$)`` is matched at the beginning of `u`: the
longest run of `\s` first, then shorter ones. -/
def spacesDesc : Str → Option Str
  | [] => descGroup []
  | c :: cs =>
    if reSpace c then (spacesDesc cs).orElse (fun _ => descGroup (c :: cs))
    else descGroup (c :: cs)

/-- Group 2 when ``\*?\s*(.+?)(?:\s*```|\s*$)`` is matched at the beginning of `v`:
with the star first, then without. -/
def starDesc : Str → Option Str
  | [] => spacesDesc []
  | c :: cs =>
    if c = '*' then (spacesDesc cs).orElse (fun _ => spacesDesc (c :: cs))
    else spacesDesc (c :: cs)

/-- Group 2 when the part ``\*?\*?\s*(.+?)(?:\s*```|\s*$)`` of `taskRegex` is matched
at the beginning of `r`, the text after the closing bracket. -/
def tailDesc : Str → Option Str
  | [] => starDesc []
  | c :: cs =>
    if c = '*' then (starDesc cs).orElse (fun _ => starDesc (c :: cs))
    else starDesc (c :: cs)

/-- The match of `taskRegex` on a line: the role token (group 1) and the
description (group 2). -/
def taskMatch (line : Str) : Option (Str × Str) :=
  match scanHead line with
  | none => none
  | some (w, _, r) => (tailDesc r).map (fun g => (w, g))

/-- The clean-up of a description in `parsePlan`: `TrimSpace`, then one trailing `.`
removed, then one trailing `:` removed. -/
def cleanDescription (g : Str) : Str :=
  TrimSuffix (TrimSuffix (TrimSpace g) ".".toList) ":".toList

/-! ## The agents, the client of the API and the registry -/

def DevOpsAgent : AgentType := "devops".toList
def ReviewerAgent : AgentType := "reviewer".toList
def ManagerAgent : AgentType := "manager".toList
def ToolsAgent : AgentType := "tools".toList
def ResearchAgent : AgentType := "research".toList

/-- A value of type `float32`.  The program copies such values and never computes
with them; a value is kept as the decimal `digits / 10 ^ scale` of the literal it
comes from, so `0.7` is `⟨7, 1⟩`. -/
structure Float32 where
  digits : Nat
  scale : Nat
  deriving DecidableEq, Repr

/-- The structure `models.AgentConfig`. -/
structure AgentConfig where
  Model : Str
  Temperature : Float32
  MaxTokens : Int
  deriving DecidableEq, Repr

/-- The structure `api.Message`.  The content of a message of a request is a byte
string (a context may end in a truncated character); the content of a message of a
reply is decoded from JSON and is text. -/
structure Message (α : Type) where
  Role : Str
  Content : α
  deriving DecidableEq, Repr

/-- The structure `api.ChatRequest`. -/
structure ChatRequest where
  Model : Str
  Messages : List (Message Bytes)
  Temperature : Float32
  MaxTokens : Int
  Stream : Bool
  deriving DecidableEq, Repr

/-- The structure `api.Choice`. -/
structure Choice where
  Index : Int
  Message : Message Str
  FinishReason : Str
  deriving DecidableEq, Repr

/-- The structure `api.Usage`. -/
structure Usage where
  PromptTokens : Int
  CompletionTokens : Int
  TotalTokens : Int
  deriving DecidableEq, Repr

/-- The structure `api.ChatResponse`. -/
structure ChatResponse where
  ID : Str
  Object : Str
  Created : Int
  Model : Str
  Choices : List Choice
  Usage : Usage
  deriving DecidableEq, Repr

/-- The client `api.GroqClient`.  The method `SendChatRequest` is the transport: it
posts the request over HTTP and decodes the reply.  Its outcome, a reply or the
message of an error, is a parameter that may depend on the trace so far. -/
structure GroqClient where
  APIKey : Str
  BaseURL : Str
  SendChatRequest : List Event → ChatRequest → Except Str ChatResponse

/-- The method `GroqClient.ProcessAgentRequest`. -/
def GroqClient.ProcessAgentRequest (c : GroqClient) (trace : List Event) (agentType : AgentType)
    (systemPrompt : Str) (userMessage : Bytes) (config : AgentConfig) : Except Str Response :=
  let req : ChatRequest :=
    { Model := config.Model,
      Messages := [{ Role := "system".toList, Content := utf8 systemPrompt },
                   { Role := "user".toList, Content := userMessage }],
      Temperature := config.Temperature,
      MaxTokens := config.MaxTokens,
      Stream := false }
  match c.SendChatRequest trace req with
  | .error err => .error ("failed to send chat request: ".toList ++ err)
  | .ok resp =>
    match resp.Choices with
    | [] => .error "no choices returned from API".toList
    | choice :: _ =>
      .ok { Content := choice.Message.Content, TokensUsed := resp.Usage.TotalTokens,
            Model := resp.Model, Agent := agentType }

/-- The structure `agents.BaseAgent`, without the colour. -/
structure BaseAgent where
  agentType : AgentType
  name : Str
  icon : Str
  role : Str
  systemPrompt : Str
  client : GroqClient
  config : AgentConfig

/-- The constructor `NewBaseAgent`. -/
def NewBaseAgent (agentType : AgentType) (name icon role systemPrompt : Str)
    (client : GroqClient) (config : AgentConfig) : BaseAgent :=
  { agentType := agentType, name := name, icon := icon, role := role,
    systemPrompt := systemPrompt, client := client, config := config }

/-- The method `BaseAgent.Name`. -/
def BaseAgent.Name (a : BaseAgent) : Str := a.name

/-- The method `BaseAgent.Type`. -/
def BaseAgent.Type (a : BaseAgent) : AgentType := a.agentType

/-- The method `BaseAgent.Process`; `fmt.Sprintf` with `%s` copies the bytes of the
context and of the message. -/
def BaseAgent.Process (a : BaseAgent) (trace : List Event) (context : Bytes) (message : Str) :
    Except Str Response :=
  let fullMessage :=
    if context ≠ [] then
      utf8 "Context: ".toList ++ context ++ utf8 "\n\nUser Request: ".toList ++ utf8 message
    else utf8 message
  a.client.ProcessAgentRequest trace a.agentType a.systemPrompt fullMessage a.config

/-- A base agent as a value of the interface `models.Agent`: the methods `Name`,
`Type` and `Process`. -/
def BaseAgent.toAgent (a : BaseAgent) : Agent :=
  { Name := a.Name, agentType := a.Type, Process := a.Process }

/-- The texts of the constants `plannerSystemPrompt`, `frontendSystemPrompt`,
`backendSystemPrompt` and `securitySystemPrompt`.  They are long prose that the
program only hands to the API, and they are parameters here. -/
structure SystemPrompts where
  plannerSystemPrompt : Str
  frontendSystemPrompt : Str
  backendSystemPrompt : Str
  securitySystemPrompt : Str

/-- The constructor `NewPlannerAgent`; the agent embeds the base agent. -/
def NewPlannerAgent (prompts : SystemPrompts) (client : GroqClient) (config : AgentConfig) : Agent :=
  (NewBaseAgent PlannerAgent "Planner".toList "🎯".toList
    "Project planning, task breakdown, architecture decisions".toList
    prompts.plannerSystemPrompt client config).toAgent

/-- The constructor `NewFrontendAgent`. -/
def NewFrontendAgent (prompts : SystemPrompts) (client : GroqClient) (config : AgentConfig) : Agent :=
  (NewBaseAgent FrontendAgent "Frontend".toList "🎨".toList
    "React, Vue, Angular, HTML/CSS, UI/UX decisions".toList
    prompts.frontendSystemPrompt client config).toAgent

/-- The constructor `NewBackendAgent`. -/
def NewBackendAgent (prompts : SystemPrompts) (client : GroqClient) (config : AgentConfig) : Agent :=
  (NewBaseAgent BackendAgent "Backend".toList "⚡".toList
    "APIs, databases, server logic, microservices".toList
    prompts.backendSystemPrompt client config).toAgent

/-- The constructor `NewSecurityAgent`. -/
def NewSecurityAgent (prompts : SystemPrompts) (client : GroqClient) (config : AgentConfig) : Agent :=
  (NewBaseAgent SecurityAgent "Security".toList "🛡️".toList
    "Security audits, vulnerability assessment, secure coding practices".toList
    prompts.securitySystemPrompt client config).toAgent

/-- A Go map: the nil map is `none`, a map that exists is the list of its entries,
one for every key. -/
abbrev GoMap (κ ν : Type) := Option (List (κ × ν))

/-- The lookup `m[k]` with its second result: `none` when the key is absent, as it
is in the nil map. -/
def mapLookup {κ ν : Type} [BEq κ] (m : GoMap κ ν) (k : κ) : Option ν :=
  match m with
  | none => none
  | some entries => (entries.find? (fun e => e.1 == k)).map (fun e => e.2)

/-- The assignment `m[k] = v` on the entries of a map that exists. -/
def mapSet {κ ν : Type} [BEq κ] (entries : List (κ × ν)) (k : κ) (v : ν) : List (κ × ν) :=
  if entries.any (fun e => e.1 == k) then entries.map (fun e => if e.1 == k then (k, v) else e)
  else entries ++ [(k, v)]

/-- The structure `models.Config`. -/
structure Config where
  GroqAPIKey : Str
  DefaultModel : Str
  AllowedCommands : List Str
  RequireCommandPermission : Bool
  RestrictToCurrentDir : Bool
  AgentPreferences : GoMap AgentType AgentConfig
  WorkingDirectory : Str
  SessionPermissions : GoMap Str Bool
  deriving DecidableEq, Repr

/-- The function `models.DefaultConfig`. -/
def DefaultConfig : Config :=
  { GroqAPIKey := [],
    DefaultModel := "llama-3.1-70b-versatile".toList,
    AllowedCommands := ["npm".toList, "go".toList, "docker".toList, "git".toList],
    RequireCommandPermission := true,
    RestrictToCurrentDir := true,
    AgentPreferences := some
      [(PlannerAgent, { Model := "llama-3.1-70b-versatile".toList, Temperature := ⟨7, 1⟩, MaxTokens := 4096 }),
       (FrontendAgent, { Model := "qwen2.5-coder-32b-instruct".toList, Temperature := ⟨3, 1⟩, MaxTokens := 4096 }),
       (BackendAgent, { Model := "qwen2.5-coder-32b-instruct".toList, Temperature := ⟨3, 1⟩, MaxTokens := 4096 }),
       (DevOpsAgent, { Model := "llama-3.1-70b-versatile".toList, Temperature := ⟨5, 1⟩, MaxTokens := 4096 }),
       (ReviewerAgent, { Model := "llama-3.1-70b-versatile".toList, Temperature := ⟨3, 1⟩, MaxTokens := 4096 }),
       (ManagerAgent, { Model := "llama-3.1-70b-versatile".toList, Temperature := ⟨6, 1⟩, MaxTokens := 4096 }),
       (ToolsAgent, { Model := "qwen2.5-coder-32b-instruct".toList, Temperature := ⟨2, 1⟩, MaxTokens := 4096 }),
       (ResearchAgent, { Model := "llama-3.1-70b-versatile".toList, Temperature := ⟨4, 1⟩, MaxTokens := 4096 }),
       (SecurityAgent, { Model := "llama-3.1-70b-versatile".toList, Temperature := ⟨2, 1⟩, MaxTokens := 4096 })],
    WorkingDirectory := [],
    SessionPermissions := some [] }

/-- The method `Registry.getAgentConfig`, for the configuration of the registry. -/
def getAgentConfig (config : Config) (agentType : AgentType) : AgentConfig :=
  match mapLookup config.AgentPreferences agentType with
  | some c => c
  | none =>
    match mapLookup DefaultConfig.AgentPreferences agentType with
    | some c => c
    | none => { Model := config.DefaultModel, Temperature := ⟨7, 1⟩, MaxTokens := 4096 }

/-- The method `Registry.initializeAgents`: the map `agents` after the four
assignments, from the map `agents` before. -/
def initializeAgents (prompts : SystemPrompts) (client : GroqClient) (config : Config)
    (agents : List (AgentType × Agent)) : List (AgentType × Agent) :=
  let plannerConfig := getAgentConfig config PlannerAgent
  let frontendConfig := getAgentConfig config FrontendAgent
  let backendConfig := getAgentConfig config BackendAgent
  let securityConfig := getAgentConfig config SecurityAgent
  let agents := mapSet agents PlannerAgent (NewPlannerAgent prompts client plannerConfig)
  let agents := mapSet agents FrontendAgent (NewFrontendAgent prompts client frontendConfig)
  let agents := mapSet agents BackendAgent (NewBackendAgent prompts client backendConfig)
  mapSet agents SecurityAgent (NewSecurityAgent prompts client securityConfig)

/-- The constructor `NewRegistry`, for a client and a configuration that are not
nil. -/
def NewRegistry (prompts : SystemPrompts) (client : GroqClient) (config : Config) : Registry :=
  { agents := initializeAgents prompts client config [] }

/-! ## The files that a task writes -/

/-- The `WriteFile` calls of a trace, in order: the file name and the code. -/
def writeCalls : List Event → List (Str × Str)
  | [] => []
  | Event.WriteFile filename code :: rest => (filename, code) :: writeCalls rest
  | _ :: rest => writeCalls rest

/-- A file writer that finds the given code blocks in every response and fails on
every write. -/
def failingWriter (blocks : List (Str × Str)) : FileWriter :=
  { CreateProjectStructure := fun _ => none, ExtractCodeBlocks := fun _ _ => blocks,
    WriteFile := fun _ _ _ => some "disk full".toList }

/-- Scenario A with a file writer that finds two code blocks, one of them blank, and
fails on every write. -/
def scenarioWriteFailure : Orchestrator :=
  { registry := scenarioA.registry,
    fileWriter := failingWriter [("main.go".toList, "package main".toList),
                                 ("empty.txt".toList, " \n".toList)] }

/-! ## The points of a run -/

/-- An observable point of a run of `ExecuteBuild`: a call that leaves the
orchestrator (an event of the trace), with the slice `tasks` and, inside the task
loop, the loop variable `task` as they are when the call is made. -/
structure RunPoint where
  event : Event
  tasks : List Task
  task : Option Task
  deriving DecidableEq, Repr

/-- The observable points of one iteration of the task loop (lines 102 to 126), for
the task at index `i`: the calls that `taskStep` adds to the trace, in order, each
with the loop variable at the time of the call.  The state `s` is the one
`taskStep` starts from.  Between the assignments of lines 120 and 121 no call is
made; the calls after them see the loop variable with its result and the status
`completed`. -/
def taskStepPoints (o : Orchestrator) (tasks : List Task) (totalStages : Nat)
    (s : LoopState) (i : Nat) (task : Task) : List RunPoint :=
  let stage := stageName task
  let trace := s.trace ++ [Event.DisplayProgress stage (i + 3) totalStages]
  let start : List RunPoint :=
    [⟨Event.DisplayProgress stage (i + 3) totalStages, tasks, some task⟩]
  match o.registry.GetAgent task.AgentType with
  | .error err =>
    start ++ [⟨Event.DisplayWarning ("Skipping task - agent ".toList ++ task.AgentType
      ++ " not available: ".toList ++ err), tasks, some task⟩]
  | .ok agent =>
    let context := buildContext (tasks.take i)
    match agent.Process trace context task.Description with
    | .error err =>
      start ++ [⟨Event.Process task.AgentType context task.Description, tasks, some task⟩,
        ⟨Event.DisplayError ("task failed: ".toList ++ err), tasks, some task⟩]
    | .ok response =>
      let called : RunPoint :=
        ⟨Event.Process task.AgentType context task.Description, tasks, some task⟩
      let trace := trace ++ [Event.Process task.AgentType context task.Description]
      let task := { task with Result := some response }
      let task := { task with Status := "completed".toList }
      start ++ [called]
        ++ ((writeGeneratedFiles o trace response.Content).drop trace.length).map
            (fun e => ⟨e, tasks, some task⟩)
        ++ [⟨Event.DisplayStageComplete stage (i + 3) totalStages, tasks, some task⟩]

/-- The observable points of the task loop from index `i` on. -/
def taskLoopPoints (o : Orchestrator) (tasks : List Task) (totalStages : Nat) :
    LoopState → Nat → List Task → List RunPoint
  | _, _, [] => []
  | s, i, task :: rest =>
    taskStepPoints o tasks totalStages s i task
      ++ taskLoopPoints o tasks totalStages (taskStep o tasks totalStages s i task) (i + 1) rest

/-- The observable points of a run of `ExecuteBuild` after `parsePlan` has returned,
where the slice `tasks` exists: the calls of the task loop and the final report.  A
run that returns before the loop has none. -/
def ExecuteBuildPoints (o : Orchestrator) (description : Str) : List RunPoint :=
  match o.fileWriter.CreateProjectStructure (startTrace description) with
  | some _ => []
  | none =>
    match o.registry.GetAgent PlannerAgent with
    | .error _ => []
    | .ok planner =>
      match planner.Process (planningTrace description) [] (planPrompt description) with
      | .error _ => []
      | .ok planResponse =>
        let tasks := parsePlan planResponse.Content
        if tasks.length = 0 then []
        else
          let totalStages := tasks.length + 2
          taskLoopPoints o tasks totalStages ⟨plannedTrace description, []⟩ 0 tasks
            ++ [⟨Event.DisplayFinalResults totalStages, tasks, none⟩]

/-! ## The command `config allow-commands` -/

/-- The structure `config.Manager`, without the path of the file. -/
structure Manager where
  config : Config
  deriving DecidableEq, Repr

/-- The method `Manager.SetAllowCommands`: the manager afterwards and the error of
`Save`.  `Save` writes the configuration to the file; whether it fails is the
parameter `save` (`none` is nil). -/
def Manager.SetAllowCommands (m : Manager) (save : Config → Option Str) (allow : Bool) :
    Manager × Option Str :=
  let m : Manager := { config := { m.config with RequireCommandPermission := !allow } }
  (m, save m.config)

/-- What a run of a command leaves: the lines printed on standard output and on
standard error, the exit code, and the configuration that `Save` wrote to the file
(`none` when nothing was written). -/
structure CmdRun where
  stdout : List Str
  stderr : List Str
  exitCode : Nat
  saved : Option Config
  deriving DecidableEq, Repr

/-- The function `Run` of `allowCommandsCmd`.  The parameter `load` is the outcome of
`manager.Load()`: the manager with the configuration read from the file, or the
message of the error. -/
def allowCommandsCmd (load : Except Str Manager) (save : Config → Option Str) : CmdRun :=
  match load with
  | .error err =>
    { stdout := [], stderr := ["Error loading config: ".toList ++ err], exitCode := 1,
      saved := none }
  | .ok manager =>
    let config := manager.config
    let newSetting := !config.RequireCommandPermission
    match manager.SetAllowCommands save (!newSetting) with
    | (_, some err) =>
      { stdout := [], stderr := ["Error updating settings: ".toList ++ err], exitCode := 1,
        saved := none }
    | (manager, none) =>
      { stdout :=
          [if newSetting then "✅ Command execution enabled (agents can run system commands)".toList
           else "✅ Command execution disabled (agents will ask for permission)".toList],
        stderr := [], exitCode := 0, saved := some manager.config }

/-- The line of `showCmd` on the command permissions (lines 134 to 138 of
`cmd/config.go`). -/
def showCmdPermissions (config : Config) : Str :=
  if config.RequireCommandPermission then "🔒 Command Execution: Requires permission".toList
  else "🔓 Command Execution: Allowed".toList

/-! ## The lookup of an agent by its name -/

/-- The function `unicode.ToLower` on ASCII: `A` to `Z` become `a` to `z`. -/
def asciiToLower (c : Char) : Char :=
  if 'A' ≤ c ∧ c ≤ 'Z' then Char.ofNat (c.toNat + 32) else c

/-- The function `unicode.ToLower` on any code point.  Outside ASCII it reads the
case tables of package `unicode`, which are not reproduced: what they give is the
parameter `table`. -/
def unicodeToLower (table : Char → Char) (c : Char) : Char :=
  if c.toNat < 128 then asciiToLower c else table c

/-- Go `strings.ToLower` on any text, for the case tables `table`. -/
def ToLowerText (table : Char → Char) (s : Str) : Str :=
  s.map (unicodeToLower table)

/-- Go `strings.HasPrefix`. -/
def HasPrefix (s pre : Str) : Bool :=
  pre.isPrefixOf s

/-- Go `strings.Contains`.  It compares bytes; on text, a text occurs as bytes
exactly where it occurs as characters. -/
def Contains (s substr : Str) : Bool :=
  decide (substr <:+: s)

/-- The method `Registry.GetAgentByName`.  The two loops `range r.agents` visit the
entries of the map in an order that Go does not fix: `range1` and `range2` are the
entries in the order of the first and of the second loop. -/
def Registry.GetAgentByName (_r : Registry) (table : Char → Char)
    (range1 range2 : List (AgentType × Agent)) (name : Str) : Except Str Agent :=
  let name := ToLowerText table (TrimSpace name)
  match range1.find? (fun e => ToLowerText table e.2.Name == name) with
  | some e => .ok e.2
  | none =>
    match range2.find? (fun e =>
        let agentName := ToLowerText table e.2.Name
        ( HasPrefix agentName name) || Contains agentName name) with
    | some e => .ok e.2
    | none => .error ("no agent found matching '".toList ++ name ++ "'".toList)

/-- A client whose transport always fails. -/
def offlineClient : GroqClient :=
  { APIKey := [], BaseURL := "https://api.groq.com/openai/v1/chat/completions".toList,
    SendChatRequest := fun _ _ => .error "offline".toList }

/-- System prompts with no text. -/
def emptyPrompts : SystemPrompts :=
  { plannerSystemPrompt := [], frontendSystemPrompt := [], backendSystemPrompt := [],
    securitySystemPrompt := [] }

/-! ## The manager of the configuration -/

/-- The constructor `config.NewManager`. -/
def NewManager : Manager :=
  { config := DefaultConfig }

/-- The method `Manager.SetGroqAPIKey`: the manager afterwards and the error of
`Save`. -/
def Manager.SetGroqAPIKey (m : Manager) (save : Config → Option Str) (apiKey : Str) :
    Manager × Option Str :=
  let m : Manager := { config := { m.config with GroqAPIKey := apiKey } }
  (m, save m.config)

/-- The method `Manager.AddAllowedCommand`. -/
def Manager.AddAllowedCommand (m : Manager) (save : Config → Option Str) (command : Str) :
    Manager × Option Str :=
  if m.config.AllowedCommands.any (fun cmd => cmd == command) then (m, none)
  else
    let m : Manager :=
      { config := { m.config with AllowedCommands := m.config.AllowedCommands ++ [command] } }
    (m, save m.config)

/-- The loop of `RemoveAllowedCommand` from index `i` on, where `rest` are the
commands from index `i`: at the first command equal to `command` the list becomes
`append(cmds[:i], cmds[i+1:]...)` and the loop ends. -/
def removeLoop (cmds : List Str) (command : Str) : Nat → List Str → List Str
  | _, [] => cmds
  | i, cmd :: rest =>
    if cmd = command then cmds.take i ++ cmds.drop (i + 1)
    else removeLoop cmds command (i + 1) rest

/-- The method `Manager.RemoveAllowedCommand`. -/
def Manager.RemoveAllowedCommand (m : Manager) (save : Config → Option Str) (command : Str) :
    Manager × Option Str :=
  let m : Manager :=
    { config := { m.config with
        AllowedCommands := removeLoop m.config.AllowedCommands command 0 m.config.AllowedCommands } }
  (m, save m.config)

/-- The list `validModels` of `isValidModel`. -/
def validModels : List Str :=
  ["gemma2-9b-it".toList, "llama-3.1-8b-instant".toList, "llama-3.3-70b-versatile".toList,
   "meta-llama/llama-guard-4-12b".toList, "deepseek-r1-distill-llama-70b".toList,
   "meta-llama/llama-4-maverick-17b-128e-instruct".toList,
   "meta-llama/llama-4-scout-17b-16e-instruct".toList, "moonshotai/kimi-k2-instruct".toList,
   "qwen/qwen3-32b".toList]

/-- The function `isValidModel`. -/
def isValidModel (model : Str) : Bool :=
  validModels.any (fun validModel => model == validModel)

/-- The method `Manager.ValidateConfig`: the message of the error, `none` for nil.
The loop visits the agent preferences in an order that Go does not fix: `range` is
the list of the entries in the order of the visit. -/
def Manager.ValidateConfig (m : Manager) (range : List (AgentType × AgentConfig)) : Option Str :=
  if m.config.GroqAPIKey = [] then
    some "Groq API key is required. Use 'go-code config set-key <key>' to set it".toList
  else if m.config.DefaultModel = [] then some "default model is required".toList
  else
    match range.find? (fun e => e.2.Model ≠ [] && !isValidModel e.2.Model) with
    | some e =>
      some ("invalid model '".toList ++ e.2.Model ++ "' for agent ".toList ++ e.1)
    | none => none

/-- The entries of a map, none for the nil map. -/
def mapEntries {κ ν : Type} (m : GoMap κ ν) : List (κ × ν) :=
  m.getD []

/-- The loop of `mergeWithDefaults` over the default agent preferences: a default is
set for every agent type that has no preference. -/
def mergeLoop (prefs : List (AgentType × AgentConfig)) :
    List (AgentType × AgentConfig) → List (AgentType × AgentConfig)
  | [] => prefs
  | (agentType, defaultConfig) :: rest =>
    match mapLookup (some prefs) agentType with
    | some _ => mergeLoop prefs rest
    | none => mergeLoop (mapSet prefs agentType defaultConfig) rest

/-- The method `Manager.mergeWithDefaults`: the configuration afterwards.  The loop
visits the default agent preferences in an order that Go does not fix: `range` is
the list of these entries in the order of the visit. -/
def mergeWithDefaults (range : List (AgentType × AgentConfig)) (config : Config) : Config :=
  let defaults := DefaultConfig
  let config :=
    if config.DefaultModel = [] then { config with DefaultModel := defaults.DefaultModel }
    else config
  let config :=
    if config.AllowedCommands.length = 0 then
      { config with AllowedCommands := defaults.AllowedCommands }
    else config
  let config :=
    match config.AgentPreferences with
    | none => { config with AgentPreferences := defaults.AgentPreferences }
    | some prefs => { config with AgentPreferences := some (mergeLoop prefs range) }
  match config.SessionPermissions with
  | none => { config with SessionPermissions := some [] }
  | some _ => config

/-! ## What a run shows -/

/-- The stage numbers of a trace: `current` and `total` of every call of
`DisplayProgress`, in order. -/
def progressCalls (trace : List Event) : List (Nat × Nat) :=
  trace.filterMap (fun e =>
    match e with
    | Event.DisplayProgress _ current total => some (current, total)
    | _ => none)

/-- The warnings of a trace: the message of every call of `DisplayWarning`, which
`ExecuteBuild` makes when it skips a task. -/
def warnings (trace : List Event) : List Str :=
  trace.filterMap (fun e =>
    match e with
    | Event.DisplayWarning message => some message
    | _ => none)

/-- The arithmetic of `float64`: every operation gives the exact result rounded.
The rounding is a parameter; it is monotone and it leaves the integers up to 100,
which are values of `float64`, as they are. -/
structure Float64 where
  round : ℚ → ℚ
  mono : ∀ x y : ℚ, x ≤ y → round x ≤ round y
  exact : ∀ n : ℕ, n ≤ 100 → round n = n

/-- The arithmetic without rounding. -/
def exactArithmetic : Float64 :=
  { round := fun x => x, mono := fun _ _ h => h, exact := fun _ _ => rfl }

/-- The conversion `int(x)` of a `float64`: the fraction is cut off. -/
def truncate (x : ℚ) : Int :=
  if 0 ≤ x then ⌊x⌋ else ⌈x⌉

/-- Go `strings.Repeat` on a one-character text; a negative count panics
(`none`). -/
def Repeat (c : Char) (count : Int) : Option Str :=
  if count < 0 then none else some (List.replicate count.toNat c)

/-- The progress bar of `ui.DisplayProgress` (lines 151 and 152 of `display.go`),
`none` when `strings.Repeat` panics.  The conversions `float64(current)` and
`float64(total)` are exact.  For `total = 0` the quotient is infinite or not a
number and what `int` makes of it depends on the platform; the model gives `none`
there, as on amd64, where the count is negative and `strings.Repeat` panics. -/
def progressBar (fl : Float64) (current total : Nat) : Option Str :=
  if total = 0 then none
  else
    let progress := fl.round (fl.round ((current : ℚ) / (total : ℚ)) * 100)
    let filled := truncate (fl.round (progress / 5))
    match Repeat '█' filled, Repeat '░' (20 - filled) with
    | some a, some b => some (a ++ b)
    | _, _ => none

/-! ## Lemmas on the matcher -/

theorem run_seq (a b : Regex) (st : MatchState) (k : Cont) :
    Regex.run (.seq a b) st k = Regex.run a st (fun st' => Regex.run b st' k) := rfl

theorem run_alt (a b : Regex) (st : MatchState) (k : Cont) :
    Regex.run (.alt a b) st k = (Regex.run a st k).orElse (fun _ => Regex.run b st k) := rfl

theorem run_empty (st : MatchState) (k : Cont) : Regex.run .empty st k = k st := rfl

theorem run_char_nil (p : Char → Bool) (pos : Nat) (caps : List (Nat × Str)) (k : Cont) :
    Regex.run (.char p) ⟨pos, [], caps⟩ k = none := rfl

theorem run_char_cons (p : Char → Bool) (pos : Nat) (c : Char) (cs : Str)
    (caps : List (Nat × Str)) (k : Cont) :
    Regex.run (.char p) ⟨pos, c :: cs, caps⟩ k = if p c then k ⟨pos + 1, cs, caps⟩ else none := rfl

theorem starLoop_char_greedy (p : Char → Bool) (k : Cont) :
    ∀ (s : Str) (fuel pos : Nat) (caps : List (Nat × Str)), s.length ≤ fuel →
      starLoop (fun s c => Regex.run (.char p) s c) true fuel ⟨pos, s, caps⟩ k
        = greedyChars p k pos s caps := by
  intro s
  induction s with
  | nil =>
    intro fuel pos caps _
    cases fuel with
    | zero => rfl
    | succ n => simp [starLoop, run_char_nil, greedyChars]
  | cons c cs ih =>
    intro fuel pos caps hf
    cases fuel with
    | zero => simp at hf
    | succ n =>
      have hn : cs.length ≤ n := by simpa using hf
      simp only [starLoop, run_char_cons, greedyChars, if_true]
      by_cases hp : p c = true
      · simp [hp, ih n (pos + 1) caps hn]
      · simp [hp]

theorem starLoop_char_lazy (p : Char → Bool) (k : Cont) :
    ∀ (s : Str) (fuel pos : Nat) (caps : List (Nat × Str)), s.length ≤ fuel →
      starLoop (fun s c => Regex.run (.char p) s c) false fuel ⟨pos, s, caps⟩ k
        = lazyChars p k pos s caps := by
  intro s
  induction s with
  | nil =>
    intro fuel pos caps _
    cases fuel with
    | zero => rfl
    | succ n =>
      simp only [starLoop, run_char_nil, lazyChars]
      cases k ⟨pos, [], caps⟩ <;> rfl
  | cons c cs ih =>
    intro fuel pos caps hf
    cases fuel with
    | zero => simp at hf
    | succ n =>
      have hn : cs.length ≤ n := by simpa using hf
      simp only [starLoop, run_char_cons, lazyChars]
      by_cases hp : p c = true
      · simp [hp, ih n (pos + 1) caps hn]
      · simp [hp]

theorem run_star_greedy (p : Char → Bool) (pos : Nat) (s : Str) (caps : List (Nat × Str))
    (k : Cont) :
    Regex.run (.star (.char p) true) ⟨pos, s, caps⟩ k = greedyChars p k pos s caps :=
  starLoop_char_greedy p k s s.length pos caps (Nat.le_refl _)

theorem run_star_lazy (p : Char → Bool) (pos : Nat) (s : Str) (caps : List (Nat × Str))
    (k : Cont) :
    Regex.run (.star (.char p) false) ⟨pos, s, caps⟩ k = lazyChars p k pos s caps :=
  starLoop_char_lazy p k s s.length pos caps (Nat.le_refl _)

theorem run_lit_nil (c : Char) (pos : Nat) (caps : List (Nat × Str)) (k : Cont) :
    Regex.run (Regex.lit c) ⟨pos, [], caps⟩ k = none := rfl

theorem run_lit_cons (c : Char) (pos : Nat) (d : Char) (cs : Str)
    (caps : List (Nat × Str)) (k : Cont) :
    Regex.run (Regex.lit c) ⟨pos, d :: cs, caps⟩ k = if d = c then k ⟨pos + 1, cs, caps⟩ else none := by
  simp [Regex.lit, run_char_cons]

/-- A greedy repetition whose continuation fails on every text that begins with a
character of the class takes the longest run. -/
theorem greedyChars_det (p : Char → Bool) (k : Cont)
    (hk : ∀ pos c cs caps, p c = true → k ⟨pos, c :: cs, caps⟩ = none) :
    ∀ (s : Str) (pos : Nat) (caps : List (Nat × Str)),
      greedyChars p k pos s caps
        = k ⟨pos + (s.takeWhile p).length, s.dropWhile p, caps⟩ := by
  intro s
  induction s with
  | nil => intro pos caps; simp [greedyChars]
  | cons c cs ih =>
    intro pos caps
    by_cases hp : p c = true
    · simp only [greedyChars, hp, if_true, ih, hk pos c cs caps hp, List.takeWhile_cons,
        List.dropWhile_cons, List.length_cons]
      have : pos + 1 + (List.takeWhile p cs).length = pos + ((List.takeWhile p cs).length + 1) := by
        omega
      rw [this]
      cases k ⟨pos + ((List.takeWhile p cs).length + 1), List.dropWhile p cs, caps⟩ <;> rfl
    · simp [greedyChars, hp, List.takeWhile_cons, List.dropWhile_cons]

/-- A greedy repetition takes the longest run when the continuation succeeds
there. -/
theorem greedyChars_longest (p : Char → Bool) (k : Cont) :
    ∀ (s : Str) (pos : Nat) (caps : List (Nat × Str)) (r : MatchState),
      k ⟨pos + (s.takeWhile p).length, s.dropWhile p, caps⟩ = some r →
      greedyChars p k pos s caps = some r := by
  intro s
  induction s with
  | nil => intro pos caps r h; simpa [greedyChars] using h
  | cons c cs ih =>
    intro pos caps r h
    by_cases hp : p c = true
    · simp only [List.takeWhile_cons, List.dropWhile_cons, hp, if_true, List.length_cons] at h
      have h' : k ⟨pos + 1 + (List.takeWhile p cs).length, List.dropWhile p cs, caps⟩ = some r := by
        rw [← h]; congr 2; omega
      simp [greedyChars, hp, ih (pos + 1) caps r h']
    · simpa [greedyChars, hp, List.takeWhile_cons, List.dropWhile_cons] using h

/-- A greedy repetition that fails: the continuation fails after every run of the
class, in particular after the longest. -/
theorem greedyChars_none (p : Char → Bool) (k : Cont) :
    ∀ (s : Str) (pos : Nat) (caps : List (Nat × Str)),
      (∀ n, n ≤ (s.takeWhile p).length → k ⟨pos + n, s.drop n, caps⟩ = none) →
      greedyChars p k pos s caps = none := by
  intro s
  induction s with
  | nil => intro pos caps h; simpa [greedyChars] using h 0 (Nat.zero_le _)
  | cons c cs ih =>
    intro pos caps h
    have h0 : k ⟨pos, c :: cs, caps⟩ = none := by simpa using h 0 (Nat.zero_le _)
    by_cases hp : p c = true
    · have hrec : greedyChars p k (pos + 1) cs caps = none := by
        apply ih
        intro n hn
        have := h (n + 1) (by simp [List.takeWhile_cons, hp, hn])
        simpa [Nat.add_assoc, Nat.add_comm 1 n] using this
      simp [greedyChars, hp, hrec, h0]
    · simp [greedyChars, hp, h0]

theorem run_group (i : Nat) (a : Regex) (st : MatchState) (k : Cont) :
    Regex.run (.group i a) st k
      = Regex.run a st (fun st' =>
          k { st' with caps := (i, st.rest.take (st'.pos - st.pos)) :: st'.caps }) := rfl

theorem orElse_self {α : Type} (a : Option α) : (a.orElse fun _ => a) = a := by
  cases a <;> rfl

theorem take_length_takeWhile (p : Char → Bool) (s : Str) :
    s.take (s.takeWhile p).length = s.takeWhile p := by
  induction s with
  | nil => rfl
  | cons c cs ih =>
    by_cases hp : p c = true
    · simp [List.takeWhile_cons, hp, ih]
    · simp [List.takeWhile_cons, hp]

theorem reDigit_ne_dot (c : Char) (h : reDigit c = true) : c ≠ '.' := by
  intro e; subst e; exact absurd h (by decide)

theorem reSpace_ne_star (c : Char) (h : reSpace c = true) : c ≠ '*' := by
  intro e; subst e; exact absurd h (by decide)

theorem reSpace_ne_lbracket (c : Char) (h : reSpace c = true) : c ≠ '[' := by
  intro e; subst e; exact absurd h (by decide)

theorem reWord_ne_rbracket (c : Char) (h : reWord c = true) : c ≠ ']' := by
  intro e; subst e; exact absurd h (by decide)

/-- The search of `p+` followed by an expression that fails on the class `p`. -/
theorem run_plus_det (p : Char → Bool) (X : Regex) (k : Cont)
    (hX : ∀ pos c cs caps, p c = true → Regex.run X ⟨pos, c :: cs, caps⟩ k = none)
    (pos : Nat) (s : Str) (caps : List (Nat × Str)) :
    Regex.run (.seq (Regex.plus (.char p) true) X) ⟨pos, s, caps⟩ k
      = if s.takeWhile p = [] then none
        else Regex.run X ⟨pos + (s.takeWhile p).length, s.dropWhile p, caps⟩ k := by
  cases s with
  | nil => simp [Regex.plus, run_seq, run_char_nil]
  | cons c cs =>
    by_cases hp : p c = true
    · simp only [Regex.plus, run_seq, run_char_cons, hp, if_true, run_star_greedy]
      rw [greedyChars_det p _ (fun pos c cs caps h => hX pos c cs caps h)]
      simp [List.takeWhile_cons, List.dropWhile_cons, hp, Nat.add_assoc, Nat.add_comm 1]
    · simp [Regex.plus, run_seq, run_char_cons, hp, List.takeWhile_cons]

/-- The search of `\s*` followed by an expression that fails on the class. -/
theorem run_star_det (p : Char → Bool) (X : Regex) (k : Cont)
    (hX : ∀ pos c cs caps, p c = true → Regex.run X ⟨pos, c :: cs, caps⟩ k = none)
    (pos : Nat) (s : Str) (caps : List (Nat × Str)) :
    Regex.run (.seq (.star (.char p) true) X) ⟨pos, s, caps⟩ k
      = Regex.run X ⟨pos + (s.takeWhile p).length, s.dropWhile p, caps⟩ k := by
  simp only [run_seq, run_star_greedy]
  rw [greedyChars_det p _ (fun pos c cs caps h => hX pos c cs caps h)]

/-- The search of a group `(p+)` followed by an expression that fails on the class. -/
theorem run_group_plus_det (i : Nat) (p : Char → Bool) (X : Regex) (k : Cont)
    (hX : ∀ pos c cs caps, p c = true → Regex.run X ⟨pos, c :: cs, caps⟩ k = none)
    (pos : Nat) (s : Str) (caps : List (Nat × Str)) :
    Regex.run (.seq (.group i (Regex.plus (.char p) true)) X) ⟨pos, s, caps⟩ k
      = if s.takeWhile p = [] then none
        else Regex.run X ⟨pos + (s.takeWhile p).length, s.dropWhile p,
              (i, s.takeWhile p) :: caps⟩ k := by
  cases s with
  | nil => simp [Regex.plus, run_seq, run_group, run_char_nil]
  | cons c cs =>
    by_cases hp : p c = true
    · simp only [Regex.plus, run_seq, run_group, run_char_cons, hp, if_true, run_star_greedy]
      rw [greedyChars_det p _ (fun pos c cs caps h => hX pos c cs _ h)]
      have h1 : pos + 1 + (List.takeWhile p cs).length - pos = (List.takeWhile p cs).length + 1 := by
        omega
      simp [List.takeWhile_cons, List.dropWhile_cons, hp, h1, take_length_takeWhile,
        Nat.add_assoc, Nat.add_comm 1]
    · simp [Regex.plus, run_seq, run_group, run_char_cons, hp, List.takeWhile_cons]

/-- The search of `\*?\*?\[`. -/
theorem run_stars_bracket (X : Regex) (k : Cont) (pos : Nat) (s : Str)
    (caps : List (Nat × Str)) :
    Regex.run (.seq (Regex.opt (Regex.lit '*')) (.seq (Regex.opt (Regex.lit '*'))
        (.seq (Regex.lit '[') X))) ⟨pos, s, caps⟩ k
      = match (dropStars s).2 with
        | [] => none
        | c :: r => if c = '[' then Regex.run X ⟨pos + (dropStars s).1 + 1, r, caps⟩ k else none := by
  have hne : ('*' : Char) ≠ '[' := by decide
  rcases s with _ | ⟨c, _ | ⟨d, _ | ⟨e, r⟩⟩⟩
  · simp [Regex.opt, run_seq, run_alt, run_empty, run_lit_nil, dropStars]
  · by_cases hc : c = '*'
    · subst hc
      simp [Regex.opt, run_seq, run_alt, run_empty, run_lit_nil, run_lit_cons, dropStars]
    · simp [Regex.opt, run_seq, run_alt, run_empty, run_lit_nil, run_lit_cons, dropStars, hc]
  · by_cases hc : c = '*'
    · subst hc
      by_cases hd : d = '*'
      · subst hd
        simp [Regex.opt, run_seq, run_alt, run_empty, run_lit_nil, run_lit_cons, dropStars]
      · by_cases hd2 : d = '['
        · subst hd2
          simp [Regex.opt, run_seq, run_alt, run_empty, run_lit_nil, run_lit_cons, dropStars,
            orElse_self]
        · simp [Regex.opt, run_seq, run_alt, run_empty, run_lit_nil, run_lit_cons, dropStars,
            hd, hd2]
    · simp [Regex.opt, run_seq, run_alt, run_empty, run_lit_nil, run_lit_cons, dropStars, hc]
  · by_cases hc : c = '*'
    · subst hc
      by_cases hd : d = '*'
      · subst hd
        by_cases he : e = '['
        · subst he
          simp [Regex.opt, run_seq, run_alt, run_empty, run_lit_nil, run_lit_cons, dropStars]
        · simp [Regex.opt, run_seq, run_alt, run_empty, run_lit_nil, run_lit_cons, dropStars,
            he]
      · by_cases hd2 : d = '['
        · subst hd2
          simp [Regex.opt, run_seq, run_alt, run_empty, run_lit_nil, run_lit_cons, dropStars,
            orElse_self]
        · simp [Regex.opt, run_seq, run_alt, run_empty, run_lit_nil, run_lit_cons, dropStars,
            hd, hd2]
    · simp [Regex.opt, run_seq, run_alt, run_empty, run_lit_nil, run_lit_cons, dropStars, hc]

theorem run_bol_zero (s : Str) (caps : List (Nat × Str)) (k : Cont) :
    Regex.run .bol ⟨0, s, caps⟩ k = k ⟨0, s, caps⟩ := rfl

theorem run_bol_succ (pos : Nat) (s : Str) (caps : List (Nat × Str)) (k : Cont) :
    Regex.run .bol ⟨pos + 1, s, caps⟩ k = none := rfl

theorem dropStars_of_ne (c : Char) (cs : Str) (h : c ≠ '*') : dropStars (c :: cs) = (0, c :: cs) := by
  cases cs <;> simp [dropStars, h]

/-- The head of `taskRegex` matches in one way at most, the way of `scanHead`. -/
theorem run_head (X : Regex) (k : Cont) (line : Str) :
    Regex.run (.seq .bol (.seq (Regex.plus (.char reDigit) true) (.seq (Regex.lit '.')
      (.seq (.star (.char reSpace) true) (.seq (Regex.opt (Regex.lit '*'))
      (.seq (Regex.opt (Regex.lit '*')) (.seq (Regex.lit '[')
      (.seq (.group 1 (Regex.plus (.char reWord) true)) (.seq (Regex.lit ']') X)))))))))
        ⟨0, line, []⟩ k
      = match scanHead line with
        | none => none
        | some (w, n, r) => Regex.run X ⟨n, r, [(1, w)]⟩ k := by
  rw [run_seq, run_bol_zero]
  rw [run_plus_det reDigit _ k (fun pos c cs caps h => by
    rw [run_seq, run_lit_cons]; simp [reDigit_ne_dot c h])]
  unfold scanHead
  by_cases hd : List.takeWhile reDigit line = []
  · simp [hd]
  · simp only [hd, if_false, Nat.zero_add]
    cases hr : List.dropWhile reDigit line with
    | nil => simp [run_seq, run_lit_nil]
    | cons c r1 =>
      rw [run_seq, run_lit_cons]
      by_cases hc : c = '.'
      · simp only [hc, if_true]
        rw [run_star_det reSpace _ k (fun pos c cs caps h => by
          rw [run_stars_bracket, dropStars_of_ne c cs (reSpace_ne_star c h)]
          simp [reSpace_ne_lbracket c h])]
        rw [run_stars_bracket]
        cases hs : (dropStars (List.dropWhile reSpace r1)).2 with
        | nil => simp
        | cons c2 r3 =>
          by_cases hc2 : c2 = '['
          · simp only [hc2, if_true]
            rw [run_group_plus_det 1 reWord _ k (fun pos c cs caps h => by
              rw [run_seq, run_lit_cons]; simp [reWord_ne_rbracket c h])]
            by_cases hw : List.takeWhile reWord r3 = []
            · simp [hw]
            · simp only [hw, if_false]
              cases hr4 : List.dropWhile reWord r3 with
              | nil => simp [run_seq, run_lit_nil]
              | cons c3 r4 =>
                rw [run_seq, run_lit_cons]
                by_cases hc3 : c3 = ']'
                · simp only [hc3, if_true]
                · simp [hc3]
          · simp [hc2]
      · simp [hc]

theorem taskRegex_unfold :
    taskRegex = .seq .bol (.seq (Regex.plus (.char reDigit) true) (.seq (Regex.lit '.')
      (.seq (.star (.char reSpace) true) (.seq (Regex.opt (Regex.lit '*'))
      (.seq (Regex.opt (Regex.lit '*')) (.seq (Regex.lit '[')
      (.seq (.group 1 (Regex.plus (.char reWord) true)) (.seq (Regex.lit ']')
      (.seq (Regex.opt (Regex.lit '*')) (.seq (Regex.opt (Regex.lit '*'))
      (.seq (.star (.char reSpace) true)
      (.seq (.group 2 (Regex.plus (.char reAny) false)) taskEnd)))))))))))) := rfl

theorem reSpace_ne_backquote (c : Char) (h : reSpace c = true) : c ≠ '`' := by
  intro e; subst e; exact absurd h (by decide)

theorem run_eol_nil (pos : Nat) (caps : List (Nat × Str)) (k : Cont) :
    Regex.run .eol ⟨pos, [], caps⟩ k = k ⟨pos, [], caps⟩ := rfl

theorem run_eol_cons (pos : Nat) (c : Char) (cs : Str) (caps : List (Nat × Str)) (k : Cont) :
    Regex.run .eol ⟨pos, c :: cs, caps⟩ k = none := rfl

/-- The end of `taskRegex` matches the way of `scanEnd`. -/
theorem run_taskEnd (pos : Nat) (u : Str) (caps : List (Nat × Str)) :
    Regex.run taskEnd ⟨pos, u, caps⟩ some
      = (scanEnd u).map (fun e => ⟨pos + e.1, e.2, caps⟩) := by
  unfold taskEnd
  simp only [Regex.cat]
  rw [run_alt]
  rw [run_star_det reSpace _ some (fun pos c cs caps h => by
    rw [run_seq, run_lit_cons]; simp [reSpace_ne_backquote c h])]
  rw [run_star_det reSpace _ some (fun pos c cs caps h => by rw [run_eol_cons])]
  unfold scanEnd
  rcases hr : List.dropWhile reSpace u with _ | ⟨c1, _ | ⟨c2, _ | ⟨c3, r⟩⟩⟩
  · simp [run_seq, run_lit_nil, run_eol_nil]
  · simp [run_seq, run_lit_nil, run_lit_cons, run_eol_cons]
  · simp [run_seq, run_lit_nil, run_lit_cons, run_eol_cons]
  · by_cases h1 : c1 = '`'
    · by_cases h2 : c2 = '`'
      · by_cases h3 : c3 = '`'
        · simp [run_seq, run_lit_cons, run_eol_cons, h1, h2, h3, Nat.add_assoc]
        · simp [run_seq, run_lit_cons, run_eol_cons, h1, h2, h3]
      · simp [run_seq, run_lit_cons, run_eol_cons, h1, h2]
    · simp [run_seq, run_lit_cons, run_eol_cons, h1]

/-- The lazy repetition inside group 2, followed by the end of `taskRegex`. -/
theorem lazyChars_desc (p0 : Nat) (U : Str) (caps : List (Nat × Str)) :
    ∀ (u : Str) (n : Nat),
      lazyChars reAny (fun st' => Regex.run taskEnd
          { st' with caps := (2, U.take (st'.pos - p0)) :: st'.caps } some) (p0 + n) u caps
        = (lazyDesc n u).map (fun r => ⟨p0 + r.1 + r.2.1, r.2.2, (2, U.take r.1) :: caps⟩) := by
  intro u
  induction u with
  | nil =>
    intro n
    simp only [lazyChars, lazyDesc, run_taskEnd]
    cases scanEnd [] <;> simp
  | cons c cs ih =>
    intro n
    simp only [lazyChars, lazyDesc, run_taskEnd]
    cases hs : scanEnd (c :: cs) with
    | some e => simp
    | none =>
      by_cases hc : reAny c = true
      · have := ih (n + 1)
        rw [← Nat.add_assoc] at this
        simp only [run_taskEnd] at this
        simp [hc, this]
      · simp [hc]

/-- Group 2 and the end of `taskRegex` match the way of `lazyDesc`. -/
theorem run_desc (pos : Nat) (u : Str) (caps : List (Nat × Str)) :
    Regex.run (.seq (.group 2 (Regex.plus (.char reAny) false)) taskEnd) ⟨pos, u, caps⟩ some
      = match u with
        | [] => none
        | c :: cs =>
          if reAny c then
            (lazyDesc 1 cs).map (fun r => ⟨pos + r.1 + r.2.1, r.2.2, (2, (c :: cs).take r.1) :: caps⟩)
          else none := by
  cases u with
  | nil => simp [Regex.plus, run_seq, run_group, run_char_nil]
  | cons c cs =>
    by_cases hc : reAny c = true
    · simp only [Regex.plus, run_seq, run_group, run_char_cons, hc, if_true, run_star_lazy]
      exact lazyChars_desc pos (c :: cs) caps cs 1
    · simp [Regex.plus, run_seq, run_group, run_char_cons, hc]

/-! ## The result of `FindStringSubmatch` on `taskRegex` -/

theorem run_taskRegex_succ (pos : Nat) (s : Str) :
    Regex.run taskRegex ⟨pos + 1, s, []⟩ some = none := by
  rw [taskRegex_unfold, run_seq, run_bol_succ]

theorem findFrom_taskRegex_succ : ∀ (s : Str) (pos : Nat), findFrom taskRegex (pos + 1) s = none := by
  intro s
  induction s with
  | nil => intro pos; simp [findFrom, run_taskRegex_succ]
  | cons c cs ih => intro pos; simp [findFrom, run_taskRegex_succ, ih]

theorem findFrom_taskRegex (s : Str) :
    findFrom taskRegex 0 s = (Regex.run taskRegex ⟨0, s, []⟩ some).map (fun st => (0, st)) := by
  cases s with
  | nil => rfl
  | cons c cs =>
    simp only [findFrom]
    cases Regex.run taskRegex ⟨0, c :: cs, []⟩ some with
    | none => simpa using findFrom_taskRegex_succ cs 0
    | some st => rfl

/-- The expression `taskRegex` is anchored: a match is a match of the whole
expression at the beginning of the line. -/
theorem FindStringSubmatch_taskRegex (line : Str) :
    FindStringSubmatch taskRegex 2 line
      = match Regex.run taskRegex ⟨0, line, []⟩ some with
        | none => []
        | some st => [line.take st.pos, capture st.caps 1, capture st.caps 2] := by
  unfold FindStringSubmatch
  rw [findFrom_taskRegex]
  cases Regex.run taskRegex ⟨0, line, []⟩ some with
  | none => rfl
  | some st => simp [List.range_succ]

/-- A line on which the head of `taskRegex` does not match has no match. -/
theorem FindStringSubmatch_of_scanHead_none (line : Str) (h : scanHead line = none) :
    FindStringSubmatch taskRegex 2 line = [] := by
  rw [FindStringSubmatch_taskRegex, taskRegex_unfold, run_head, h]

/-- The lazy group takes the whole text when the end of the expression matches
nowhere before the end of the text. -/
theorem lazyDesc_all : ∀ (u : Str) (n : Nat), (∀ c ∈ u, reAny c = true) →
    (∀ v, v ≠ [] → v <:+ u → scanEnd v = none) →
    lazyDesc n u = some (n + u.length, 0, []) := by
  intro u
  induction u with
  | nil => intro n _ _; simp [lazyDesc, scanEnd]
  | cons c cs ih =>
    intro n hany hend
    have h1 : scanEnd (c :: cs) = none := hend (c :: cs) (by simp) (List.suffix_refl _)
    have h2 : reAny c = true := hany c (by simp)
    have h3 := ih (n + 1) (fun x hx => hany x (List.mem_cons_of_mem _ hx))
      (fun v hv hs => hend v hv (hs.trans (List.suffix_cons c cs)))
    simp only [lazyDesc, h1, h2, if_true, h3, List.length_cons]
    congr 2
    omega

/-- The end of `taskRegex` does not match a text that ends in a character outside
`\s` and holds no code fence. -/
theorem scanEnd_none (v : Str) (hv : v ≠ []) (hlast : reSpace (v.getLast hv) = false)
    (hf : ¬ "```".toList <:+: v) : scanEnd v = none := by
  have hsuf : List.dropWhile reSpace v <:+ v := List.dropWhile_suffix _
  have hne : List.dropWhile reSpace v ≠ [] := by
    intro h
    rw [List.dropWhile_eq_nil_iff] at h
    have := h (v.getLast hv) (List.getLast_mem hv)
    simp [hlast] at this
  unfold scanEnd
  rcases hr : List.dropWhile reSpace v with _ | ⟨c1, _ | ⟨c2, _ | ⟨c3, r⟩⟩⟩
  · exact absurd hr hne
  · rfl
  · rfl
  · by_cases h : c1 = '`' ∧ c2 = '`' ∧ c3 = '`'
    · exfalso
      apply hf
      obtain ⟨h1, h2, h3⟩ := h
      subst h1 h2 h3
      obtain ⟨t, ht⟩ := hsuf
      rw [hr] at ht
      exact ⟨t, r, by rw [← ht]; simp⟩
    · simp [h]

theorem takeWhile_append_stop (p : Char → Bool) (xs : Str) (c : Char) (r : Str)
    (hxs : ∀ x ∈ xs, p x = true) (hc : p c = false) :
    List.takeWhile p (xs ++ c :: r) = xs := by
  rw [List.takeWhile_append_of_pos hxs]
  simp [List.takeWhile_cons, hc]

theorem dropWhile_append_stop (p : Char → Bool) (xs : Str) (c : Char) (r : Str)
    (hxs : ∀ x ∈ xs, p x = true) (hc : p c = false) :
    List.dropWhile p (xs ++ c :: r) = c :: r := by
  rw [List.dropWhile_append_of_pos hxs]
  simp [List.dropWhile_cons, hc]

/-- The head of `taskRegex` on a line `<n>.<spaces>[<R>]<rest>`. -/
theorem scanHead_shape (n sp R r4 : Str) (hn : n ≠ []) (hnd : ∀ c ∈ n, reDigit c = true)
    (hsp : ∀ c ∈ sp, reSpace c = true) (hR : R ≠ []) (hRw : ∀ c ∈ R, reWord c = true) :
    scanHead (n ++ '.' :: (sp ++ '[' :: (R ++ ']' :: r4)))
      = some (R, n.length + 1 + sp.length + 0 + 1 + R.length + 1, r4) := by
  have h1 := takeWhile_append_stop reDigit n '.' (sp ++ '[' :: (R ++ ']' :: r4)) hnd (by decide)
  have h2 := dropWhile_append_stop reDigit n '.' (sp ++ '[' :: (R ++ ']' :: r4)) hnd (by decide)
  have h3 := takeWhile_append_stop reSpace sp '[' (R ++ ']' :: r4) hsp (by decide)
  have h4 := dropWhile_append_stop reSpace sp '[' (R ++ ']' :: r4) hsp (by decide)
  have h5 := takeWhile_append_stop reWord R ']' r4 hRw (by decide)
  have h6 := dropWhile_append_stop reWord R ']' r4 hRw (by decide)
  have h7 : dropStars ('[' :: (R ++ ']' :: r4)) = (0, '[' :: (R ++ ']' :: r4)) :=
    dropStars_of_ne _ _ (by decide)
  unfold scanHead
  simp only [h1, h2, h3, h4, h5, h6, h7, hn, hR, if_true, if_false]

/-- The part ``\*?\*?\s*`` of `taskRegex` on a text that does not begin with a
star. -/
theorem run_tail_of_ne_star (G : Regex) (pos : Nat) (c : Char) (cs : Str)
    (caps : List (Nat × Str)) (hc : c ≠ '*') :
    Regex.run (.seq (Regex.opt (Regex.lit '*')) (.seq (Regex.opt (Regex.lit '*'))
        (.seq (.star (.char reSpace) true) G))) ⟨pos, c :: cs, caps⟩ some
      = greedyChars reSpace (fun st => Regex.run G st some) pos (c :: cs) caps := by
  simp [Regex.opt, run_seq, run_alt, run_empty, run_lit_cons, hc, run_star_greedy]

/-- The match of `taskRegex` on a line `<n>.<spaces>[<R>]<rest>` whose rest begins
with a character other than a star and holds, after its leading `\s`, a non-empty
text before which the end of the expression matches nowhere: group 1 is `R`, group 2
is that text. -/
theorem FindStringSubmatch_shape (n sp R : Str) (c : Char) (cs : Str)
    (hn : n ≠ []) (hnd : ∀ x ∈ n, reDigit x = true)
    (hsp : ∀ x ∈ sp, reSpace x = true) (hR : R ≠ []) (hRw : ∀ x ∈ R, reWord x = true)
    (hc : c ≠ '*') (hu : List.dropWhile reSpace (c :: cs) ≠ [])
    (hany : ∀ x ∈ List.dropWhile reSpace (c :: cs), reAny x = true)
    (hend : ∀ v, v ≠ [] → v <:+ List.dropWhile reSpace (c :: cs) → scanEnd v = none) :
    ∃ whole, FindStringSubmatch taskRegex 2 (n ++ '.' :: (sp ++ '[' :: (R ++ ']' :: c :: cs)))
      = [whole, R, List.dropWhile reSpace (c :: cs)] := by
  rw [FindStringSubmatch_taskRegex, taskRegex_unfold, run_head,
    scanHead_shape n sp R (c :: cs) hn hnd hsp hR hRw]
  simp only
  rw [run_tail_of_ne_star _ _ c cs _ hc]
  generalize hpos : n.length + 1 + sp.length + 0 + 1 + R.length + 1 = pos
  obtain ⟨d, ds, hds⟩ : ∃ d ds, List.dropWhile reSpace (c :: cs) = d :: ds := by
    cases h : List.dropWhile reSpace (c :: cs) with
    | nil => exact absurd h hu
    | cons d ds => exact ⟨d, ds, rfl⟩
  have hd : reAny d = true := hany d (by rw [hds]; simp)
  have hlazy : lazyDesc 1 ds = some (1 + ds.length, 0, []) :=
    lazyDesc_all ds 1 (fun x hx => hany x (by rw [hds]; exact List.mem_cons_of_mem _ hx))
      (fun v hv hs => hend v hv (by rw [hds]; exact hs.trans (List.suffix_cons d ds)))
  have hk : (fun st => Regex.run (.seq (.group 2 (Regex.plus (.char reAny) false)) taskEnd) st some)
      ⟨pos + (List.takeWhile reSpace (c :: cs)).length, List.dropWhile reSpace (c :: cs), [(1, R)]⟩
      = some ⟨pos + (List.takeWhile reSpace (c :: cs)).length + (1 + ds.length) + 0, [],
          [(2, d :: ds), (1, R)]⟩ := by
    simp only [run_desc, hds, hd, if_true, hlazy, Option.map_some']
    have : List.take (1 + ds.length) (d :: ds) = d :: ds := by
      apply List.take_of_length_le; simp; omega
    rw [this]
  rw [greedyChars_longest reSpace _ (c :: cs) pos [(1, R)] _ hk]
  rw [hds]
  exact ⟨_, rfl⟩

/-! ## Lemmas on `strings` -/

theorem reSpace_isSpace (c : Char) (h : reSpace c = true) : isSpace c = true := by
  simp only [reSpace, Bool.or_eq_true, beq_iff_eq] at h
  rcases h with (((h | h) | h) | h) | h <;> subst h <;> decide

theorem reDigit_not_isSpace (c : Char) (h : reDigit c = true) : isSpace c = false := by
  have h1 : 48 ≤ c.toNat ∧ c.toNat ≤ 57 := by
    simp only [reDigit, Bool.and_eq_true, decide_eq_true_eq] at h
    exact ⟨h.1, h.2⟩
  simp only [isSpace]
  simp only [Bool.or_eq_false_iff, Bool.and_eq_false_iff, decide_eq_false_iff_not,
    beq_eq_false_iff_ne]
  omega

theorem rdropWhile_append_rtakeWhile (p : Char → Bool) (y : Str) :
    y.rdropWhile p ++ y.rtakeWhile p = y := by
  have h : y.rdropWhile p ++ y.rtakeWhile p
      = (List.takeWhile p y.reverse ++ List.dropWhile p y.reverse).reverse := by
    simp only [List.rdropWhile, List.rtakeWhile, List.reverse_append]
  rw [h, List.takeWhile_append_dropWhile, List.reverse_reverse]

theorem rdropWhile_append_of_pos (p : Char → Bool) (x b : Str) (hb : ∀ c ∈ b, p c = true) :
    (x ++ b).rdropWhile p = x.rdropWhile p := by
  simp only [List.rdropWhile, List.reverse_append]
  rw [List.dropWhile_append_of_pos (fun c hc => hb c (List.mem_reverse.mp hc))]

/-- The shape of a text whose `TrimSpace` is not empty: white space, the trimmed
text, white space; the trimmed text begins and ends with a character that is not
white space. -/
theorem TrimSpace_facts (d : Str) (hd : TrimSpace d ≠ []) :
    ∃ a b : Str, d = a ++ TrimSpace d ++ b ∧ (∀ c ∈ a, isSpace c = true) ∧
      (∀ c ∈ b, isSpace c = true) ∧ isSpace ((TrimSpace d).getLast hd) = false ∧
      isSpace ((TrimSpace d).head hd) = false := by
  have hm : TrimSpace d = (d.dropWhile isSpace).rdropWhile isSpace := rfl
  have hy : d.dropWhile isSpace ≠ [] := by
    intro h; apply hd; rw [hm, h]; rfl
  refine ⟨d.takeWhile isSpace, (d.dropWhile isSpace).rtakeWhile isSpace, ?_, ?_, ?_, ?_, ?_⟩
  · rw [List.append_assoc, hm, rdropWhile_append_rtakeWhile, List.takeWhile_append_dropWhile]
  · intro c hc
    exact (List.mem_takeWhile_imp hc)
  · intro c hc
    exact List.mem_rtakeWhile_imp hc
  · have := List.rdropWhile_last_not isSpace (d.dropWhile isSpace) (by rwa [hm] at hd)
    simpa [hm] using this
  · have hpre : TrimSpace d <+: d.dropWhile isSpace := by
      rw [hm]; exact List.rdropWhile_prefix _ _
    rw [hpre.head hd]
    exact List.head_dropWhile_not isSpace d hy

/-- `TrimSpace` on white space, a text that begins and ends with a character that
is not white space, and white space. -/
theorem TrimSpace_eq (a m b : Str) (hm : m ≠ []) (ha : ∀ c ∈ a, isSpace c = true)
    (hb : ∀ c ∈ b, isSpace c = true) (hlast : isSpace (m.getLast hm) = false)
    (hhead : isSpace (m.head hm) = false) : TrimSpace (a ++ m ++ b) = m := by
  have h1 : TrimSpace (a ++ m ++ b) = ((a ++ m ++ b).dropWhile isSpace).rdropWhile isSpace := rfl
  rw [h1, List.append_assoc, List.dropWhile_append_of_pos ha]
  have h2 : (m ++ b).dropWhile isSpace = m ++ b := by
    cases m with
    | nil => exact absurd rfl hm
    | cons x xs =>
      have : isSpace x = false := by simpa using hhead
      simp [List.dropWhile_cons, this]
  rw [h2, rdropWhile_append_of_pos isSpace m b hb, List.rdropWhile_eq_self_iff]
  intro hl
  simp [hlast]

/-- The text `strings.Split(s, "\n")` of a text without a newline is the text
itself. -/
theorem splitAux_no_newline : ∀ (s cur : Str), '\n' ∉ s → splitAux s cur = [cur.reverse ++ s] := by
  intro s
  induction s with
  | nil => intro cur _; simp [splitAux]
  | cons c cs ih =>
    intro cur h
    have hc : c ≠ '\n' := fun e => h (by simp [e])
    have hcs : '\n' ∉ cs := fun e => h (List.mem_cons_of_mem _ e)
    simp [splitAux, hc, ih (c :: cur) hcs]

theorem splitLines_no_newline (s : Str) (h : '\n' ∉ s) : splitLines s = [s] := by
  simpa [splitLines] using splitAux_no_newline s [] h

theorem splitAux_append_newline : ∀ (a b cur : Str),
    splitAux (a ++ '\n' :: b) cur = splitAux a cur ++ splitLines b := by
  intro a
  induction a with
  | nil => intro b cur; simp [splitAux, splitLines]
  | cons c cs ih =>
    intro b cur
    by_cases hc : c = '\n'
    · simp [splitAux, hc, ih b []]
    · simp [splitAux, hc, ih b (c :: cur)]

/-- Splitting at a newline: the lines of the text before it, then the lines of the
text after it. -/
theorem splitLines_append_newline (a b : Str) :
    splitLines (a ++ '\n' :: b) = splitLines a ++ splitLines b :=
  splitAux_append_newline a b []

/-! ## Lemmas on the role names -/

theorem reWord_of_toLowerRune (c : Char) (h : reWord (toLowerRune c) = true) :
    reWord c = true := by
  unfold toLowerRune at h
  by_cases h1 : 'A' ≤ c ∧ c ≤ 'Z'
  · simp [reWord, h1.1, h1.2]
  · rw [if_neg h1] at h
    by_cases h2 : c = Char.ofNat 0x212A
    · subst h2; decide
    · rw [if_neg h2] at h; exact h

theorem roles_reWord :
    ∀ x ∈ [BackendAgent, FrontendAgent, SecurityAgent, PlannerAgent], ∀ c ∈ x, reWord c = true := by
  decide

theorem roles_mapAgentName :
    ∀ x ∈ [BackendAgent, FrontendAgent, SecurityAgent, PlannerAgent], mapAgentName x = x := by
  decide

theorem roles_ne_nil :
    ∀ x ∈ [BackendAgent, FrontendAgent, SecurityAgent, PlannerAgent], x ≠ [] := by
  decide

theorem role_reWord (R : Str)
    (hR : ToLower R ∈ [BackendAgent, FrontendAgent, SecurityAgent, PlannerAgent]) :
    ∀ c ∈ R, reWord c = true := by
  intro c hc
  apply reWord_of_toLowerRune
  exact roles_reWord _ hR _ (List.mem_map_of_mem toLowerRune hc)

theorem role_ne_nil (R : Str)
    (hR : ToLower R ∈ [BackendAgent, FrontendAgent, SecurityAgent, PlannerAgent]) : R ≠ [] := by
  intro h
  subst h
  exact roles_ne_nil _ hR rfl

theorem suffix_dropWhile_append (p : Char → Bool) (m : Str) (hm : m ≠ [])
    (hhead : p (m.head hm) = false) : ∀ x : Str, m <:+ List.dropWhile p (x ++ m) := by
  intro x
  induction x with
  | nil =>
    cases m with
    | nil => exact absurd rfl hm
    | cons y ys =>
      have : p y = false := by simpa using hhead
      simp [List.dropWhile_cons, this]
  | cons c cs ih =>
    by_cases hc : p c = true
    · simpa [List.dropWhile_cons, hc] using ih
    · simp only [List.cons_append, List.dropWhile_cons, hc]
      exact ⟨c :: cs, rfl⟩

theorem not_reSpace_of_not_isSpace (c : Char) (h : isSpace c = false) : reSpace c = false := by
  cases hr : reSpace c with
  | false => rfl
  | true => rw [reSpace_isSpace c hr] at h; exact absurd h (by simp)

theorem reWord_ne_newline (c : Char) (h : reWord c = true) : c ≠ '\n' := by
  intro e; subst e; exact absurd h (by decide)

theorem reDigit_ne_newline (c : Char) (h : reDigit c = true) : c ≠ '\n' := by
  intro e; subst e; exact absurd h (by decide)

/-- One line `<n>. [<ROLE>] <description>` with a recognised role and a description
that holds a character other than white space, no newline and no code fence: the
step of the loop of `parsePlan` appends one task. -/
theorem parseLine_task (st : ParseState) (n R d : Str) (hn : n ≠ [])
    (hnd : ∀ c ∈ n, reDigit c = true)
    (hR : ToLower R ∈ [BackendAgent, FrontendAgent, SecurityAgent, PlannerAgent])
    (hnl : '\n' ∉ d) (hfence : ¬ "```".toList <:+: d) (hd : TrimSpace d ≠ []) :
    parseLine st (n ++ ". [".toList ++ R ++ "] ".toList ++ d)
      = { tasks := st.tasks ++ [{ ID := taskIDString st.taskID, AgentType := ToLower R,
                                  Description := TrimSuffix (TrimSuffix (TrimSpace d) ".".toList)
                                    ":".toList,
                                  Dependencies := [], Status := "pending".toList,
                                  Result := none }],
          taskID := st.taskID + 1 } := by
  obtain ⟨a, b, hdec, ha, hb, hlast, hhead⟩ := TrimSpace_facts d hd
  have hRw := role_reWord R hR
  have hRne := role_ne_nil R hR
  -- the line, and the line trimmed
  have hline : n ++ ". [".toList ++ R ++ "] ".toList ++ d
      = [] ++ (n ++ '.' :: ([' '] ++ '[' :: (R ++ ']' :: ' ' :: (a ++ TrimSpace d)))) ++ b := by
    conv_lhs => rw [hdec]
    simp [List.append_assoc]
  have hne : n ++ '.' :: ([' '] ++ '[' :: (R ++ ']' :: ' ' :: (a ++ TrimSpace d))) ≠ [] := by
    cases n with
    | nil => exact absurd rfl hn
    | cons x xs => simp
  have htrim : TrimSpace (n ++ ". [".toList ++ R ++ "] ".toList ++ d)
      = n ++ '.' :: ([' '] ++ '[' :: (R ++ ']' :: ' ' :: (a ++ TrimSpace d))) := by
    rw [hline]
    apply TrimSpace_eq _ _ _ hne (by simp) hb
    · have e : (n ++ '.' :: ([' '] ++ '[' :: (R ++ ']' :: ' ' :: (a ++ TrimSpace d)))).getLast hne
          = (TrimSpace d).getLast hd := by
        have hs : TrimSpace d <:+ n ++ '.' :: ([' '] ++ '[' :: (R ++ ']' :: ' ' :: (a ++ TrimSpace d))) :=
          ⟨n ++ '.' :: ([' '] ++ '[' :: (R ++ ']' :: ' ' :: a)), by simp [List.append_assoc]⟩
        exact (hs.getLast hd).symm
      rw [e]; exact hlast
    · cases n with
      | nil => exact absurd rfl hn
      | cons x xs =>
        simpa using reDigit_not_isSpace x (hnd x (by simp))
  -- group 2 of the match
  have hu : List.dropWhile reSpace (' ' :: (a ++ TrimSpace d))
      = List.dropWhile reSpace (a ++ TrimSpace d) := by
    simp [List.dropWhile_cons, show reSpace ' ' = true from by decide]
  have htw := List.takeWhile_append_dropWhile reSpace (a ++ TrimSpace d)
  have hsuf : List.dropWhile reSpace (a ++ TrimSpace d) <:+ a ++ TrimSpace d :=
    List.dropWhile_suffix _
  obtain ⟨t, ht⟩ : TrimSpace d <:+ List.dropWhile reSpace (a ++ TrimSpace d) :=
    suffix_dropWhile_append reSpace _ hd (not_reSpace_of_not_isSpace _ hhead) a
  have hta : List.takeWhile reSpace (a ++ TrimSpace d) ++ t = a := by
    rw [← ht, ← List.append_assoc] at htw
    exact List.append_cancel_right htw
  have htsp : ∀ c ∈ t, isSpace c = true := fun c hc =>
    ha c (by rw [← hta]; exact List.mem_append_right _ hc)
  have hune : List.dropWhile reSpace (a ++ TrimSpace d) ≠ [] := by
    rw [← ht]; simp [hd]
  have hud : List.dropWhile reSpace (a ++ TrimSpace d) <:+: d := by
    have h1 : List.dropWhile reSpace (a ++ TrimSpace d) <:+: a ++ TrimSpace d := hsuf.isInfix
    have h2 : a ++ TrimSpace d <:+: d := ⟨[], b, by simpa using hdec.symm⟩
    exact h1.trans h2
  have hany : ∀ x ∈ List.dropWhile reSpace (a ++ TrimSpace d), reAny x = true := by
    intro x hx
    have hxd : x ∈ d := hud.subset hx
    have : x ≠ '\n' := fun e => hnl (e ▸ hxd)
    simp [reAny, this]
  have hend : ∀ v, v ≠ [] → v <:+ List.dropWhile reSpace (a ++ TrimSpace d) → scanEnd v = none := by
    intro v hv hvs
    apply scanEnd_none v hv
    · have e1 := hvs.getLast hv
      have hsm : TrimSpace d <:+ List.dropWhile reSpace (a ++ TrimSpace d) := ⟨t, ht⟩
      have e2 := hsm.getLast hd
      rw [e1, ← e2]
      exact not_reSpace_of_not_isSpace _ hlast
    · intro hf
      exact hfence (hf.trans (hvs.isInfix.trans hud))
  obtain ⟨whole, hmatch⟩ := FindStringSubmatch_shape n [' '] R ' ' (a ++ TrimSpace d) hn hnd
    (by decide) hRne hRw (by decide) (by rw [hu]; exact hune) (by rw [hu]; exact hany)
    (by rw [hu]; exact hend)
  rw [hu] at hmatch
  have htrimu : TrimSpace (List.dropWhile reSpace (a ++ TrimSpace d)) = TrimSpace d := by
    rw [← ht]
    have := TrimSpace_eq t (TrimSpace d) [] hd htsp (by simp) hlast hhead
    simpa using this
  have hmap : mapAgentName (ToLower R) = ToLower R := roles_mapAgentName _ hR
  have hmapne : ToLower R ≠ [] := roles_ne_nil _ hR
  unfold parseLine
  simp only [htrim, hne, if_false, hmatch, List.length_cons, List.length_nil, List.getD_cons_succ,
    List.getD_cons_zero, htrimu, hmap, hmapne]
  simp

theorem newline_not_mem_line (n R d : Str) (hnd : ∀ c ∈ n, reDigit c = true)
    (hRw : ∀ c ∈ R, reWord c = true) (hnl : '\n' ∉ d) :
    '\n' ∉ n ++ ". [".toList ++ R ++ "] ".toList ++ d := by
  intro h
  simp only [List.mem_append] at h
  rcases h with (((h | h) | h) | h) | h
  · exact reDigit_ne_newline _ (hnd _ h) rfl
  · exact absurd h (by decide)
  · exact reWord_ne_newline _ (hRw _ h) rfl
  · exact absurd h (by decide)
  · exact hnl h

/-! ## The claims on `parsePlan` -/

/-- C1, as stated, fails: the line `1. [BACKEND]  ` has the form
`<n>. [<ROLE>] <description>` with the non-empty description `" "`, which holds no
code fence, and `parsePlan` returns no task for it. -/
theorem parsePlan_blank_description :
    "1".toList ++ ". [".toList ++ "BACKEND".toList ++ "] ".toList ++ " ".toList
        = "1. [BACKEND]  ".toList ∧
      " ".toList ≠ [] ∧ ¬ "```".toList <:+: " ".toList ∧
      parsePlan "1. [BACKEND]  ".toList = [] := by
  decide

/-- C1, amended: for every single plan line `<n>. [<ROLE>] <description>` where `n`
is a decimal integer, `ROLE` is backend, frontend, security or planner in any letter
case, and the description holds a character other than white space, no newline and
no code fence, `parsePlan` returns exactly one task, `task_1`, pending and without
result, whose `AgentType` is the lower-cased role and whose `Description` is the
description with surrounding white space trimmed, then one trailing `.` removed,
then one trailing `:` removed. -/
theorem parsePlan_single_line (n R d : Str) (hn : n ≠ [])
    (hnd : ∀ c ∈ n, reDigit c = true)
    (hR : ToLower R ∈ [BackendAgent, FrontendAgent, SecurityAgent, PlannerAgent])
    (hnl : '\n' ∉ d) (hfence : ¬ "```".toList <:+: d) (hd : TrimSpace d ≠ []) :
    parsePlan (n ++ ". [".toList ++ R ++ "] ".toList ++ d)
      = [{ ID := "task_1".toList, AgentType := ToLower R,
           Description := TrimSuffix (TrimSuffix (TrimSpace d) ".".toList) ":".toList,
           Dependencies := [], Status := "pending".toList, Result := none }] := by
  unfold parsePlan
  rw [splitLines_no_newline _ (newline_not_mem_line n R d hnd (role_reWord R hR) hnl)]
  simp only [List.foldl_cons, List.foldl_nil]
  rw [parseLine_task ⟨[], 1⟩ n R d hn hnd hR hnl hfence hd]
  rfl

/-- C1, witness: the line `1. [BACKEND] Create todo API` gives one task with role
`backend` and description `Create todo API`. -/
theorem parsePlan_single_line_witness :
    parsePlan ("1".toList ++ ". [".toList ++ "BACKEND".toList ++ "] ".toList
        ++ "Create todo API".toList)
      = [{ ID := "task_1".toList, AgentType := "backend".toList,
           Description := "Create todo API".toList,
           Dependencies := [], Status := "pending".toList, Result := none }] :=
  parsePlan_single_line "1".toList "BACKEND".toList "Create todo API".toList
    (by decide) (by decide) (by decide) (by decide) (by decide) (by decide)

/-! ## The identifiers of the tasks -/

theorem toDigitsCore_append : ∀ (f n : Nat) (ds : List Char),
    Nat.toDigitsCore 10 f n ds = Nat.toDigitsCore 10 f n [] ++ ds := by
  intro f
  induction f with
  | zero => intro n ds; simp [Nat.toDigitsCore]
  | succ f ih =>
    intro n ds
    simp only [Nat.toDigitsCore]
    by_cases h : n / 10 = 0
    · simp [h]
    · simp only [h, if_false]
      rw [ih (n / 10) (Nat.digitChar (n % 10) :: ds), ih (n / 10) [Nat.digitChar (n % 10)]]
      simp

theorem digitChar_toNat (d : Nat) (h : d < 10) : (Nat.digitChar d).toNat - 48 = d := by
  interval_cases d <;> rfl

theorem fromDigits_append_singleton (xs : Str) (c : Char) :
    fromDigits (xs ++ [c]) = 10 * fromDigits xs + (c.toNat - 48) := by
  simp [fromDigits, List.foldl_append]

theorem fromDigits_toDigitsCore : ∀ (f n : Nat), n < f →
    fromDigits (Nat.toDigitsCore 10 f n []) = n := by
  intro f
  induction f with
  | zero => intro n h; omega
  | succ f ih =>
    intro n h
    simp only [Nat.toDigitsCore]
    by_cases h0 : n / 10 = 0
    · simp only [h0, if_true]
      have hn : n < 10 := by omega
      have : n % 10 = n := by omega
      simp [fromDigits, digitChar_toNat n hn, this]
    · simp only [h0, if_false]
      rw [toDigitsCore_append, fromDigits_append_singleton, ih (n / 10) (by omega),
        digitChar_toNat (n % 10) (Nat.mod_lt _ (by omega))]
      omega

theorem fromDigits_repr (n : Nat) : fromDigits (Nat.repr n).toList = n := by
  have h : (Nat.repr n).toList = Nat.toDigitsCore 10 (n + 1) n [] := rfl
  rw [h, fromDigits_toDigitsCore (n + 1) n (by omega)]

/-- Different counters give different identifiers. -/
theorem taskIDString_injective : Function.Injective taskIDString := by
  intro a b h
  unfold taskIDString at h
  have h2 := List.append_cancel_left h
  have h3 := congrArg fromDigits h2
  rwa [fromDigits_repr, fromDigits_repr] at h3

theorem mapAgentName_cases (name : Str) :
    mapAgentName name = [] ∨
      mapAgentName name ∈ [BackendAgent, FrontendAgent, SecurityAgent, PlannerAgent] := by
  unfold mapAgentName
  simp only
  split_ifs <;> simp

/-- One step of the loop of `parsePlan` leaves the state as it is or appends one
pending task without result, of a known role, numbered by the counter, and
increments the counter. -/
theorem parseLine_cases (st : ParseState) (line : Str) :
    parseLine st line = st ∨
      ∃ role desc, role ∈ [BackendAgent, FrontendAgent, SecurityAgent, PlannerAgent] ∧
        parseLine st line
          = { tasks := st.tasks ++ [{ ID := taskIDString st.taskID, AgentType := role,
                                      Description := desc, Dependencies := [],
                                      Status := "pending".toList, Result := none }],
              taskID := st.taskID + 1 } := by
  unfold parseLine
  simp only
  split_ifs with h1 h2 h3
  · exact Or.inl rfl
  · exact Or.inl rfl
  · refine Or.inr ⟨_, _, ?_, rfl⟩
    rcases mapAgentName_cases (ToLower ((FindStringSubmatch taskRegex 2 (TrimSpace line)).getD 1 []))
      with h | h
    · exact absurd h h3
    · exact h
  · exact Or.inl rfl

theorem parseLine_inv (st : ParseState) (line : Str) (h : ParseInv st) :
    ParseInv (parseLine st line) := by
  rcases parseLine_cases st line with e | ⟨role, desc, _, e⟩
  · rw [e]; exact h
  · rw [e]
    obtain ⟨h1, h2, h3⟩ := h
    refine ⟨by simp [h1], ?_, ?_⟩
    · simp only [List.map_append, List.length_append, List.length_cons, List.length_nil,
        List.map_cons, List.map_nil, List.range_succ, h2, h1]
    · intro t ht
      rcases List.mem_append.mp ht with ht | ht
      · exact h3 t ht
      · simp only [List.mem_singleton] at ht
        subst ht
        exact ⟨rfl, rfl⟩

theorem foldl_parseLine_inv : ∀ (lines : List Str) (st : ParseState), ParseInv st →
    ParseInv (lines.foldl parseLine st) := by
  intro lines
  induction lines with
  | nil => intro st h; exact h
  | cons l ls ih => intro st h; exact ih _ (parseLine_inv st l h)

theorem parsePlan_pending (plan : Str) :
    ∀ t ∈ parsePlan plan, t.Status = "pending".toList ∧ t.Result = none :=
  (foldl_parseLine_inv (splitLines plan) ⟨[], 1⟩ ⟨rfl, rfl, by simp⟩).2.2

/-- C4: for every plan text, the identifiers of the tasks that `parsePlan` returns
are `task_1`, `task_2`, ... in order (the i-th task, counting from 1, has the
identifier `task_<i>`), so they are distinct; every returned task has status
`pending` and no result.  The identifiers are assigned: a further line
`n. [R] d` with a recognised role and a description that holds a character other
than white space, no newline and no code fence, put after the plan, gives one more
task, whose identifier is `task_<k + 1>` where `k` is the number of tasks of the
plan. -/
theorem parsePlan_ids (plan : Str) :
    (parsePlan plan).map (fun t => t.ID)
        = (List.range (parsePlan plan).length).map (fun i => taskIDString (i + 1)) ∧
      ((parsePlan plan).map (fun t => t.ID)).Nodup ∧
      (∀ t ∈ parsePlan plan, t.Status = "pending".toList ∧ t.Result = none) ∧
      (∀ n R d : Str, n ≠ [] → (∀ c ∈ n, reDigit c = true) →
        ToLower R ∈ [BackendAgent, FrontendAgent, SecurityAgent, PlannerAgent] →
        '\n' ∉ d → ¬ "```".toList <:+: d → TrimSpace d ≠ [] →
        parsePlan (plan ++ '\n' :: (n ++ ". [".toList ++ R ++ "] ".toList ++ d))
          = parsePlan plan ++
              [{ ID := taskIDString ((parsePlan plan).length + 1), AgentType := ToLower R,
                 Description := TrimSuffix (TrimSuffix (TrimSpace d) ".".toList) ":".toList,
                 Dependencies := [], Status := "pending".toList, Result := none }]) := by
  have h := foldl_parseLine_inv (splitLines plan) ⟨[], 1⟩ ⟨rfl, rfl, by simp⟩
  obtain ⟨h1, h2, h3⟩ := h
  refine ⟨h2, ?_, h3, ?_⟩
  · unfold parsePlan
    rw [h2]
    apply List.Nodup.map
    · intro a b hab
      have := taskIDString_injective hab
      omega
    · exact List.nodup_range _
  · intro n R d hn hnd hR hnl hfence hd
    unfold parsePlan
    rw [splitLines_append_newline,
      splitLines_no_newline _ (newline_not_mem_line n R d hnd (role_reWord R hR) hnl),
      List.foldl_append]
    simp only [List.foldl_cons, List.foldl_nil]
    rw [parseLine_task _ n R d hn hnd hR hnl hfence hd, h1]

set_option maxRecDepth 100000 in
/-- C4, witness: a plan of three lines, the second with an unknown role, gives the
tasks `task_1` and `task_2`; a fourth line gives `task_3`. -/
theorem parsePlan_ids_witness :
    (parsePlan "1. [BACKEND] Create todo API\n5. [UNKNOWN] Wait\n9. [FRONTEND] Build todo UI".toList).map
        (fun t => t.ID) = ["task_1".toList, "task_2".toList] ∧
      (parsePlan ("1. [BACKEND] Create todo API\n5. [UNKNOWN] Wait\n9. [FRONTEND] Build todo UI".toList
          ++ '\n' :: ("4".toList ++ ". [".toList ++ "security".toList ++ "] ".toList
            ++ "Review".toList))).map (fun t => t.ID)
        = ["task_1".toList, "task_2".toList, "task_3".toList] :=
  ⟨(parsePlan_ids
      "1. [BACKEND] Create todo API\n5. [UNKNOWN] Wait\n9. [FRONTEND] Build todo UI".toList).1.trans
      (by decide),
    (congrArg (List.map (fun t => t.ID))
      ((parsePlan_ids
        "1. [BACKEND] Create todo API\n5. [UNKNOWN] Wait\n9. [FRONTEND] Build todo UI".toList).2.2.2
        "4".toList "security".toList "Review".toList (by decide) (by decide) (by decide)
        (by decide) (by decide) (by decide))).trans (by decide)⟩

/-! ## Lines that give no task -/

theorem toLowerRune_idem (c : Char) : toLowerRune (toLowerRune c) = toLowerRune c := by
  by_cases h1 : 'A' ≤ c ∧ c ≤ 'Z'
  · have hc : c = Char.ofNat c.toNat := (Char.ofNat_toNat c).symm
    have hb : 65 ≤ c.toNat ∧ c.toNat ≤ 90 := ⟨h1.1, h1.2⟩
    generalize c.toNat = k at hc hb
    obtain ⟨hb1, hb2⟩ := hb
    subst hc
    interval_cases k <;> rfl
  · by_cases h2 : c = Char.ofNat 0x212A
    · subst h2; rfl
    · have : toLowerRune c = c := by simp [toLowerRune, h1, h2]
      rw [this, this]

theorem ToLower_idem (s : Str) : ToLower (ToLower s) = ToLower s := by
  simp [ToLower, List.map_map, Function.comp_def, toLowerRune_idem]

/-- A name that is, lower-cased, none of the four role names maps to the empty agent
type. -/
theorem mapAgentName_unknown (role : Str)
    (h : ToLower role ∉ [BackendAgent, FrontendAgent, SecurityAgent, PlannerAgent]) :
    mapAgentName (ToLower role) = [] := by
  simp only [List.mem_cons, List.mem_singleton, List.not_mem_nil, or_false, not_or] at h
  obtain ⟨h1, h2, h3, h4⟩ := h
  unfold mapAgentName
  simp only [ToLower_idem]
  have e1 : ¬ ToLower role = "backend".toList := h1
  have e2 : ¬ ToLower role = "frontend".toList := h2
  have e3 : ¬ ToLower role = "security".toList := h3
  have e4 : ¬ ToLower role = "planner".toList := h4
  rw [if_neg e1, if_neg e2, if_neg e3, if_neg e4]

/-- A line that matches `taskRegex` with an unknown role token leaves the state of
the loop as it is: no task, and the counter is not incremented. -/
theorem parseLine_unknown_role (st : ParseState) (line whole role rest : Str)
    (hmatch : FindStringSubmatch taskRegex 2 (TrimSpace line) = [whole, role, rest])
    (hrole : ToLower role ∉ [BackendAgent, FrontendAgent, SecurityAgent, PlannerAgent]) :
    parseLine st line = st := by
  unfold parseLine
  simp only [hmatch, List.getD_cons_succ, List.getD_cons_zero, mapAgentName_unknown role hrole]
  split_ifs <;> rfl

/-- A line on which `taskRegex` does not match leaves the state of the loop as it
is. -/
theorem parseLine_no_match (st : ParseState) (line : Str)
    (h : FindStringSubmatch taskRegex 2 (TrimSpace line) = []) : parseLine st line = st := by
  unfold parseLine
  simp only [h]
  split_ifs with h1 h2 h3
  · rfl
  · rfl
  · simp at h2
  · rfl

theorem splitLines_joinLines_foldl (f : ParseState → Str → ParseState)
    (hf : ∀ st, f st [] = st) :
    ∀ (ls : List Str) (st : ParseState),
      (splitLines (joinLines ls)).foldl f st = (ls.flatMap splitLines).foldl f st := by
  intro ls
  induction ls with
  | nil => intro st; simp [joinLines, splitLines, splitAux, hf]
  | cons x xs ih =>
    intro st
    cases xs with
    | nil => simp [joinLines]
    | cons y ys =>
      have e : joinLines (x :: y :: ys) = x ++ '\n' :: joinLines (y :: ys) := rfl
      rw [e, splitLines_append_newline, List.foldl_append, ih]
      simp [List.flatMap_cons, List.foldl_append]

theorem parseLine_nil (st : ParseState) : parseLine st [] = st := by
  unfold parseLine
  simp [TrimSpace]

/-- C5: for every plan, given as its lines, and every line that matches the task
pattern but whose role token is not, case-insensitively, backend, frontend, security
or planner, inserting that line at any position in the plan leaves the result of
`parsePlan` unchanged: the same tasks with the same identifiers, so the task counter
is not incremented for the dropped line. -/
theorem parsePlan_insert_unknown_role (before after : List Str) (line whole role rest : Str)
    (hnl : '\n' ∉ line)
    (hmatch : FindStringSubmatch taskRegex 2 (TrimSpace line) = [whole, role, rest])
    (hrole : ToLower role ∉ [BackendAgent, FrontendAgent, SecurityAgent, PlannerAgent]) :
    parsePlan (joinLines (before ++ line :: after)) = parsePlan (joinLines (before ++ after)) := by
  unfold parsePlan
  rw [splitLines_joinLines_foldl parseLine parseLine_nil,
    splitLines_joinLines_foldl parseLine parseLine_nil]
  simp only [List.flatMap_append, List.flatMap_cons, List.foldl_append,
    splitLines_no_newline line hnl, List.foldl_cons, List.foldl_nil, List.singleton_append,
    parseLine_unknown_role _ line whole role rest hmatch hrole]

/-- C5, witness: the line `3. [UNKNOWN_ROLE] Do something` between the two lines of
the plan `1. [BACKEND] Create todo API`, `2. [FRONTEND] Build todo UI`. -/
theorem parsePlan_insert_unknown_role_witness :
    parsePlan (joinLines (["1. [BACKEND] Create todo API".toList]
        ++ "3. [UNKNOWN_ROLE] Do something".toList :: ["2. [FRONTEND] Build todo UI".toList]))
      = parsePlan (joinLines (["1. [BACKEND] Create todo API".toList]
        ++ ["2. [FRONTEND] Build todo UI".toList])) :=
  parsePlan_insert_unknown_role ["1. [BACKEND] Create todo API".toList]
    ["2. [FRONTEND] Build todo UI".toList] "3. [UNKNOWN_ROLE] Do something".toList
    "3. [UNKNOWN_ROLE] Do something".toList "UNKNOWN_ROLE".toList "Do something".toList
    (by decide) (by decide) (by decide)

/-- A trimmed line that does not begin with digits followed by a dot: the head of
`taskRegex` does not match. -/
theorem scanHead_none_of_no_number (s : Str)
    (h : ¬ ∃ ds rest, ds ≠ [] ∧ (∀ c ∈ ds, reDigit c = true) ∧ s = ds ++ '.' :: rest) :
    scanHead s = none := by
  unfold scanHead
  simp only
  by_cases hd : List.takeWhile reDigit s = []
  · simp [hd]
  · rw [if_neg hd]
    cases hr : List.dropWhile reDigit s with
    | nil => rfl
    | cons c r1 =>
      by_cases hc : c = '.'
      · exfalso
        apply h
        refine ⟨List.takeWhile reDigit s, r1, hd, fun x hx => List.mem_takeWhile_imp hx, ?_⟩
        rw [← hc, ← hr, List.takeWhile_append_dropWhile]
      · simp [hc]

/-- C6: a plan none of whose trimmed lines begins with one or more digits followed
by `.` yields no tasks. -/
theorem parsePlan_no_numbered_lines (plan : Str)
    (h : ∀ line ∈ splitLines plan,
      ¬ ∃ ds rest, ds ≠ [] ∧ (∀ c ∈ ds, reDigit c = true) ∧ TrimSpace line = ds ++ '.' :: rest) :
    parsePlan plan = [] := by
  unfold parsePlan
  have key : ∀ (ls : List Str) (st : ParseState),
      (∀ line ∈ ls, ¬ ∃ ds rest, ds ≠ [] ∧ (∀ c ∈ ds, reDigit c = true) ∧
        TrimSpace line = ds ++ '.' :: rest) → ls.foldl parseLine st = st := by
    intro ls
    induction ls with
    | nil => intro st _; rfl
    | cons l ls ih =>
      intro st hl
      have h1 : parseLine st l = st :=
        parseLine_no_match st l (FindStringSubmatch_of_scanHead_none _
          (scanHead_none_of_no_number _ (hl l (by simp))))
      rw [List.foldl_cons, h1]
      exact ih st (fun line hline => hl line (List.mem_cons_of_mem _ hline))
  rw [key _ _ h]

/-- C6, witness: `parsePlan("")` and `parsePlan("no numbered lines here")` are
empty. -/
theorem parsePlan_no_numbered_lines_witness :
    parsePlan "".toList = [] ∧ parsePlan "no numbered lines here".toList = [] := by
  constructor
  · apply parsePlan_no_numbered_lines
    intro line hl
    have e : line = [] := by simpa [splitLines, splitAux] using hl
    subst e
    rintro ⟨ds, rest, _, _, heq⟩
    have : TrimSpace [] = ([] : Str) := rfl
    rw [this] at heq
    simp at heq
  · apply parsePlan_no_numbered_lines
    intro line hl
    have hs : splitLines "no numbered lines here".toList = ["no numbered lines here".toList] := by
      decide
    rw [hs, List.mem_singleton] at hl
    subst hl
    rintro ⟨ds, rest, hne, hdig, heq⟩
    have ht : TrimSpace "no numbered lines here".toList = 'n' :: "o numbered lines here".toList := by
      decide
    rw [ht] at heq
    cases ds with
    | nil => exact hne rfl
    | cons x xs =>
      have hx : x = 'n' := by
        have := congrArg List.head? heq
        simpa using this.symm
      have := hdig x (by simp)
      rw [hx] at this
      exact absurd this (by decide)

/-! ## The claims on the context builder -/

theorem contextLoop_none : ∀ (tasks : List Task) (parts : List Bytes),
    (∀ t ∈ tasks, ¬ (t.Result ≠ none ∧ t.Status = "completed".toList)) →
    contextLoop parts tasks = parts := by
  intro tasks
  induction tasks with
  | nil => intro parts _; rfl
  | cons t ts ih =>
    intro parts h
    have ht := h t (by simp)
    have hts := ih parts (fun x hx => h x (List.mem_cons_of_mem _ hx))
    cases hr : t.Result with
    | none => simp only [contextLoop, hr]; exact hts
    | some r =>
      have hs : ¬ t.Status = "completed".toList := fun hs => ht ⟨by simp [hr], hs⟩
      simp only [contextLoop, hr, hs, if_false]
      exact hts

/-- C3, as stated, fails: for the list of one pending task without result,
`buildContext` returns the bare header `Previous task results:`, not the empty
string. -/
theorem buildContext_pending_header :
    pendingTask.Status = "pending".toList ∧ pendingTask.Result = none ∧
      buildContext [pendingTask] = utf8 "Previous task results:".toList ∧
      buildContext [pendingTask] ≠ [] := by
  decide

/-- C3, amended: on a task list that contains no task with status `completed` and a
result, `buildContext` returns the empty string when the list is empty, and the
header `Previous task results:` with no entries when it is not. -/
theorem buildContext_no_completed (tasks : List Task)
    (h : ∀ t ∈ tasks, ¬ (t.Result ≠ none ∧ t.Status = "completed".toList)) :
    buildContext tasks = if tasks = [] then [] else utf8 "Previous task results:".toList := by
  unfold buildContext
  cases tasks with
  | nil => simp
  | cons t ts =>
    simp only [List.length_cons, Nat.succ_ne_zero, if_false, contextLoop_none (t :: ts) _ h,
      joinBytes]
    simp

/-- C3, witness: the empty list, and the list of one pending task. -/
theorem buildContext_no_completed_witness :
    buildContext [] = [] ∧ buildContext [pendingTask] = utf8 "Previous task results:".toList :=
  ⟨buildContext_no_completed [] (by simp),
   buildContext_no_completed [pendingTask] (by decide)⟩

theorem utf8_ascii (s : Str) (h : ∀ c ∈ s, c.toNat < 128) : utf8 s = s.map Char.toNat := by
  induction s with
  | nil => rfl
  | cons c cs ih =>
    have hc : c.toNat < 128 := h c (List.mem_cons_self _ _)
    have ih' := ih (fun x hx => h x (List.mem_cons_of_mem _ hx))
    unfold utf8 at ih' ⊢
    simp only [List.flatMap_cons, List.map_cons, ih']
    simp [utf8EncodeChar, hc]

theorem utf8_append (a b : Str) : utf8 (a ++ b) = utf8 a ++ utf8 b := by
  simp [utf8, List.flatMap_append]

set_option maxRecDepth 100000 in
/-- C10, as stated, fails: the lengths are counted in bytes, not in characters.  The
text of 101 letters `é` has 101 characters and 202 bytes: it is not returned
verbatim, it is cut to 100 letters and the marker.  The text of 199 letters `a`,
then `é`, then `z` has 201 characters: what is kept before the marker is the 199
letters and the first byte of `é`, not the first 200 characters. -/
theorem truncateText_counts_bytes :
    (List.replicate 101 'é').length ≤ 200 ∧
      truncateText (utf8 (List.replicate 101 'é')) 200 ≠ utf8 (List.replicate 101 'é') ∧
      truncateText (utf8 (List.replicate 101 'é')) 200
        = utf8 (List.replicate 100 'é') ++ utf8 "...".toList ∧
      truncateText (utf8 (List.replicate 199 'a' ++ "éz".toList)) 200
        = utf8 (List.replicate 199 'a') ++ [0xC3] ++ utf8 "...".toList ∧
      truncateText (utf8 (List.replicate 199 'a' ++ "éz".toList)) 200
        ≠ utf8 ((List.replicate 199 'a' ++ "éz".toList).take 200 ++ "...".toList) := by
  decide

/-- C10, amended: for every result text, `truncateText` with limit 200 returns the
text itself when its length in bytes is at most 200, and otherwise its first 200
bytes followed by `...` (`len` and the slice count the bytes of the UTF-8
encoding); the result is never longer than 203 bytes, the part before the marker
is a prefix of the bytes of the text, and this is the text that `buildContext`
embeds for a completed task.  For a text of ASCII characters bytes and characters
are the same, and the result is the text itself when it has at most 200
characters, and otherwise its first 200 characters followed by `...`. -/
theorem truncateText_200 (text : Bytes) :
    truncateText text 200
        = (if text.length ≤ 200 then text else text.take 200 ++ utf8 "...".toList) ∧
      (truncateText text 200).length ≤ 203 ∧
      text.take 200 <+: text ∧
      (∀ (id role desc content model : Str) (deps : List Str) (tokens : Int) (agent : AgentType),
        buildContext [{ ID := id, AgentType := role, Description := desc, Dependencies := deps,
                        Status := "completed".toList,
                        Result := some { Content := content, TokensUsed := tokens,
                                         Model := model, Agent := agent } }]
          = utf8 "Previous task results:".toList ++ utf8 "\n".toList ++ (utf8 "\n- ".toList
              ++ utf8 desc ++ utf8 " (".toList ++ utf8 role ++ utf8 "): ".toList
              ++ truncateText (utf8 content) 200)) ∧
      (∀ s : Str, (∀ c ∈ s, c.toNat < 128) →
        (utf8 s).length = s.length ∧
        truncateText (utf8 s) 200
          = utf8 (if s.length ≤ 200 then s else s.take 200 ++ "...".toList)) := by
  refine ⟨rfl, ?_, List.take_prefix _ _, ?_, ?_⟩
  · unfold truncateText
    have h3 : (utf8 "...".toList).length = 3 := by decide
    split_ifs with h
    · omega
    · simp only [List.length_append, List.length_take, h3]
      omega
  · intro id role desc content model deps tokens agent
    simp [buildContext, contextLoop, contextEntry, joinBytes]
  · intro s hs
    have hlen : (utf8 s).length = s.length := by rw [utf8_ascii s hs, List.length_map]
    refine ⟨hlen, ?_⟩
    unfold truncateText
    rw [hlen]
    split_ifs with h
    · rfl
    · rw [utf8_append, utf8_ascii s hs,
        utf8_ascii (s.take 200) (fun c hc => hs c (List.mem_of_mem_take hc)), List.map_take]

set_option maxRecDepth 100000 in
/-- C10, witness: an ASCII text of 201 characters is cut to its first 200 characters
and the marker. -/
theorem truncateText_200_witness :
    truncateText (utf8 (List.replicate 201 'a')) 200
      = utf8 (List.replicate 200 'a' ++ "...".toList) :=
  ((truncateText_200 (utf8 (List.replicate 201 'a'))).2.2.2.2 (List.replicate 201 'a')
    (by decide)).2.trans (by decide)

/-! ## Lemmas on the task loop -/

theorem invocations_append : ∀ (a b : List Event),
    invocations (a ++ b) = invocations a ++ invocations b := by
  intro a
  induction a with
  | nil => intro b; rfl
  | cons e es ih =>
    intro b
    cases e <;> simp [invocations, ih]

theorem invocations_writeLoop (fw : FileWriter) : ∀ (blocks : List (Str × Str)) (trace : List Event),
    invocations (writeLoop fw trace blocks) = invocations trace := by
  intro blocks
  induction blocks with
  | nil => intro trace; rfl
  | cons b bs ih =>
    intro trace
    obtain ⟨filename, code⟩ := b
    simp only [writeLoop]
    split_ifs with h
    · exact ih trace
    · cases fw.WriteFile trace filename code with
      | none => simp [ih, invocations_append, invocations]
      | some err => simp [ih, invocations_append, invocations]

theorem invocations_writeGeneratedFiles (o : Orchestrator) (trace : List Event) (content : Str) :
    invocations (writeGeneratedFiles o trace content) = invocations trace := by
  simp [writeGeneratedFiles, invocations_writeLoop, invocations_append, invocations]

/-- The invocations of one iteration of the task loop: none when the role of the
task does not resolve, otherwise one, with the role and the description of the task
and the context built from the tasks before it, whether the request fails or not. -/
theorem invocations_taskStep (o : Orchestrator) (tasks : List Task) (totalStages : Nat)
    (s : LoopState) (i : Nat) (task : Task) :
    invocations (taskStep o tasks totalStages s i task).trace
      = invocations s.trace ++
          (match o.registry.GetAgent task.AgentType with
           | .ok _ => [(task.AgentType, buildContext (tasks.take i), task.Description)]
           | .error _ => []) := by
  unfold taskStep
  cases o.registry.GetAgent task.AgentType with
  | error err => simp [invocations_append, invocations]
  | ok agent =>
    simp only
    cases agent.Process (s.trace ++ [Event.DisplayProgress (stageName task) (i + 3) totalStages])
        (buildContext (tasks.take i)) task.Description with
    | error err => simp [invocations_append, invocations]
    | ok response =>
      simp [invocations_append, invocations, invocations_writeGeneratedFiles]

theorem invocations_taskLoop (o : Orchestrator) (tasks : List Task) (totalStages : Nat) :
    ∀ (rest : List Task) (s : LoopState) (i : Nat),
      invocations (taskLoop o tasks totalStages s i rest).trace
        = invocations s.trace ++ taskInvocations o tasks i rest := by
  intro rest
  induction rest with
  | nil => intro s i; simp [taskLoop, taskInvocations]
  | cons t ts ih =>
    intro s i
    simp only [taskLoop, ih, invocations_taskStep, taskInvocations]
    cases o.registry.GetAgent t.AgentType <;> simp

/-- The loop variable after one iteration. -/
theorem locals_taskStep (o : Orchestrator) (tasks : List Task) (totalStages : Nat)
    (s : LoopState) (i : Nat) (task : Task) :
    ∃ loc, (taskStep o tasks totalStages s i task).locals = s.locals ++ [loc] ∧
      LocalOf o task loc := by
  unfold taskStep
  cases hg : o.registry.GetAgent task.AgentType with
  | error err => exact ⟨task, rfl, Or.inl rfl⟩
  | ok agent =>
    simp only
    cases agent.Process (s.trace ++ [Event.DisplayProgress (stageName task) (i + 3) totalStages])
        (buildContext (tasks.take i)) task.Description with
    | error err => exact ⟨task, rfl, Or.inl rfl⟩
    | ok response => exact ⟨_, rfl, Or.inr ⟨agent, response, hg, rfl⟩⟩

/-- The loop variables after the task loop: one for every task, in order. -/
theorem locals_taskLoop (o : Orchestrator) (tasks : List Task) (totalStages : Nat) :
    ∀ (rest : List Task) (s : LoopState) (i : Nat),
      ∃ locs, (taskLoop o tasks totalStages s i rest).locals = s.locals ++ locs ∧
        List.Forall₂ (LocalOf o) rest locs := by
  intro rest
  induction rest with
  | nil => intro s i; exact ⟨[], by simp [taskLoop], List.Forall₂.nil⟩
  | cons t ts ih =>
    intro s i
    obtain ⟨loc, h1, h2⟩ := locals_taskStep o tasks totalStages s i t
    obtain ⟨locs, h3, h4⟩ := ih (taskStep o tasks totalStages s i t) (i + 1)
    refine ⟨loc :: locs, ?_, List.Forall₂.cons h2 h4⟩
    simp only [taskLoop, h3, h1, List.append_assoc, List.singleton_append]

theorem invocations_startTrace (description : Str) :
    invocations (startTrace description) = [] := rfl

theorem invocations_planningTrace (description : Str) :
    invocations (planningTrace description) = [] := rfl

theorem invocations_plannedTrace (description : Str) :
    invocations (plannedTrace description) = [(PlannerAgent, [], planPrompt description)] := rfl

/-- The two ways a run of `ExecuteBuild` ends: with an error, before the task loop,
or without error, after the task loop over the tasks of the plan. -/
theorem ExecuteBuild_cases (o : Orchestrator) (description : Str) :
    ((ExecuteBuild o description).err ≠ none ∧ (ExecuteBuild o description).locals = [] ∧
      (invocations (ExecuteBuild o description).trace = [] ∨
        invocations (ExecuteBuild o description).trace
          = [(PlannerAgent, [], planPrompt description)]) ∧
      (o.fileWriter.CreateProjectStructure (startTrace description) ≠ none ∨
        (∃ e, o.registry.GetAgent PlannerAgent = .error e) ∨
        (∃ planner e, o.registry.GetAgent PlannerAgent = .ok planner ∧
          planner.Process (planningTrace description) [] (planPrompt description) = .error e) ∨
        (∃ planner r, o.registry.GetAgent PlannerAgent = .ok planner ∧
          planner.Process (planningTrace description) [] (planPrompt description) = .ok r ∧
          parsePlan r.Content = [] ∧
          (ExecuteBuild o description).err = some "no executable tasks found in plan".toList)) ∧
      (ExecuteBuild o description).tasks = [])
    ∨
    (∃ planner r, o.fileWriter.CreateProjectStructure (startTrace description) = none ∧
      o.registry.GetAgent PlannerAgent = .ok planner ∧
      planner.Process (planningTrace description) [] (planPrompt description) = .ok r ∧
      parsePlan r.Content ≠ [] ∧
      ExecuteBuild o description
        = { err := none,
            trace := (taskLoop o (parsePlan r.Content) ((parsePlan r.Content).length + 2)
                ⟨plannedTrace description, []⟩ 0 (parsePlan r.Content)).trace
              ++ [Event.DisplayFinalResults ((parsePlan r.Content).length + 2)],
            tasks := parsePlan r.Content,
            locals := (taskLoop o (parsePlan r.Content) ((parsePlan r.Content).length + 2)
                ⟨plannedTrace description, []⟩ 0 (parsePlan r.Content)).locals }) := by
  unfold ExecuteBuild
  cases hc : o.fileWriter.CreateProjectStructure (startTrace description) with
  | some err =>
    dsimp only
    refine Or.inl ⟨by simp, rfl, Or.inl ?_, Or.inl (by simp), rfl⟩
    rw [invocations_append, invocations_startTrace]
    rfl
  | none =>
    dsimp only
    cases hg : o.registry.GetAgent PlannerAgent with
    | error err =>
      dsimp only
      exact Or.inl ⟨by simp, rfl, Or.inl (invocations_planningTrace description),
        Or.inr (Or.inl ⟨err, rfl⟩), rfl⟩
    | ok planner =>
      dsimp only
      cases hp : planner.Process (planningTrace description) [] (planPrompt description) with
      | error err =>
        dsimp only
        refine Or.inl ⟨by simp, rfl, Or.inr ?_, Or.inr (Or.inr (Or.inl ⟨planner, err, rfl, hp⟩)), rfl⟩
        rw [invocations_append, invocations_planningTrace]
        rfl
      | ok r =>
        dsimp only
        by_cases ht : (parsePlan r.Content).length = 0
        · have ht' : parsePlan r.Content = [] := List.length_eq_zero.mp ht
          rw [if_pos ht]
          exact Or.inl ⟨by simp, rfl, Or.inr (invocations_plannedTrace description),
            Or.inr (Or.inr (Or.inr ⟨planner, r, rfl, hp, ht', rfl⟩)), ht'⟩
        · have ht' : parsePlan r.Content ≠ [] := fun e => ht (by rw [e]; rfl)
          rw [if_neg ht]
          exact Or.inr ⟨planner, r, rfl, rfl, hp, ht', rfl⟩

theorem taskInvocations_resolved (o : Orchestrator) (tasks : List Task) :
    ∀ (rest : List Task) (i : Nat),
      (∀ t ∈ rest, ∃ a, o.registry.GetAgent t.AgentType = .ok a) →
      taskInvocations o tasks i rest
        = (rest.enumFrom i).map
            (fun p => (p.2.AgentType, buildContext (tasks.take p.1), p.2.Description)) := by
  intro rest
  induction rest with
  | nil => intro i _; rfl
  | cons t ts ih =>
    intro i h
    obtain ⟨a, ha⟩ := h t (by simp)
    simp only [taskInvocations, ha, List.enumFrom_cons, List.map_cons]
    rw [ih (i + 1) (fun x hx => h x (List.mem_cons_of_mem _ hx))]

theorem forall₂_getElem? {α β : Type} (R : α → β → Prop) :
    ∀ (l1 : List α) (l2 : List β), List.Forall₂ R l1 l2 →
      ∀ (i : Nat) (a : α), l1[i]? = some a → ∃ b, l2[i]? = some b ∧ R a b := by
  intro l1 l2 h
  induction h with
  | nil => intro i a hi; simp at hi
  | cons hab _ ih =>
    intro i a hi
    cases i with
    | zero =>
      simp only [List.getElem?_cons_zero, Option.some.injEq] at hi
      subst hi
      exact ⟨_, by simp, hab⟩
    | succ j =>
      simp only [List.getElem?_cons_succ] at hi
      obtain ⟨b, hb, hr⟩ := ih j a hi
      exact ⟨b, by simpa using hb, hr⟩

/-! ## The claims on `ExecuteBuild` -/

set_option maxRecDepth 100000 in
/-- C2, the code at scenario A: the backend call for `task_1` succeeds and the loop
variable of the first iteration is completed with the result `API code`, yet the
context given to the frontend agent for `task_2` is the bare header
`Previous task results:`, which holds no entry for `task_1`. -/
theorem ExecuteBuild_scenarioA_context :
    invocations (ExecuteBuild scenarioA "a todo app".toList).trace
        = [(PlannerAgent, [], planPrompt "a todo app".toList),
           (BackendAgent, [], "Create todo API".toList),
           (FrontendAgent, utf8 "Previous task results:".toList, "Build todo UI".toList)] ∧
      (ExecuteBuild scenarioA "a todo app".toList).locals.head?
        = some { pendingTask with
            Result := some { Content := "API code".toList, TokensUsed := 0, Model := [],
                             Agent := BackendAgent },
            Status := "completed".toList } ∧
      (ExecuteBuild scenarioA "a todo app".toList).tasks.head? = some pendingTask ∧
      ¬ (utf8 "Create todo API".toList <:+: utf8 "Previous task results:".toList) := by
  decide

/-- C7: `ExecuteBuild` returns an error if and only if creating the project structure
fails, the planner role does not resolve, the planner invocation fails, or the
response of the planner parses to an empty task list; in the last case the
error is `no executable tasks found in plan`; when it returns an error, no iteration
of the task loop is done and no agent but the planner is invoked.  No outcome of a
task makes `ExecuteBuild` return an error. -/
theorem ExecuteBuild_error_iff (o : Orchestrator) (description : Str) :
    ((ExecuteBuild o description).err ≠ none ↔
      (o.fileWriter.CreateProjectStructure (startTrace description) ≠ none ∨
        (∃ e, o.registry.GetAgent PlannerAgent = .error e) ∨
        (∃ planner e, o.registry.GetAgent PlannerAgent = .ok planner ∧
          planner.Process (planningTrace description) [] (planPrompt description) = .error e) ∨
        (∃ planner r, o.registry.GetAgent PlannerAgent = .ok planner ∧
          planner.Process (planningTrace description) [] (planPrompt description) = .ok r ∧
          parsePlan r.Content = []))) ∧
    ((ExecuteBuild o description).err ≠ none →
      (ExecuteBuild o description).locals = [] ∧
      (invocations (ExecuteBuild o description).trace = [] ∨
        invocations (ExecuteBuild o description).trace
          = [(PlannerAgent, [], planPrompt description)])) ∧
    (∀ planner r, o.fileWriter.CreateProjectStructure (startTrace description) = none →
      o.registry.GetAgent PlannerAgent = .ok planner →
      planner.Process (planningTrace description) [] (planPrompt description) = .ok r →
      parsePlan r.Content = [] →
      (ExecuteBuild o description).err = some "no executable tasks found in plan".toList) := by
  rcases ExecuteBuild_cases o description with
    ⟨herr, hloc, hinv, hfatal, _⟩ | ⟨planner, r, hc, hg, hp, hne, hrun⟩
  · refine ⟨⟨fun _ => ?_, fun _ => herr⟩, fun _ => ⟨hloc, hinv⟩, ?_⟩
    · rcases hfatal with h | h | h | ⟨p, r, h1, h2, h3, _⟩
      · exact Or.inl h
      · exact Or.inr (Or.inl h)
      · exact Or.inr (Or.inr (Or.inl h))
      · exact Or.inr (Or.inr (Or.inr ⟨p, r, h1, h2, h3⟩))
    · intro planner r hc hg hp hnil
      rcases hfatal with h | ⟨e, h⟩ | ⟨p, e, h1, h2⟩ | ⟨p, r', h1, h2, h3, h4⟩
      · exact absurd hc h
      · rw [hg] at h; cases h
      · rw [hg] at h1; cases h1; rw [hp] at h2; cases h2
      · exact h4
  · have herr : (ExecuteBuild o description).err = none := by rw [hrun]
    refine ⟨⟨fun h => absurd herr h, fun h => ?_⟩, fun h => absurd herr h, ?_⟩
    · exfalso
      rcases h with h | ⟨e, h⟩ | ⟨p, e, h1, h2⟩ | ⟨p, r', h1, h2, h3⟩
      · exact h hc
      · rw [hg] at h; cases h
      · rw [hg] at h1; cases h1; rw [hp] at h2; cases h2
      · rw [hg] at h1; cases h1; rw [hp] at h2; cases h2; exact hne h3
    · intro planner' r' _ hg' hp' hnil
      rw [hg] at hg'; cases hg'; rw [hp] at hp'; cases hp'
      exact absurd hnil hne

/-- C7, witness: scenario B, the plan `3. [UNKNOWN_ROLE] Do something`, aborts with
the error `no executable tasks found in plan`. -/
theorem ExecuteBuild_error_iff_witness :
    (ExecuteBuild scenarioB "a todo app".toList).err
      = some "no executable tasks found in plan".toList :=
  (ExecuteBuild_error_iff scenarioB "a todo app".toList).2.2 _ _ rfl rfl rfl (by decide)

/-- C8: when the parsed task list is not empty and every role of it resolves, then
whatever the agents answer, `ExecuteBuild` returns no error and invokes, after the
planner, one agent per task, in parse order, with the role and the description of
the task (and the context built from the tasks before it); every task of the list is
pending at the end, and an iteration whose invocation fails leaves its task as it
is. -/
theorem ExecuteBuild_invokes_every_task (o : Orchestrator) (description : Str)
    (hne : (ExecuteBuild o description).tasks ≠ [])
    (hres : ∀ t ∈ (ExecuteBuild o description).tasks,
      ∃ a, o.registry.GetAgent t.AgentType = .ok a) :
    (ExecuteBuild o description).err = none ∧
    invocations (ExecuteBuild o description).trace
      = (PlannerAgent, [], planPrompt description) ::
          (ExecuteBuild o description).tasks.enum.map (fun p =>
            (p.2.AgentType, buildContext ((ExecuteBuild o description).tasks.take p.1),
              p.2.Description)) ∧
    (∀ t ∈ (ExecuteBuild o description).tasks,
      t.Status = "pending".toList ∧ t.Result = none) ∧
    (∀ (tasks : List Task) (totalStages : Nat) (s : LoopState) (i : Nat) (task : Task)
        (agent : Agent) (e : Str),
      o.registry.GetAgent task.AgentType = .ok agent →
      agent.Process (s.trace ++ [Event.DisplayProgress (stageName task) (i + 3) totalStages])
        (buildContext (tasks.take i)) task.Description = .error e →
      (taskStep o tasks totalStages s i task).locals = s.locals ++ [task]) := by
  rcases ExecuteBuild_cases o description with
    ⟨_, _, _, _, htasks⟩ | ⟨planner, r, hc, hg, hp, hne', hrun⟩
  · exact absurd htasks hne
  · have ht : (ExecuteBuild o description).tasks = parsePlan r.Content := by rw [hrun]
    rw [ht] at hres ⊢
    refine ⟨by rw [hrun], ?_, parsePlan_pending r.Content, ?_⟩
    · rw [hrun]
      simp only [invocations_append, invocations_taskLoop, invocations_plannedTrace]
      rw [taskInvocations_resolved o _ _ 0 hres]
      simp [invocations, List.enum]
    · intro tasks totalStages s i task agent e hga hpe
      unfold taskStep
      simp only [hga, hpe]

set_option maxRecDepth 100000 in
/-- C8, witness: scenario A with a backend agent whose request fails: the backend
and the frontend agent are invoked, in this order. -/
theorem ExecuteBuild_invokes_every_task_witness :
    (ExecuteBuild scenarioFailure "a todo app".toList).err = none ∧
    invocations (ExecuteBuild scenarioFailure "a todo app".toList).trace
      = [(PlannerAgent, [], planPrompt "a todo app".toList),
         (BackendAgent, [], "Create todo API".toList),
         (FrontendAgent, utf8 "Previous task results:".toList, "Build todo UI".toList)] := by
  have h := ExecuteBuild_invokes_every_task scenarioFailure "a todo app".toList (by decide)
    (by
      have ht : (ExecuteBuild scenarioFailure "a todo app".toList).tasks
          = [pendingTask, { pendingTask with ID := "task_2".toList, AgentType := FrontendAgent,
                                             Description := "Build todo UI".toList }] := by
        decide
      rw [ht]
      intro t hmem
      simp only [List.mem_cons, List.mem_singleton, List.not_mem_nil, or_false] at hmem
      rcases hmem with hmem | hmem
      · subst hmem; exact ⟨_, rfl⟩
      · subst hmem; exact ⟨_, rfl⟩)
  refine ⟨h.1, h.2.1.trans ?_⟩
  decide

/-- C9: when the parsed task list is not empty, the run returns no error whether
the roles resolve or not; the agents invoked after the planner are those of the
tasks whose role resolves, every one of them, in order; a task whose role does not
resolve is pending and without result, and so is the loop variable of its iteration;
such an iteration only displays its progress and a warning: it invokes no agent and
writes no file. -/
theorem ExecuteBuild_skips_unresolved_role (o : Orchestrator) (description : Str)
    (hne : (ExecuteBuild o description).tasks ≠ []) :
    (ExecuteBuild o description).err = none ∧
    invocations (ExecuteBuild o description).trace
      = (PlannerAgent, [], planPrompt description) ::
          taskInvocations o (ExecuteBuild o description).tasks 0
            (ExecuteBuild o description).tasks ∧
    (∀ (i : Nat) (t : Task) (e : Str), (ExecuteBuild o description).tasks[i]? = some t →
      o.registry.GetAgent t.AgentType = .error e →
      (ExecuteBuild o description).locals[i]? = some t ∧
        t.Status = "pending".toList ∧ t.Result = none) ∧
    (∀ (tasks : List Task) (totalStages : Nat) (s : LoopState) (i : Nat) (task : Task) (e : Str),
      o.registry.GetAgent task.AgentType = .error e →
      taskStep o tasks totalStages s i task
        = { trace := s.trace ++ [Event.DisplayProgress (stageName task) (i + 3) totalStages,
              Event.DisplayWarning ("Skipping task - agent ".toList ++ task.AgentType
                ++ " not available: ".toList ++ e)],
            locals := s.locals ++ [task] }) := by
  rcases ExecuteBuild_cases o description with
    ⟨_, _, _, _, htasks⟩ | ⟨planner, r, hc, hg, hp, hne', hrun⟩
  · exact absurd htasks hne
  · have ht : (ExecuteBuild o description).tasks = parsePlan r.Content := by rw [hrun]
    refine ⟨by rw [hrun], ?_, ?_, ?_⟩
    · rw [hrun]
      simp only [invocations_append, invocations_taskLoop, invocations_plannedTrace]
      simp [invocations]
    · intro i t e hi hge
      obtain ⟨locs, hl, hf⟩ := locals_taskLoop o (parsePlan r.Content)
        ((parsePlan r.Content).length + 2) (parsePlan r.Content) ⟨plannedTrace description, []⟩ 0
      have hlocals : (ExecuteBuild o description).locals = locs := by
        rw [hrun]; simpa using hl
      rw [ht] at hi
      obtain ⟨loc, hloc, hR⟩ := forall₂_getElem? (LocalOf o) _ _ hf i t hi
      have hmem : t ∈ parsePlan r.Content := List.getElem?_mem hi
      refine ⟨?_, parsePlan_pending r.Content t hmem⟩
      rw [hlocals, hloc]
      rcases hR with h | ⟨agent, _, hga, _⟩
      · rw [h]
      · rw [hge] at hga; cases hga
    · intro tasks totalStages s i task e hge
      unfold taskStep
      simp only [hge, List.append_assoc, List.singleton_append]

set_option maxRecDepth 100000 in
/-- C9, witness: scenario A with a registry without backend agent: the run returns
no error, the backend task is skipped and the frontend agent is invoked. -/
theorem ExecuteBuild_skips_unresolved_role_witness :
    (ExecuteBuild scenarioUnresolved "a todo app".toList).err = none ∧
    invocations (ExecuteBuild scenarioUnresolved "a todo app".toList).trace
      = [(PlannerAgent, [], planPrompt "a todo app".toList),
         (FrontendAgent, utf8 "Previous task results:".toList, "Build todo UI".toList)] := by
  have h := ExecuteBuild_skips_unresolved_role scenarioUnresolved "a todo app".toList (by decide)
  refine ⟨h.1, h.2.1.trans ?_⟩
  decide

/-! ## The scanner that `taskRegex` is -/

theorem map_orElse {α β : Type} (f : α → β) (a : Option α) (b : Unit → Option α) :
    (a.orElse b).map f = (a.map f).orElse (fun u => (b u).map f) := by
  cases a <;> rfl

theorem run_desc_caps (pos : Nat) (v : Str) (caps : List (Nat × Str)) :
    (Regex.run (.seq (.group 2 (Regex.plus (.char reAny) false)) taskEnd) ⟨pos, v, caps⟩ some).map
        (fun st => st.caps)
      = (descGroup v).map (fun g => (2, g) :: caps) := by
  rw [run_desc]
  cases v with
  | nil => rfl
  | cons c cs =>
    by_cases hc : reAny c = true
    · simp only [hc, if_true, descGroup]
      cases lazyDesc 1 cs <;> rfl
    · simp [hc, descGroup]

theorem greedy_spaces_caps (caps : List (Nat × Str)) : ∀ (u : Str) (pos : Nat),
    (greedyChars reSpace
        (fun st => Regex.run (.seq (.group 2 (Regex.plus (.char reAny) false)) taskEnd) st some)
        pos u caps).map (fun st => st.caps)
      = (spacesDesc u).map (fun g => (2, g) :: caps) := by
  intro u
  induction u with
  | nil => intro pos; simp only [greedyChars, spacesDesc]; exact run_desc_caps pos [] caps
  | cons c cs ih =>
    intro pos
    by_cases hc : reSpace c = true
    · simp only [greedyChars, spacesDesc, hc, if_true, map_orElse, ih (pos + 1)]
      rw [run_desc_caps pos (c :: cs) caps]
    · simp only [greedyChars, spacesDesc, hc]
      exact run_desc_caps pos (c :: cs) caps

theorem run_opt_star_nil (X : Regex) (k : Cont) (pos : Nat) (caps : List (Nat × Str)) :
    Regex.run (.seq (Regex.opt (Regex.lit '*')) X) ⟨pos, [], caps⟩ k
      = Regex.run X ⟨pos, [], caps⟩ k := by
  simp [Regex.opt, run_seq, run_alt, run_empty, run_lit_nil]

theorem run_opt_star_cons (X : Regex) (k : Cont) (pos : Nat) (c : Char) (cs : Str)
    (caps : List (Nat × Str)) :
    Regex.run (.seq (Regex.opt (Regex.lit '*')) X) ⟨pos, c :: cs, caps⟩ k
      = if c = '*' then
          (Regex.run X ⟨pos + 1, cs, caps⟩ k).orElse (fun _ => Regex.run X ⟨pos, c :: cs, caps⟩ k)
        else Regex.run X ⟨pos, c :: cs, caps⟩ k := by
  by_cases hc : c = '*'
  · simp [Regex.opt, run_seq, run_alt, run_empty, run_lit_cons, hc]
  · simp [Regex.opt, run_seq, run_alt, run_empty, run_lit_cons, hc]

theorem run_star_seq (p : Char → Bool) (X : Regex) (k : Cont) (pos : Nat) (s : Str)
    (caps : List (Nat × Str)) :
    Regex.run (.seq (.star (.char p) true) X) ⟨pos, s, caps⟩ k
      = greedyChars p (fun st => Regex.run X st k) pos s caps := by
  rw [run_seq, run_star_greedy]

theorem run_spaces_caps (pos : Nat) (u : Str) (caps : List (Nat × Str)) :
    (Regex.run (.seq (.star (.char reSpace) true)
        (.seq (.group 2 (Regex.plus (.char reAny) false)) taskEnd)) ⟨pos, u, caps⟩ some).map
        (fun st => st.caps)
      = (spacesDesc u).map (fun g => (2, g) :: caps) := by
  rw [run_star_seq]
  exact greedy_spaces_caps caps u pos

theorem run_star_spaces_caps (pos : Nat) (v : Str) (caps : List (Nat × Str)) :
    (Regex.run (.seq (Regex.opt (Regex.lit '*')) (.seq (.star (.char reSpace) true)
        (.seq (.group 2 (Regex.plus (.char reAny) false)) taskEnd))) ⟨pos, v, caps⟩ some).map
        (fun st => st.caps)
      = (starDesc v).map (fun g => (2, g) :: caps) := by
  cases v with
  | nil =>
    rw [run_opt_star_nil, run_spaces_caps]
    rfl
  | cons c cs =>
    rw [run_opt_star_cons]
    by_cases hc : c = '*'
    · simp only [hc, if_true, map_orElse, run_spaces_caps, starDesc]
    · simp only [hc, if_false, run_spaces_caps, starDesc]

/-- The part of `taskRegex` after the closing bracket computes `tailDesc`. -/
theorem run_tail_caps (pos : Nat) (r : Str) (caps : List (Nat × Str)) :
    (Regex.run (.seq (Regex.opt (Regex.lit '*')) (.seq (Regex.opt (Regex.lit '*'))
        (.seq (.star (.char reSpace) true)
        (.seq (.group 2 (Regex.plus (.char reAny) false)) taskEnd)))) ⟨pos, r, caps⟩ some).map
        (fun st => st.caps)
      = (tailDesc r).map (fun g => (2, g) :: caps) := by
  cases r with
  | nil =>
    rw [run_opt_star_nil, run_star_spaces_caps]
    rfl
  | cons c cs =>
    rw [run_opt_star_cons]
    by_cases hc : c = '*'
    · simp only [hc, if_true, map_orElse, run_star_spaces_caps, tailDesc]
    · simp only [hc, if_false, run_star_spaces_caps, tailDesc]

/-- The scanner: `FindStringSubmatch` on `taskRegex` finds nothing when `taskMatch`
finds nothing, and otherwise returns the matched text, the role token and the
description that `taskMatch` finds. -/
theorem FindStringSubmatch_taskMatch (line : Str) :
    (taskMatch line = none ∧ FindStringSubmatch taskRegex 2 line = []) ∨
      ∃ whole w g, taskMatch line = some (w, g) ∧
        FindStringSubmatch taskRegex 2 line = [whole, w, g] := by
  rw [FindStringSubmatch_taskRegex, taskRegex_unfold, run_head]
  unfold taskMatch
  cases hs : scanHead line with
  | none => exact Or.inl ⟨rfl, rfl⟩
  | some x =>
    obtain ⟨w, n, r⟩ := x
    simp only
    have h := run_tail_caps n r [(1, w)]
    cases hrun : Regex.run (.seq (Regex.opt (Regex.lit '*')) (.seq (Regex.opt (Regex.lit '*'))
        (.seq (.star (.char reSpace) true)
        (.seq (.group 2 (Regex.plus (.char reAny) false)) taskEnd)))) ⟨n, r, [(1, w)]⟩ some with
    | none =>
      rw [hrun] at h
      cases ht : tailDesc r with
      | none => exact Or.inl ⟨rfl, rfl⟩
      | some g => rw [ht] at h; cases h
    | some st =>
      rw [hrun] at h
      cases ht : tailDesc r with
      | none => rw [ht] at h; cases h
      | some g =>
        rw [ht] at h
        simp only [Option.map_some', Option.some.injEq] at h
        refine Or.inr ⟨List.take st.pos line, w, g, rfl, ?_⟩
        simp only [h]
        rfl

/-- One iteration of the loop of `parsePlan`, with the scanner in the place of the
regular expression. -/
theorem parseLine_taskMatch (st : ParseState) (line : Str) :
    parseLine st line
      = if TrimSpace line = [] then st
        else
          match taskMatch (TrimSpace line) with
          | none => st
          | some (w, g) =>
            if mapAgentName (ToLower w) = [] then st
            else
              { tasks := st.tasks ++ [{ ID := taskIDString st.taskID,
                                        AgentType := mapAgentName (ToLower w),
                                        Description := cleanDescription g, Dependencies := [],
                                        Status := "pending".toList, Result := none }],
                taskID := st.taskID + 1 } := by
  unfold parseLine
  simp only
  by_cases h0 : TrimSpace line = []
  · simp [h0]
  · rw [if_neg h0, if_neg h0]
    rcases FindStringSubmatch_taskMatch (TrimSpace line) with ⟨h1, h2⟩ | ⟨whole, w, g, h1, h2⟩
    · rw [h1, h2]; rfl
    · rw [h1, h2]
      simp only [List.length_cons, List.length_nil, List.getD_cons_succ, List.getD_cons_zero,
        cleanDescription]
      rfl

/-! ## The description of a task -/

theorem TrimSuffix_concat (s : Str) (c : Char) : TrimSuffix (s ++ [c]) [c] = s := by
  unfold TrimSuffix
  have h : List.isSuffixOf [c] (s ++ [c]) = true := by
    rw [List.isSuffixOf_iff_suffix]; exact ⟨s, rfl⟩
  simp [h]

theorem TrimSuffix_of_ne (s : Str) (c d : Char) (h : d ≠ c) :
    TrimSuffix (s ++ [d]) [c] = s ++ [d] := by
  unfold TrimSuffix
  have hn : ¬ List.isSuffixOf [c] (s ++ [d]) = true := by
    rw [List.isSuffixOf_iff_suffix]
    rintro ⟨t, ht⟩
    have := congrArg List.getLast? ht
    simp at this
    exact h this.symm
  simp [hn]

theorem TrimSuffix_nil (suffix : Str) : TrimSuffix [] suffix = [] := by
  unfold TrimSuffix
  split_ifs <;> simp

theorem TrimSuffix_eq_nil (s : Str) (c : Char) : TrimSuffix s [c] = [] ↔ s = [] ∨ s = [c] := by
  rcases List.eq_nil_or_concat s with h | ⟨s', d, h⟩
  · subst h; simp [TrimSuffix_nil]
  · rw [List.concat_eq_append] at h
    subst h
    by_cases hd : d = c
    · subst hd
      rw [TrimSuffix_concat]
      constructor
      · intro e; subst e; simp
      · rintro (e | e)
        · simp at e
        · have := congrArg List.length e
          simp at this
          exact this
    · rw [TrimSuffix_of_ne s' c d hd]
      constructor
      · intro e; simp at e
      · rintro (e | e)
        · exact e
        · exfalso
          have := congrArg List.getLast? e
          simp at this
          exact hd this

theorem TrimSuffix_dot_eq_colon (x : Str) :
    TrimSuffix x ['.'] = [':'] ↔ x = [':'] ∨ x = [':', '.'] := by
  rcases List.eq_nil_or_concat x with h | ⟨s', d, h⟩
  · subst h; simp [TrimSuffix_nil]
  · rw [List.concat_eq_append] at h
    subst h
    by_cases hd : d = '.'
    · subst hd
      rw [TrimSuffix_concat]
      constructor
      · intro e; subst e; right; rfl
      · rintro (e | e)
        · exfalso
          have := congrArg List.getLast? e
          simp at this
        · have h2 : s' ++ ['.'] = [':'] ++ ['.'] := e
          exact List.append_cancel_right h2
    · rw [TrimSuffix_of_ne s' '.' d hd]
      constructor
      · intro e; exact Or.inl e
      · rintro (e | e)
        · exact e
        · exfalso
          have := congrArg List.getLast? e
          simp at this
          exact hd this

/-- The clean-up of a description gives the empty string exactly when the
description, trimmed, is empty, `.`, `:` or `:.`. -/
theorem cleanDescription_eq_nil (g : Str) :
    cleanDescription g = [] ↔ TrimSpace g ∈ [[], ".".toList, ":".toList, ":.".toList] := by
  unfold cleanDescription
  have e1 : ".".toList = ['.'] := rfl
  have e2 : ":".toList = [':'] := rfl
  have e3 : ":.".toList = [':', '.'] := rfl
  rw [e1, e2, e3, TrimSuffix_eq_nil, TrimSuffix_eq_nil, TrimSuffix_dot_eq_colon]
  simp only [List.mem_cons, List.mem_singleton, List.not_mem_nil, or_false]
  tauto

theorem lazyDesc_ge : ∀ (u : Str) (n : Nat) (r : Nat × Nat × Str), lazyDesc n u = some r → n ≤ r.1 := by
  intro u
  induction u with
  | nil =>
    intro n r h
    simp only [lazyDesc] at h
    cases hs : scanEnd [] with
    | none => rw [hs] at h; cases h
    | some e => rw [hs] at h; cases h; exact Nat.le_refl _
  | cons c cs ih =>
    intro n r h
    simp only [lazyDesc] at h
    cases hs : scanEnd (c :: cs) with
    | some e => rw [hs] at h; cases h; exact Nat.le_refl _
    | none =>
      rw [hs] at h
      by_cases hc : reAny c = true
      · simp only [hc, if_true] at h
        have := ih (n + 1) r h
        omega
      · simp [hc] at h

/-- Group 2 of a match is never empty. -/
theorem descGroup_ne_nil (v g : Str) (h : descGroup v = some g) : g ≠ [] := by
  cases v with
  | nil => cases h
  | cons c cs =>
    simp only [descGroup] at h
    by_cases hc : reAny c = true
    · simp only [hc, if_true] at h
      cases hl : lazyDesc 1 cs with
      | none => rw [hl] at h; cases h
      | some r =>
        rw [hl] at h
        simp only [Option.map_some', Option.some.injEq] at h
        have hr := lazyDesc_ge cs 1 r hl
        rw [← h]
        obtain ⟨k, hk⟩ : ∃ k, r.1 = k + 1 := ⟨r.1 - 1, by omega⟩
        rw [hk]
        simp
    · simp [hc] at h

theorem spacesDesc_some : ∀ (u g : Str), spacesDesc u = some g → ∃ v, descGroup v = some g := by
  intro u
  induction u with
  | nil => intro g h; exact ⟨[], h⟩
  | cons c cs ih =>
    intro g h
    simp only [spacesDesc] at h
    by_cases hc : reSpace c = true
    · simp only [hc, if_true] at h
      cases hs : spacesDesc cs with
      | none => rw [hs] at h; exact ⟨c :: cs, h⟩
      | some g' =>
        rw [hs] at h
        have e : g' = g := by simpa [Option.orElse] using h
        exact ih g (by rw [hs, e])
    · simp only [hc] at h
      exact ⟨c :: cs, h⟩

theorem starDesc_some (v g : Str) (h : starDesc v = some g) : ∃ u, spacesDesc u = some g := by
  cases v with
  | nil => exact ⟨[], h⟩
  | cons c cs =>
    simp only [starDesc] at h
    by_cases hc : c = '*'
    · simp only [hc, if_true] at h
      cases hs : spacesDesc cs with
      | none => rw [hs] at h; exact ⟨'*' :: cs, h⟩
      | some g' =>
        rw [hs] at h
        have e : g' = g := by simpa [Option.orElse] using h
        exact ⟨cs, by rw [hs, e]⟩
    · simp only [hc, if_false] at h
      exact ⟨c :: cs, h⟩

theorem tailDesc_some (r g : Str) (h : tailDesc r = some g) : ∃ v, starDesc v = some g := by
  cases r with
  | nil => exact ⟨[], h⟩
  | cons c cs =>
    simp only [tailDesc] at h
    by_cases hc : c = '*'
    · simp only [hc, if_true] at h
      cases hs : starDesc cs with
      | none => rw [hs] at h; exact ⟨'*' :: cs, h⟩
      | some g' =>
        rw [hs] at h
        have e : g' = g := by simpa [Option.orElse] using h
        exact ⟨cs, by rw [hs, e]⟩
    · simp only [hc, if_false] at h
      exact ⟨c :: cs, h⟩

/-- The description that `taskRegex` finds on a line is not empty. -/
theorem taskMatch_ne_nil (line w g : Str) (h : taskMatch line = some (w, g)) : g ≠ [] := by
  unfold taskMatch at h
  cases hs : scanHead line with
  | none => rw [hs] at h; cases h
  | some x =>
    obtain ⟨w', n, r⟩ := x
    rw [hs] at h
    simp only at h
    cases ht : tailDesc r with
    | none => rw [ht] at h; cases h
    | some g' =>
      rw [ht] at h
      simp only [Option.map_some', Option.some.injEq, Prod.mk.injEq] at h
      obtain ⟨_, hg⟩ := h
      subst hg
      obtain ⟨v, hv⟩ := tailDesc_some r g' ht
      obtain ⟨u, hu⟩ := starDesc_some v g' hv
      obtain ⟨x, hx⟩ := spacesDesc_some u g' hu
      exact descGroup_ne_nil x g' hx

/-- One iteration of the loop of `parsePlan` leaves the state as it is, or the
trimmed line matches `taskRegex` with a role token that `mapAgentName` knows and the
iteration appends the task of that role with the cleaned-up description. -/
theorem parseLine_match (st : ParseState) (line : Str) :
    parseLine st line = st ∨
      ∃ whole w g, FindStringSubmatch taskRegex 2 (TrimSpace line) = [whole, w, g] ∧
        taskMatch (TrimSpace line) = some (w, g) ∧ mapAgentName (ToLower w) ≠ [] ∧
        parseLine st line
          = { tasks := st.tasks ++ [{ ID := taskIDString st.taskID,
                                      AgentType := mapAgentName (ToLower w),
                                      Description := cleanDescription g, Dependencies := [],
                                      Status := "pending".toList, Result := none }],
              taskID := st.taskID + 1 } := by
  rw [parseLine_taskMatch]
  by_cases h0 : TrimSpace line = []
  · left; simp [h0]
  · rw [if_neg h0]
    rcases FindStringSubmatch_taskMatch (TrimSpace line) with ⟨h1, _⟩ | ⟨whole, w, g, h1, h2⟩
    · left; rw [h1]
    · rw [h1]
      by_cases hm : mapAgentName (ToLower w) = []
      · left; simp [hm]
      · right
        exact ⟨whole, w, g, h2, rfl, hm, by simp [hm]⟩

/-- What the loop of `parsePlan` says of every task it appends: the task comes from
a line whose trimmed text matches `taskRegex` with a non-empty description group,
and its description is the clean-up of that group. -/
theorem foldl_parseLine_description : ∀ (lines : List Str) (st : ParseState) (t : Task),
    t ∈ (lines.foldl parseLine st).tasks →
    t ∈ st.tasks ∨
      ∃ line ∈ lines, ∃ whole w g,
        FindStringSubmatch taskRegex 2 (TrimSpace line) = [whole, w, g] ∧ g ≠ [] ∧
        t.AgentType = mapAgentName (ToLower w) ∧ t.Description = cleanDescription g := by
  intro lines
  induction lines with
  | nil => intro st t h; exact Or.inl h
  | cons l ls ih =>
    intro st t h
    rw [List.foldl_cons] at h
    rcases ih (parseLine st l) t h with h1 | ⟨line, hl, whole, w, g, h2⟩
    · rcases parseLine_match st l with e | ⟨whole, w, g, hf, hm, _, e⟩
      · rw [e] at h1; exact Or.inl h1
      · rw [e] at h1
        rcases List.mem_append.mp h1 with h3 | h3
        · exact Or.inl h3
        · right
          simp only [List.mem_singleton] at h3
          subst h3
          exact ⟨l, by simp, whole, w, g, hf, taskMatch_ne_nil _ w g hm, rfl, rfl⟩
    · exact Or.inr ⟨line, List.mem_cons_of_mem _ hl, whole, w, g, h2⟩

/-- C12, as stated, fails: the plan `1. [BACKEND] .` gives a task whose description
is empty. -/
theorem parsePlan_empty_description :
    parsePlan "1. [BACKEND] .".toList
      = [{ ID := "task_1".toList, AgentType := BackendAgent, Description := [],
           Dependencies := [], Status := "pending".toList, Result := none }] := by
  decide

/-- C12, amended: for every plan text, every task returned by `parsePlan` comes from
a line of the plan on which the description group of the task pattern is not empty,
and its `Description` is the clean-up of that group (white space trimmed, one
trailing `.` removed, one trailing `:` removed); the `Description` is empty exactly
when the group, trimmed, is empty, `.`, `:` or `:.`. -/
theorem parsePlan_description (plan : Str) (t : Task) (ht : t ∈ parsePlan plan) :
    ∃ line ∈ splitLines plan, ∃ whole w g,
      FindStringSubmatch taskRegex 2 (TrimSpace line) = [whole, w, g] ∧ g ≠ [] ∧
      t.Description = cleanDescription g ∧
      (t.Description = [] ↔ TrimSpace g ∈ [[], ".".toList, ":".toList, ":.".toList]) := by
  rcases foldl_parseLine_description (splitLines plan) ⟨[], 1⟩ t ht with h | h
  · simp at h
  · obtain ⟨line, hl, whole, w, g, h1, h2, _, h4⟩ := h
    exact ⟨line, hl, whole, w, g, h1, h2, h4, by rw [h4]; exact cleanDescription_eq_nil g⟩

/-- C12, witness: the task of the plan `1. [BACKEND] Create todo API.`, whose
description group is `Create todo API.`. -/
theorem parsePlan_description_witness :
    ∃ line ∈ splitLines "1. [BACKEND] Create todo API.".toList, ∃ whole w g,
      FindStringSubmatch taskRegex 2 (TrimSpace line) = [whole, w, g] ∧ g ≠ [] ∧
      "Create todo API".toList = cleanDescription g ∧
      ("Create todo API".toList = [] ↔
        TrimSpace g ∈ [[], ".".toList, ":".toList, ":.".toList]) :=
  parsePlan_description "1. [BACKEND] Create todo API.".toList
    { ID := "task_1".toList, AgentType := BackendAgent, Description := "Create todo API".toList,
      Dependencies := [], Status := "pending".toList, Result := none } (by decide)

/-! ## Lines on which the pattern matches -/

theorem lazyDesc_isSome : ∀ (u : Str) (n : Nat), (∀ c ∈ u, reAny c = true) →
    ∃ r, lazyDesc n u = some r := by
  intro u
  induction u with
  | nil => intro n _; exact ⟨(n, 0, []), by simp [lazyDesc, scanEnd]⟩
  | cons c cs ih =>
    intro n h
    simp only [lazyDesc]
    cases scanEnd (c :: cs) with
    | some e => exact ⟨_, rfl⟩
    | none =>
      simp only [h c (by simp), if_true]
      exact ih (n + 1) (fun x hx => h x (List.mem_cons_of_mem _ hx))

/-- On a text without newline that is not empty, group 2 and the end of `taskRegex`
match. -/
theorem descGroup_isSome (v : Str) (hv : v ≠ []) (h : ∀ c ∈ v, reAny c = true) :
    ∃ g, descGroup v = some g := by
  cases v with
  | nil => exact absurd rfl hv
  | cons c cs =>
    obtain ⟨r, hr⟩ := lazyDesc_isSome cs 1 (fun x hx => h x (List.mem_cons_of_mem _ hx))
    exact ⟨(c :: cs).take r.1, by simp [descGroup, h c (by simp), hr]⟩

/-- The greedy `\s*` takes the longest run when group 2 matches after it. -/
theorem spacesDesc_longest : ∀ (u g : Str), descGroup (u.dropWhile reSpace) = some g →
    spacesDesc u = some g := by
  intro u
  induction u with
  | nil => intro g h; exact h
  | cons c cs ih =>
    intro g h
    by_cases hc : reSpace c = true
    · simp only [List.dropWhile_cons, hc, if_true] at h
      simp [spacesDesc, hc, ih g h]
    · simp only [List.dropWhile_cons, hc] at h
      simpa [spacesDesc, hc] using h

/-- After the closing bracket, a text that does not begin with a star. -/
theorem tailDesc_of_ne_star (c : Char) (cs : Str) (hc : c ≠ '*') :
    tailDesc (c :: cs) = spacesDesc (c :: cs) := by
  simp [tailDesc, starDesc, hc]

/-- After the closing bracket, one star and a text that does not begin with a
star. -/
theorem tailDesc_one_star (c : Char) (cs g : Str) (hc : c ≠ '*')
    (h : spacesDesc (c :: cs) = some g) : tailDesc ('*' :: c :: cs) = some g := by
  simp [tailDesc, starDesc, hc, h]

/-- After the closing bracket, two stars. -/
theorem tailDesc_two_stars (x g : Str) (h : spacesDesc x = some g) :
    tailDesc ('*' :: '*' :: x) = some g := by
  simp [tailDesc, starDesc, h]

theorem rdropWhile_append_of_ne_nil (p : Char → Bool) (x y : Str) (h : y.rdropWhile p ≠ []) :
    (x ++ y).rdropWhile p = x ++ y.rdropWhile p := by
  have hy := rdropWhile_append_rtakeWhile p y
  have hb : ∀ c ∈ y.rtakeWhile p, p c = true := fun c hc => List.mem_rtakeWhile_imp hc
  conv_lhs => rw [← hy, ← List.append_assoc, rdropWhile_append_of_pos p _ _ hb]
  rw [List.rdropWhile_eq_self_iff]
  intro hl
  have hs : y.rdropWhile p <:+ x ++ y.rdropWhile p := ⟨x, rfl⟩
  rw [← hs.getLast h]
  exact List.rdropWhile_last_not p y h

theorem TrimSpace_eq_rdropWhile (d : Str) (h : TrimSpace d ≠ []) : d.rdropWhile isSpace ≠ [] := by
  intro e
  rw [List.rdropWhile_eq_nil_iff] at e
  apply h
  have : d.dropWhile isSpace = [] := List.dropWhile_eq_nil_iff.mpr e
  show (d.dropWhile isSpace).rdropWhile isSpace = []
  rw [this]; rfl

/-- Trimming a line that begins with a character that is not white space and ends
in a text with such a character: only the white space at the end goes. -/
theorem TrimSpace_line (c : Char) (pre d : Str) (hc : isSpace c = false)
    (hd : TrimSpace d ≠ []) :
    TrimSpace (c :: pre ++ d) = c :: pre ++ d.rdropWhile isSpace := by
  have h1 : TrimSpace (c :: pre ++ d) = ((c :: pre ++ d).dropWhile isSpace).rdropWhile isSpace := rfl
  have h2 : (c :: pre ++ d).dropWhile isSpace = c :: pre ++ d := by
    simp [List.dropWhile_cons, hc]
  rw [h1, h2]
  exact rdropWhile_append_of_ne_nil isSpace (c :: pre) d (TrimSpace_eq_rdropWhile d hd)

theorem TrimSpace_rdropWhile (d : Str) : TrimSpace (d.rdropWhile isSpace) = TrimSpace d := by
  by_cases hd : TrimSpace d = []
  · have hall : ∀ c ∈ d, isSpace c = true := by
      by_contra hcon
      push_neg at hcon
      obtain ⟨c, hc, hcs⟩ := hcon
      have h1 : d.dropWhile isSpace ≠ [] := by
        intro e
        exact hcs (List.dropWhile_eq_nil_iff.mp e c hc)
      have h2 : (d.dropWhile isSpace).rdropWhile isSpace = [] := hd
      rw [List.rdropWhile_eq_nil_iff] at h2
      have h3 := List.head_dropWhile_not isSpace d h1
      have h4 := h2 _ (List.head_mem h1)
      rw [h4] at h3
      exact absurd h3 (by simp)
    have e : d.rdropWhile isSpace = [] := List.rdropWhile_eq_nil_iff.mpr hall
    rw [e, hd]; rfl
  · obtain ⟨a, b, hdec, ha, hb, hlast, hhead⟩ := TrimSpace_facts d hd
    have e : d.rdropWhile isSpace = a ++ TrimSpace d := by
      conv_lhs => rw [hdec]
      rw [rdropWhile_append_of_pos isSpace _ b hb]
      rw [rdropWhile_append_of_ne_nil isSpace a (TrimSpace d)]
      · congr 1
        rw [List.rdropWhile_eq_self_iff]
        intro hl
        simp [hlast]
      · intro e2
        rw [List.rdropWhile_eq_nil_iff] at e2
        have := e2 _ (List.getLast_mem hd)
        rw [hlast] at this
        exact absurd this (by simp)
    rw [e]
    have := TrimSpace_eq a (TrimSpace d) [] hd ha (by simp) hlast hhead
    simpa using this
/-- The head of `taskRegex` on a line `<n>.<spaces><stars>[<R>]<rest>` with at most
two stars before the bracket. -/
theorem scanHead_shape_stars (n sp ob R r4 : Str) (hn : n ≠ [])
    (hnd : ∀ c ∈ n, reDigit c = true) (hsp : ∀ c ∈ sp, reSpace c = true)
    (hob : ob = [] ∨ ob = ['*'] ∨ ob = ['*', '*'])
    (hR : R ≠ []) (hRw : ∀ c ∈ R, reWord c = true) :
    scanHead (n ++ '.' :: (sp ++ (ob ++ '[' :: (R ++ ']' :: r4))))
      = some (R, n.length + 1 + sp.length + ob.length + 1 + R.length + 1, r4) := by
  have hc : ∃ c rest, ob ++ '[' :: (R ++ ']' :: r4) = c :: rest ∧ reSpace c = false := by
    rcases hob with h | h | h <;> subst h
    · exact ⟨'[', _, rfl, by decide⟩
    · exact ⟨'*', _, rfl, by decide⟩
    · exact ⟨'*', _, rfl, by decide⟩
  obtain ⟨c, rest, hcr, hcs⟩ := hc
  have h1 := takeWhile_append_stop reDigit n '.' (sp ++ (ob ++ '[' :: (R ++ ']' :: r4))) hnd
    (by decide)
  have h2 := dropWhile_append_stop reDigit n '.' (sp ++ (ob ++ '[' :: (R ++ ']' :: r4))) hnd
    (by decide)
  have h3 : List.takeWhile reSpace (sp ++ (ob ++ '[' :: (R ++ ']' :: r4))) = sp := by
    rw [hcr]; exact takeWhile_append_stop reSpace sp c rest hsp hcs
  have h4 : List.dropWhile reSpace (sp ++ (ob ++ '[' :: (R ++ ']' :: r4)))
      = ob ++ '[' :: (R ++ ']' :: r4) := by
    rw [hcr]; exact dropWhile_append_stop reSpace sp c rest hsp hcs
  have h5 := takeWhile_append_stop reWord R ']' r4 hRw (by decide)
  have h6 := dropWhile_append_stop reWord R ']' r4 hRw (by decide)
  have h7 : dropStars (ob ++ '[' :: (R ++ ']' :: r4)) = (ob.length, '[' :: (R ++ ']' :: r4)) := by
    rcases hob with h | h | h <;> subst h
    · exact dropStars_of_ne _ _ (by decide)
    · cases R with
      | nil => exact absurd rfl hR
      | cons x xs => simp [dropStars]
    · simp [dropStars]
  unfold scanHead
  simp only [h1, h2, h3, h4, h5, h6, h7, hn, hR, if_true, if_false]

theorem not_isSpace_of_reDigit_head (n : Str) (hn : n ≠ []) (hnd : ∀ c ∈ n, reDigit c = true) :
    ∃ c cs, n = c :: cs ∧ isSpace c = false := by
  cases n with
  | nil => exact absurd rfl hn
  | cons c cs => exact ⟨c, cs, rfl, reDigit_not_isSpace c (hnd c (by simp))⟩

/-- The description group after the closing bracket and one `\s` character, when
the text that follows has a character that is not white space and no newline. -/
theorem spacesDesc_isSome (d1 : Str) (hd1 : d1 ≠ []) (hlast : isSpace (d1.getLast hd1) = false)
    (hnl : '\n' ∉ d1) : ∃ g, spacesDesc (' ' :: d1) = some g := by
  have hne : List.dropWhile reSpace (' ' :: d1) ≠ [] := by
    intro e
    rw [List.dropWhile_eq_nil_iff] at e
    have := e _ (List.mem_cons_of_mem _ (List.getLast_mem hd1))
    rw [not_reSpace_of_not_isSpace _ hlast] at this
    exact absurd this (by simp)
  have hany : ∀ c ∈ List.dropWhile reSpace (' ' :: d1), reAny c = true := by
    intro c hc
    have h1 : c ∈ ' ' :: d1 := (List.dropWhile_suffix reSpace).subset hc
    rcases List.mem_cons.mp h1 with h2 | h2
    · subst h2; decide
    · have : c ≠ '\n' := fun e => hnl (e ▸ h2)
      simp [reAny, this]
  obtain ⟨g, hg⟩ := descGroup_isSome _ hne hany
  exact ⟨g, spacesDesc_longest _ g hg⟩

/-- C15, as stated, fails: with the empty description the bold line
`1. **[BACKEND]** ` gives a task, with the description `*`, and the plain line
`1. [BACKEND] ` gives none. -/
theorem parsePlan_bold_blank_description :
    parsePlan ("1".toList ++ ". **[".toList ++ "BACKEND".toList ++ "]** ".toList ++ [])
        = [{ ID := "task_1".toList, AgentType := BackendAgent, Description := "*".toList,
             Dependencies := [], Status := "pending".toList, Result := none }] ∧
      parsePlan ("1".toList ++ ". [".toList ++ "BACKEND".toList ++ "] ".toList ++ []) = [] := by
  decide

/-- C15, amended: for every decimal integer `n`, every role token `R` (one or more
word characters) and every description `d` that holds a character other than white
space and no newline, `parsePlan` returns the same result for the line
`n. **[R]** d` as for the line `n. [R] d`. -/
theorem parsePlan_bold (n R d : Str) (hn : n ≠ []) (hnd : ∀ c ∈ n, reDigit c = true)
    (hR : R ≠ []) (hRw : ∀ c ∈ R, reWord c = true) (hnl : '\n' ∉ d)
    (hd : TrimSpace d ≠ []) :
    parsePlan (n ++ ". **[".toList ++ R ++ "]** ".toList ++ d)
      = parsePlan (n ++ ". [".toList ++ R ++ "] ".toList ++ d) := by
  obtain ⟨c, cs, hncs, hcsp⟩ := not_isSpace_of_reDigit_head n hn hnd
  have hd1 := TrimSpace_eq_rdropWhile d hd
  have hlast := List.rdropWhile_last_not isSpace d hd1
  have hlast' : isSpace ((d.rdropWhile isSpace).getLast hd1) = false := by
    simpa using hlast
  have hnl1 : '\n' ∉ d.rdropWhile isSpace :=
    fun h => hnl ((List.rdropWhile_prefix isSpace d).subset h)
  obtain ⟨g, hg⟩ := spacesDesc_isSome _ hd1 hlast' hnl1
  -- the two lines, trimmed
  have eb : n ++ ". **[".toList ++ R ++ "]** ".toList ++ d
      = c :: (cs ++ '.' :: ([' '] ++ (['*', '*'] ++ '[' :: (R ++ ']' :: '*' :: '*' :: [' '])))) ++ d := by
    rw [hncs]; simp [List.append_assoc]
  have ep : n ++ ". [".toList ++ R ++ "] ".toList ++ d
      = c :: (cs ++ '.' :: ([' '] ++ ([] ++ '[' :: (R ++ ']' :: [' '])))) ++ d := by
    rw [hncs]; simp [List.append_assoc]
  have tb : TrimSpace (n ++ ". **[".toList ++ R ++ "]** ".toList ++ d)
      = n ++ '.' :: ([' '] ++ (['*', '*'] ++ '[' :: (R ++ ']' :: '*' :: '*' :: ' ' ::
          d.rdropWhile isSpace))) := by
    rw [eb, TrimSpace_line c _ d hcsp hd, hncs]; simp [List.append_assoc]
  have tp : TrimSpace (n ++ ". [".toList ++ R ++ "] ".toList ++ d)
      = n ++ '.' :: ([' '] ++ ([] ++ '[' :: (R ++ ']' :: ' ' :: d.rdropWhile isSpace))) := by
    rw [ep, TrimSpace_line c _ d hcsp hd, hncs]; simp [List.append_assoc]
  have mb : taskMatch (TrimSpace (n ++ ". **[".toList ++ R ++ "]** ".toList ++ d)) = some (R, g) := by
    rw [tb]
    unfold taskMatch
    rw [scanHead_shape_stars n [' '] ['*', '*'] R _ hn hnd (by decide) (Or.inr (Or.inr rfl)) hR hRw]
    simp only [tailDesc_two_stars _ g hg, Option.map_some']
  have mp : taskMatch (TrimSpace (n ++ ". [".toList ++ R ++ "] ".toList ++ d)) = some (R, g) := by
    rw [tp]
    unfold taskMatch
    rw [scanHead_shape_stars n [' '] [] R _ hn hnd (by decide) (Or.inl rfl) hR hRw]
    simp only [tailDesc_of_ne_star ' ' _ (by decide), hg, Option.map_some']
  have hb0 : TrimSpace (n ++ ". **[".toList ++ R ++ "]** ".toList ++ d) ≠ [] := by
    rw [tb, hncs]; simp
  have hp0 : TrimSpace (n ++ ". [".toList ++ R ++ "] ".toList ++ d) ≠ [] := by
    rw [tp, hncs]; simp
  have nlb : '\n' ∉ n ++ ". **[".toList ++ R ++ "]** ".toList ++ d := by
    intro h
    simp only [List.mem_append] at h
    rcases h with (((h | h) | h) | h) | h
    · exact reDigit_ne_newline _ (hnd _ h) rfl
    · exact absurd h (by decide)
    · exact reWord_ne_newline _ (hRw _ h) rfl
    · exact absurd h (by decide)
    · exact hnl h
  unfold parsePlan
  rw [splitLines_no_newline _ nlb, splitLines_no_newline _ (newline_not_mem_line n R d hnd hRw hnl)]
  simp only [List.foldl_cons, List.foldl_nil]
  rw [parseLine_taskMatch, parseLine_taskMatch, if_neg hb0, if_neg hp0, mb, mp]

/-- C15, witness: the lines `1. **[BACKEND]** Create todo API` and
`1. [BACKEND] Create todo API`. -/
theorem parsePlan_bold_witness :
    parsePlan ("1".toList ++ ". **[".toList ++ "BACKEND".toList ++ "]** ".toList
        ++ "Create todo API".toList)
      = parsePlan ("1".toList ++ ". [".toList ++ "BACKEND".toList ++ "] ".toList
        ++ "Create todo API".toList) :=
  parsePlan_bold "1".toList "BACKEND".toList "Create todo API".toList
    (by decide) (by decide) (by decide) (by decide) (by decide) (by decide)

/-! ## A description that ends at a code fence -/

theorem TrimSpace_eq_nil_imp (d : Str) (hd : TrimSpace d = []) : ∀ c ∈ d, isSpace c = true := by
  by_contra hcon
  push_neg at hcon
  obtain ⟨c, hc, hcs⟩ := hcon
  have h1 : d.dropWhile isSpace ≠ [] := by
    intro e
    exact hcs (List.dropWhile_eq_nil_iff.mp e c hc)
  have h2 : (d.dropWhile isSpace).rdropWhile isSpace = [] := hd
  rw [List.rdropWhile_eq_nil_iff] at h2
  have h3 := List.head_dropWhile_not isSpace d h1
  have h4 := h2 _ (List.head_mem h1)
  rw [h4] at h3
  exact absurd h3 (by simp)

theorem TrimSpace_ne_nil_of_mem (d : Str) (c : Char) (hc : c ∈ d) (hs : isSpace c = false) :
    TrimSpace d ≠ [] := by
  intro e
  have := TrimSpace_eq_nil_imp d e c hc
  rw [hs] at this
  exact absurd this (by simp)

theorem exists_not_isSpace (d : Str) (hd : TrimSpace d ≠ []) : ∃ c ∈ d, isSpace c = false := by
  obtain ⟨a, b, hdec, _, _, _, hhead⟩ := TrimSpace_facts d hd
  have hin : TrimSpace d <:+: d := ⟨a, b, hdec.symm⟩
  exact ⟨(TrimSpace d).head hd, hin.subset (List.head_mem hd), hhead⟩

theorem TrimSpace_append_spaces (a x : Str) (ha : ∀ c ∈ a, isSpace c = true) :
    TrimSpace (a ++ x) = TrimSpace x := by
  show ((a ++ x).dropWhile isSpace).rdropWhile isSpace = (x.dropWhile isSpace).rdropWhile isSpace
  rw [List.dropWhile_append_of_pos ha]

theorem TrimSpace_spaces_append (x b : Str) (hb : ∀ c ∈ b, isSpace c = true) :
    TrimSpace (x ++ b) = TrimSpace x := by
  show ((x ++ b).dropWhile isSpace).rdropWhile isSpace = (x.dropWhile isSpace).rdropWhile isSpace
  rw [List.dropWhile_append]
  by_cases h : (x.dropWhile isSpace).isEmpty = true
  · rw [if_pos h]
    have e1 : x.dropWhile isSpace = [] := List.isEmpty_iff.mp h
    have e2 : b.dropWhile isSpace = [] := List.dropWhile_eq_nil_iff.mpr hb
    rw [e1, e2]
  · rw [if_neg h, rdropWhile_append_of_pos isSpace _ b hb]

/-- Removing the `\s` characters at both ends does not change `TrimSpace`. -/
theorem TrimSpace_reSpace_trim (x : Str) :
    TrimSpace ((x.dropWhile reSpace).rdropWhile reSpace) = TrimSpace x := by
  have h1 : TrimSpace (x.dropWhile reSpace) = TrimSpace x := by
    conv_rhs => rw [← List.takeWhile_append_dropWhile reSpace x]
    rw [TrimSpace_append_spaces _ _ (fun c hc => reSpace_isSpace c (List.mem_takeWhile_imp hc))]
  rw [← h1]
  conv_rhs => rw [← rdropWhile_append_rtakeWhile reSpace (x.dropWhile reSpace)]
  rw [TrimSpace_spaces_append _ _ (fun c hc => reSpace_isSpace c (List.mem_rtakeWhile_imp hc))]

theorem lazyDesc_of_scanEnd (y : Str) (n : Nat) (e : Nat × Str) (h : scanEnd y = some e) :
    lazyDesc n y = some (n, e) := by
  cases y with
  | nil => simp [lazyDesc, h]
  | cons c cs => simp [lazyDesc, h]

/-- The lazy group ends where the end of `taskRegex` matches for the first time. -/
theorem lazyDesc_stop (y : Str) (e : Nat × Str) (hy : scanEnd y = some e) :
    ∀ (x : Str) (n : Nat), (∀ c ∈ x, reAny c = true) →
      (∀ v, v ≠ [] → v <:+ x → scanEnd (v ++ y) = none) →
      lazyDesc n (x ++ y) = some (n + x.length, e) := by
  intro x
  induction x with
  | nil => intro n _ _; simpa using lazyDesc_of_scanEnd y n e hy
  | cons c cs ih =>
    intro n hany hend
    have h1 : scanEnd (c :: cs ++ y) = none := hend (c :: cs) (by simp) (List.suffix_refl _)
    have h2 : reAny c = true := hany c (by simp)
    have h3 := ih (n + 1) (fun a ha => hany a (List.mem_cons_of_mem _ ha))
      (fun v hv hs => hend v hv (hs.trans (List.suffix_cons c cs)))
    have h1' : scanEnd (c :: (cs ++ y)) = none := h1
    have e2 : n + 1 + cs.length = n + (cs.length + 1) := by omega
    show lazyDesc n (c :: (cs ++ y)) = some (n + (cs.length + 1), e)
    simp only [lazyDesc, h1', h2, if_true, h3, e2]

theorem scanEnd_none_of_not_prefix (z : Str) (hne : z.dropWhile reSpace ≠ [])
    (hf : ¬ "```".toList <+: z.dropWhile reSpace) : scanEnd z = none := by
  unfold scanEnd
  rcases hr : List.dropWhile reSpace z with _ | ⟨c1, _ | ⟨c2, _ | ⟨c3, r⟩⟩⟩
  · exact absurd hr hne
  · rfl
  · rfl
  · by_cases h : c1 = '`' ∧ c2 = '`' ∧ c3 = '`'
    · exfalso
      apply hf
      obtain ⟨h1, h2, h3⟩ := h
      subst h1 h2 h3
      rw [hr]
      exact ⟨r, rfl⟩
    · simp [h]

theorem scanEnd_fence (b post : Str) (hb : ∀ c ∈ b, reSpace c = true) :
    scanEnd (b ++ ("```".toList ++ post)) = some (b.length + 3, post) := by
  have e : "```".toList ++ post = '`' :: '`' :: '`' :: post := rfl
  rw [e]
  unfold scanEnd
  rw [takeWhile_append_stop reSpace b '`' _ hb (by decide),
    dropWhile_append_stop reSpace b '`' _ hb (by decide)]
  simp

/-- Before the first code fence of a text, after every character of the description
but the last, the end of `taskRegex` does not match. -/
theorem scanEnd_before_fence (pre m b post v : Str) (hv : v ≠ [])
    (hvm : v <:+ m) (hm : m ≠ []) (hlast : reSpace (m.getLast hm) = false)
    (hb : ∀ c ∈ b, reSpace c = true) (hpre : m ++ b <:+ pre)
    (hfirst : ¬ "```".toList <:+: pre ++ "``".toList) :
    scanEnd (v ++ (b ++ ("```".toList ++ post))) = none := by
  have hvlast : reSpace (v.getLast hv) = false := by rw [hvm.getLast hv]; exact hlast
  have hv2 : v.dropWhile reSpace ≠ [] := by
    intro e
    rw [List.dropWhile_eq_nil_iff] at e
    have := e _ (List.getLast_mem hv)
    rw [hvlast] at this
    exact absurd this (by simp)
  have hdw : (v ++ (b ++ ("```".toList ++ post))).dropWhile reSpace
      = v.dropWhile reSpace ++ (b ++ ("```".toList ++ post)) := by
    rw [List.dropWhile_append]
    have : (v.dropWhile reSpace).isEmpty = false := by
      cases h : v.dropWhile reSpace with
      | nil => exact absurd h hv2
      | cons _ _ => rfl
    simp [this]
  apply scanEnd_none_of_not_prefix
  · rw [hdw]; simp [hv2]
  · rw [hdw]
    intro hf
    have hv2m : v.dropWhile reSpace <:+ m := (List.dropWhile_suffix reSpace).trans hvm
    by_cases hlen : 3 ≤ (v.dropWhile reSpace).length
    · have h1 : "```".toList <+: v.dropWhile reSpace :=
        List.prefix_of_prefix_length_le hf (List.prefix_append _ _) hlen
      apply hfirst
      have h2 : v.dropWhile reSpace <:+: pre :=
        hv2m.isInfix.trans ((List.prefix_append m b).isInfix.trans hpre.isInfix)
      exact (h1.isInfix.trans h2).trans (List.prefix_append pre _).isInfix
    · cases b with
      | cons s b' =>
        have h1 : v.dropWhile reSpace ++ [s] <+: v.dropWhile reSpace ++ (s :: b' ++ ("```".toList ++ post)) :=
          ⟨b' ++ ("```".toList ++ post), by simp⟩
        have h2 : v.dropWhile reSpace ++ [s] <+: "```".toList :=
          List.prefix_of_prefix_length_le h1 hf (by simp; omega)
        have h3 : s ∈ "```".toList := h2.subset (by simp)
        have h4 : s = '`' := by
          simp only [String.toList] at h3
          simpa using h3
        have := hb s (by simp)
        rw [h4] at this
        exact absurd this (by decide)
      | nil =>
        apply hfirst
        have h1 : v.dropWhile reSpace ++ "``".toList
            <+: v.dropWhile reSpace ++ ([] ++ ("```".toList ++ post)) :=
          ⟨'`' :: post, by simp⟩
        have hl : 1 ≤ (v.dropWhile reSpace).length := by
          cases h : v.dropWhile reSpace with
          | nil => exact absurd h hv2
          | cons _ _ => simp
        have h2 : "```".toList <+: v.dropWhile reSpace ++ "``".toList :=
          List.prefix_of_prefix_length_le hf h1 (by
            simp only [List.length_append]
            have e3 : "```".toList.length = 3 := rfl
            have e2 : "``".toList.length = 2 := rfl
            omega)
        have hp : m <:+ pre := by simpa using hpre
        obtain ⟨t, ht⟩ := hv2m.trans hp
        have h3 : v.dropWhile reSpace ++ "``".toList <:+ pre ++ "``".toList :=
          ⟨t, by rw [← ht]; simp⟩
        exact h2.isInfix.trans h3.isInfix
theorem TrimSpace_part (x : Str) : TrimSpace x <:+: x :=
  (List.rdropWhile_prefix isSpace (x.dropWhile isSpace)).isInfix.trans
    (List.dropWhile_suffix isSpace).isInfix

/-- The description group on a text that holds a code fence, with a character that
is not white space before the first one: the text before the fence without the `\s`
characters at its ends. -/
theorem spacesDesc_fence (pre post : Str) (hnl : '\n' ∉ pre) (hpre : TrimSpace pre ≠ [])
    (hfirst : ¬ "```".toList <:+: pre ++ "``".toList) :
    spacesDesc (pre ++ ("```".toList ++ post))
      = some ((pre.dropWhile reSpace).rdropWhile reSpace) := by
  obtain ⟨c0, hc0, hc0s⟩ := exists_not_isSpace pre hpre
  have hc0r : reSpace c0 = false := not_reSpace_of_not_isSpace c0 hc0s
  have hc0q : c0 ∈ pre.dropWhile reSpace := by
    have h := List.takeWhile_append_dropWhile reSpace pre
    rw [← h] at hc0
    rcases List.mem_append.mp hc0 with h1 | h1
    · have := List.mem_takeWhile_imp h1
      rw [hc0r] at this
      exact absurd this (by simp)
    · exact h1
  have hq : pre.dropWhile reSpace ≠ [] := List.ne_nil_of_mem hc0q
  have hm : (pre.dropWhile reSpace).rdropWhile reSpace ≠ [] := by
    intro e
    rw [List.rdropWhile_eq_nil_iff] at e
    have := e c0 hc0q
    rw [hc0r] at this
    exact absurd this (by simp)
  have hmb := rdropWhile_append_rtakeWhile reSpace (pre.dropWhile reSpace)
  have hb : ∀ c ∈ (pre.dropWhile reSpace).rtakeWhile reSpace, reSpace c = true :=
    fun c hc => List.mem_rtakeWhile_imp hc
  have hlast : reSpace (((pre.dropWhile reSpace).rdropWhile reSpace).getLast hm) = false := by
    have := List.rdropWhile_last_not reSpace (pre.dropWhile reSpace) hm
    simpa using this
  have hsuf : (pre.dropWhile reSpace).rdropWhile reSpace
      ++ (pre.dropWhile reSpace).rtakeWhile reSpace <:+ pre := by
    rw [hmb]; exact List.dropWhile_suffix reSpace
  have hdw : (pre ++ ("```".toList ++ post)).dropWhile reSpace
      = (pre.dropWhile reSpace).rdropWhile reSpace
        ++ ((pre.dropWhile reSpace).rtakeWhile reSpace ++ ("```".toList ++ post)) := by
    rw [List.dropWhile_append]
    have : (pre.dropWhile reSpace).isEmpty = false := by
      cases h : pre.dropWhile reSpace with
      | nil => exact absurd h hq
      | cons _ _ => rfl
    rw [this]
    simp only [Bool.false_eq_true, if_false]
    conv_lhs => rw [← hmb]
    simp only [List.append_assoc]
  apply spacesDesc_longest
  rw [hdw]
  generalize hmdef : (pre.dropWhile reSpace).rdropWhile reSpace = m at hm hlast hsuf ⊢
  generalize hbdef : (pre.dropWhile reSpace).rtakeWhile reSpace = b at hb hsuf ⊢
  have hmpre : ∀ c ∈ m, c ∈ pre := fun c hc =>
    hsuf.subset (List.mem_append_left _ hc)
  cases m with
  | nil => exact absurd rfl hm
  | cons c mt =>
    have hany : ∀ a ∈ c :: mt, reAny a = true := by
      intro a ha
      have : a ≠ '\n' := fun e => hnl (e ▸ hmpre a ha)
      simp [reAny, this]
    have hstop := lazyDesc_stop (b ++ ("```".toList ++ post)) (b.length + 3, post)
      (scanEnd_fence b post hb) mt 1 (fun a ha => hany a (List.mem_cons_of_mem _ ha))
      (fun v hv hvs => scanEnd_before_fence pre (c :: mt) b post v hv
        (hvs.trans (List.suffix_cons c mt)) hm hlast hb hsuf hfirst)
    have htake : List.take (1 + mt.length) (c :: (mt ++ (b ++ ("```".toList ++ post)))) = c :: mt := by
      rw [Nat.add_comm, List.take_succ_cons, List.take_left]
    show descGroup (c :: (mt ++ (b ++ ("```".toList ++ post)))) = some (c :: mt)
    simp only [descGroup, hany c (by simp), if_true, hstop, Option.map_some', htake]

/-- C14, as stated, fails: on the line ``1. [BACKEND]**```go`` the text after the role
holds a fence preceded by the characters `**`, which are not white space, and the
description of the task is the fence itself, ` ```go `, not the text before it. -/
theorem parsePlan_fence_after_stars :
    parsePlan ("1. [BACKEND]".toList ++ ("**".toList ++ ("```".toList ++ "go".toList)))
        = [{ ID := "task_1".toList, AgentType := BackendAgent,
             Description := "```".toList ++ "go".toList,
             Dependencies := [], Status := "pending".toList, Result := none }] ∧
      TrimSpace "**".toList ≠ [] ∧ cleanDescription "**".toList = "**".toList := by
  decide

/-- C14, amended: for every plan line whose trimmed text matches the task pattern
with a recognised role and has, after the closing bracket and the stars that the
pattern takes there (at most two), a text with a code fence that is preceded by a
character that is not white space, `parsePlan` returns one task whose description is
the clean-up of the text before the first fence: nothing at or after the fence is in
it. -/
theorem parsePlan_fence (line n sp ob R cb pre post : Str) (hnl : '\n' ∉ line)
    (hline : TrimSpace line
      = n ++ '.' :: (sp ++ (ob ++ '[' :: (R ++ ']' :: (cb ++ (pre ++ ("```".toList ++ post)))))))
    (hn : n ≠ []) (hnd : ∀ c ∈ n, reDigit c = true) (hsp : ∀ c ∈ sp, reSpace c = true)
    (hob : ob = [] ∨ ob = ['*'] ∨ ob = ['*', '*'])
    (hR : ToLower R ∈ [BackendAgent, FrontendAgent, SecurityAgent, PlannerAgent])
    (hcb : cb = [] ∨ cb = ['*'] ∨ cb = ['*', '*'])
    (hstar : cb.length < 2 → pre.head? ≠ some '*')
    (hpre : TrimSpace pre ≠ [])
    (hfirst : ¬ "```".toList <:+: pre ++ "``".toList) :
    parsePlan line
      = [{ ID := "task_1".toList, AgentType := ToLower R, Description := cleanDescription pre,
           Dependencies := [], Status := "pending".toList, Result := none }] := by
  have hRw := role_reWord R hR
  have hRne := role_ne_nil R hR
  have hsub : ∀ c ∈ pre, c ∈ line := by
    intro c hc
    apply (TrimSpace_part line).subset
    rw [hline]
    simp [hc]
  have hnlpre : '\n' ∉ pre := fun h => hnl (hsub _ h)
  have hg := spacesDesc_fence pre post hnlpre hpre hfirst
  have hprene : pre ≠ [] := by
    intro e; apply hpre; rw [e]; rfl
  have htail : tailDesc (cb ++ (pre ++ ("```".toList ++ post)))
      = some ((pre.dropWhile reSpace).rdropWhile reSpace) := by
    cases pre with
    | nil => exact absurd rfl hprene
    | cons p0 pt =>
      rcases hcb with h | h | h <;> subst h
      · have hp0 : p0 ≠ '*' := by
          intro e; exact hstar (by simp) (by simp [e])
        rw [List.nil_append, List.cons_append, tailDesc_of_ne_star p0 _ hp0]
        exact hg
      · have hp0 : p0 ≠ '*' := by
          intro e; exact hstar (by simp) (by simp [e])
        exact tailDesc_one_star p0 _ _ hp0 hg
      · exact tailDesc_two_stars _ _ hg
  have hmatch : taskMatch (TrimSpace line)
      = some (R, (pre.dropWhile reSpace).rdropWhile reSpace) := by
    rw [hline]
    unfold taskMatch
    rw [scanHead_shape_stars n sp ob R _ hn hnd hsp hob hRne hRw]
    simp only [htail, Option.map_some']
  have h0 : TrimSpace line ≠ [] := by
    rw [hline]
    cases n with
    | nil => exact absurd rfl hn
    | cons x xs => simp
  have hmap : mapAgentName (ToLower R) = ToLower R := roles_mapAgentName _ hR
  have hmapne : ToLower R ≠ [] := roles_ne_nil _ hR
  have hclean : cleanDescription ((pre.dropWhile reSpace).rdropWhile reSpace)
      = cleanDescription pre := by
    unfold cleanDescription
    rw [TrimSpace_reSpace_trim]
  unfold parsePlan
  rw [splitLines_no_newline line hnl]
  simp only [List.foldl_cons, List.foldl_nil]
  rw [parseLine_taskMatch, if_neg h0, hmatch]
  simp only [hmap, hmapne, if_false, hclean, List.nil_append]
  rfl

/-- C14, witness: the line ``1. [BACKEND] Create API ```go`` gives the description
`Create API`. -/
theorem parsePlan_fence_witness :
    parsePlan ("1. [BACKEND] Create API ".toList ++ ("```".toList ++ "go".toList))
      = [{ ID := "task_1".toList, AgentType := "backend".toList,
           Description := "Create API".toList,
           Dependencies := [], Status := "pending".toList, Result := none }] :=
  parsePlan_fence ("1. [BACKEND] Create API ".toList ++ ("```".toList ++ "go".toList))
    "1".toList " ".toList [] "BACKEND".toList [] " Create API ".toList "go".toList
    (by decide) (by decide) (by decide) (by decide) (by decide) (by decide) (by decide)
    (by decide) (by decide) (by decide) (by decide)

/-! ## A line with two bracket groups -/

/-- C16, as stated, fails: the description is cleaned up and ends at a code fence.
The line `1. [BACKEND] [FRONTEND] Build UI.` gives the description
`[FRONTEND] Build UI`, without the dot, and on the line ``1. [BACKEND] [```] x``,
where `R2` is a fence, it gives `[`. -/
theorem parsePlan_second_bracket_cut :
    parsePlan ("1".toList ++ ". [".toList ++ "BACKEND".toList ++ "] [".toList
          ++ "FRONTEND".toList ++ "] ".toList ++ "Build UI.".toList)
        = [{ ID := "task_1".toList, AgentType := BackendAgent,
             Description := "[FRONTEND] Build UI".toList,
             Dependencies := [], Status := "pending".toList, Result := none }] ∧
      parsePlan ("1".toList ++ ". [".toList ++ "BACKEND".toList ++ "] [".toList
          ++ "```".toList ++ "] ".toList ++ "x".toList)
        = [{ ID := "task_1".toList, AgentType := BackendAgent, Description := "[".toList,
             Dependencies := [], Status := "pending".toList, Result := none }] := by
  decide

/-- C16, amended: for a line `n. [R1] [R2] text` with `R1` a recognised role and with
no newline and no code fence in `[R2] text`, `parsePlan` returns exactly one task,
with role `R1` and, as description, the clean-up of `[R2] text` (white space
trimmed, one trailing `.` removed, one trailing `:` removed), whatever else `R2`
is. -/
theorem parsePlan_second_bracket (n R1 R2 text : Str) (hn : n ≠ [])
    (hnd : ∀ c ∈ n, reDigit c = true)
    (hR : ToLower R1 ∈ [BackendAgent, FrontendAgent, SecurityAgent, PlannerAgent])
    (hnl : '\n' ∉ R2 ++ text)
    (hfence : ¬ "```".toList <:+: "[".toList ++ R2 ++ "] ".toList ++ text) :
    parsePlan (n ++ ". [".toList ++ R1 ++ "] [".toList ++ R2 ++ "] ".toList ++ text)
      = [{ ID := "task_1".toList, AgentType := ToLower R1,
           Description := cleanDescription ("[".toList ++ R2 ++ "] ".toList ++ text),
           Dependencies := [], Status := "pending".toList, Result := none }] := by
  have e : n ++ ". [".toList ++ R1 ++ "] [".toList ++ R2 ++ "] ".toList ++ text
      = n ++ ". [".toList ++ R1 ++ "] ".toList ++ ("[".toList ++ R2 ++ "] ".toList ++ text) := by
    have e1 : "] [".toList = "] ".toList ++ "[".toList := rfl
    rw [e1]
    simp only [List.append_assoc]
  have hnl' : '\n' ∉ "[".toList ++ R2 ++ "] ".toList ++ text := by
    intro h
    simp only [List.mem_append] at h
    rcases h with ((h | h) | h) | h
    · exact absurd h (by decide)
    · exact hnl (List.mem_append_left _ h)
    · exact absurd h (by decide)
    · exact hnl (List.mem_append_right _ h)
  have hd : TrimSpace ("[".toList ++ R2 ++ "] ".toList ++ text) ≠ [] :=
    TrimSpace_ne_nil_of_mem _ '[' (by simp) (by decide)
  rw [e]
  unfold parsePlan
  rw [splitLines_no_newline _ (newline_not_mem_line n R1 _ hnd (role_reWord R1 hR) hnl')]
  simp only [List.foldl_cons, List.foldl_nil]
  rw [parseLine_task ⟨[], 1⟩ n R1 _ hn hnd hR hnl' hfence hd]
  rfl

/-- C16, witness: the line `1. [BACKEND] [FRONTEND] Build UI`. -/
theorem parsePlan_second_bracket_witness :
    parsePlan ("1".toList ++ ". [".toList ++ "BACKEND".toList ++ "] [".toList
        ++ "FRONTEND".toList ++ "] ".toList ++ "Build UI".toList)
      = [{ ID := "task_1".toList, AgentType := "backend".toList,
           Description := "[FRONTEND] Build UI".toList,
           Dependencies := [], Status := "pending".toList, Result := none }] :=
  parsePlan_second_bracket "1".toList "BACKEND".toList "FRONTEND".toList "Build UI".toList
    (by decide) (by decide) (by decide) (by decide) (by decide)


/-! ## The message that an agent sends -/

/-- C11: for every context and request, `BaseAgent.Process` hands to
`ProcessAgentRequest` (with the agent's type, system prompt and configuration) the
request unchanged when the context is the empty string, and the message
`"Context: " + context + "\n\nUser Request: " + request` when the context is not
empty. -/
theorem BaseAgent_Process_message (a : BaseAgent) (trace : List Event) (context : Bytes)
    (message : Str) :
    a.Process trace [] message
        = a.client.ProcessAgentRequest trace a.agentType a.systemPrompt (utf8 message) a.config ∧
      (context ≠ [] → a.Process trace context message
        = a.client.ProcessAgentRequest trace a.agentType a.systemPrompt
            (utf8 "Context: ".toList ++ context ++ utf8 "\n\nUser Request: ".toList
              ++ utf8 message) a.config) := by
  refine ⟨?_, ?_⟩
  · simp [BaseAgent.Process]
  · intro h
    simp [BaseAgent.Process, h]

/-- C19: `ProcessAgentRequest` sends one request to the transport, with the model,
temperature and token limit of the configuration and the system prompt and the user
message as its two messages.  When the transport fails, it fails with
`failed to send chat request: ` and the transport's error; when the reply has no
choice, it fails with `no choices returned from API`; otherwise it returns the
response whose content is the content of the message of the first choice, whose
tokens are the total tokens of the reply, whose model is the model of the reply
and whose agent is the requested agent type. -/
theorem ProcessAgentRequest_outcome (c : GroqClient) (trace : List Event) (agentType : AgentType)
    (systemPrompt : Str) (userMessage : Bytes) (config : AgentConfig) :
    ∃ req : ChatRequest,
      req = { Model := config.Model,
              Messages := [{ Role := "system".toList, Content := utf8 systemPrompt },
                           { Role := "user".toList, Content := userMessage }],
              Temperature := config.Temperature, MaxTokens := config.MaxTokens,
              Stream := false } ∧
      (∀ err, c.SendChatRequest trace req = .error err →
        c.ProcessAgentRequest trace agentType systemPrompt userMessage config
          = .error ("failed to send chat request: ".toList ++ err)) ∧
      (∀ resp, c.SendChatRequest trace req = .ok resp → resp.Choices.length = 0 →
        c.ProcessAgentRequest trace agentType systemPrompt userMessage config
          = .error "no choices returned from API".toList) ∧
      (∀ resp choice rest, c.SendChatRequest trace req = .ok resp →
        resp.Choices = choice :: rest →
        c.ProcessAgentRequest trace agentType systemPrompt userMessage config
          = .ok { Content := choice.Message.Content, TokensUsed := resp.Usage.TotalTokens,
                  Model := resp.Model, Agent := agentType }) := by
  refine ⟨_, rfl, ?_, ?_, ?_⟩
  · intro err h
    simp only [GroqClient.ProcessAgentRequest, h]
  · intro resp h hc
    have hc' : resp.Choices = [] := List.length_eq_zero.mp hc
    simp only [GroqClient.ProcessAgentRequest, h, hc']
  · intro resp choice rest h hc
    simp only [GroqClient.ProcessAgentRequest, h, hc]

/-! ## The registry that `NewRegistry` builds -/

theorem NewRegistry_agents (prompts : SystemPrompts) (client : GroqClient) (config : Config) :
    (NewRegistry prompts client config).agents
      = [(PlannerAgent, NewPlannerAgent prompts client (getAgentConfig config PlannerAgent)),
         (FrontendAgent, NewFrontendAgent prompts client (getAgentConfig config FrontendAgent)),
         (BackendAgent, NewBackendAgent prompts client (getAgentConfig config BackendAgent)),
         (SecurityAgent, NewSecurityAgent prompts client (getAgentConfig config SecurityAgent))] := by
  rfl

theorem GetAgent_not_found (r : Registry) (agentType : AgentType)
    (h : ∀ e ∈ r.agents, e.1 ≠ agentType) :
    r.GetAgent agentType
      = .error ("agent type ".toList ++ agentType ++ " not found".toList) := by
  have : r.agents.find? (fun e => e.1 == agentType) = none := by
    rw [List.find?_eq_none]
    intro e he
    simpa using h e he
  simp only [Registry.GetAgent, this]

/-- C18: on the registry that `NewRegistry` builds, `GetAgent` succeeds for the
roles planner, frontend, backend and security and returns an agent whose type is
the requested role; for every other role string it fails with the error
`agent type <role> not found`, in particular for the roles devops, reviewer,
manager, tools and research, which are declared and not registered. -/
theorem NewRegistry_GetAgent (prompts : SystemPrompts) (client : GroqClient) (config : Config)
    (agentType : AgentType) :
    (agentType ∈ [PlannerAgent, FrontendAgent, BackendAgent, SecurityAgent] →
      ∃ agent, (NewRegistry prompts client config).GetAgent agentType = .ok agent ∧
        agent.agentType = agentType) ∧
    (agentType ∉ [PlannerAgent, FrontendAgent, BackendAgent, SecurityAgent] →
      (NewRegistry prompts client config).GetAgent agentType
        = .error ("agent type ".toList ++ agentType ++ " not found".toList)) ∧
    (∀ t ∈ [DevOpsAgent, ReviewerAgent, ManagerAgent, ToolsAgent, ResearchAgent],
      (NewRegistry prompts client config).GetAgent t
        = .error ("agent type ".toList ++ t ++ " not found".toList)) := by
  have hnot : ∀ t : AgentType, t ∉ [PlannerAgent, FrontendAgent, BackendAgent, SecurityAgent] →
      (NewRegistry prompts client config).GetAgent t
        = .error ("agent type ".toList ++ t ++ " not found".toList) := by
    intro t ht
    apply GetAgent_not_found
    rw [NewRegistry_agents]
    intro e he
    simp only [List.mem_cons, List.mem_singleton, List.not_mem_nil, or_false] at he ht
    rcases he with he | he | he | he <;> subst he <;> intro h <;> exact ht (by simp [← h])
  refine ⟨?_, hnot agentType, ?_⟩
  · intro h
    simp only [List.mem_cons, List.mem_singleton, List.not_mem_nil, or_false] at h
    rcases h with h | h | h | h <;> subst h
    · exact ⟨_, rfl, rfl⟩
    · exact ⟨_, rfl, rfl⟩
    · exact ⟨_, rfl, rfl⟩
    · exact ⟨_, rfl, rfl⟩
  · intro t ht
    apply hnot
    simp only [List.mem_cons, List.mem_singleton, List.not_mem_nil, or_false] at ht
    rcases ht with h | h | h | h | h <;> subst h <;> decide


/-! ## The files that `writeGeneratedFiles` writes -/

theorem writeCalls_append (xs ys : List Event) :
    writeCalls (xs ++ ys) = writeCalls xs ++ writeCalls ys := by
  induction xs with
  | nil => rfl
  | cons x xs ih => cases x <;> simp [writeCalls, ih]

theorem writeCalls_writeLoop (fw : FileWriter) : ∀ (blocks : List (Str × Str)) (trace : List Event),
    writeCalls (writeLoop fw trace blocks)
      = writeCalls trace ++ blocks.filter (fun b => decide (TrimSpace b.2 ≠ [])) := by
  intro blocks
  induction blocks with
  | nil => intro trace; simp [writeLoop]
  | cons b rest ih =>
    intro trace
    obtain ⟨filename, code⟩ := b
    by_cases hb : TrimSpace code = []
    · simp [writeLoop, hb, ih]
    · cases hw : fw.WriteFile trace filename code with
      | none => simp [writeLoop, hb, hw, ih, writeCalls_append, writeCalls]
      | some err => simp [writeLoop, hb, hw, ih, writeCalls_append, writeCalls]

/-- C17: for every list of entries (file name, code) that the extractor returns, in
the order in which the loop visits them, and whatever `WriteFile` answers, the
`WriteFile` calls that `writeGeneratedFiles` makes are exactly the entries whose
code is not empty after trimming, one call for each, and none for an entry whose
code is blank.  One iteration of the task loop leaves the same loop variable (so the
same status and result) whatever `WriteFile` answers, and the error and the tasks
of the run do not depend on `WriteFile`. -/
theorem writeGeneratedFiles_calls (o : Orchestrator) (trace : List Event) (content : Str) :
    writeCalls (writeGeneratedFiles o trace content)
        = writeCalls trace ++ (o.fileWriter.ExtractCodeBlocks trace content).filter
            (fun b => decide (TrimSpace b.2 ≠ [])) ∧
      (∀ (wf : List Event → Str → Str → Option Str) (tasks : List Task) (totalStages : Nat)
          (s : LoopState) (i : Nat) (task : Task),
        (taskStep { o with fileWriter := { o.fileWriter with WriteFile := wf } }
            tasks totalStages s i task).locals
          = (taskStep o tasks totalStages s i task).locals) ∧
      (∀ (wf : List Event → Str → Str → Option Str) (description : Str),
        (ExecuteBuild { o with fileWriter := { o.fileWriter with WriteFile := wf } }
            description).err = (ExecuteBuild o description).err ∧
        (ExecuteBuild { o with fileWriter := { o.fileWriter with WriteFile := wf } }
            description).tasks = (ExecuteBuild o description).tasks) := by
  refine ⟨?_, ?_, ?_⟩
  · simp only [writeGeneratedFiles, writeCalls_writeLoop, writeCalls_append, writeCalls,
      List.append_nil]
  · intro wf tasks totalStages s i task
    simp only [taskStep]
    cases o.registry.GetAgent task.AgentType with
    | error err => rfl
    | ok agent =>
      dsimp only
      cases agent.Process (s.trace ++ [Event.DisplayProgress (stageName task) (i + 3) totalStages])
          (buildContext (tasks.take i)) task.Description with
      | error err => rfl
      | ok response => rfl
  · intro wf description
    simp only [ExecuteBuild]
    cases o.fileWriter.CreateProjectStructure (startTrace description) with
    | some err => exact ⟨rfl, rfl⟩
    | none =>
      dsimp only
      cases o.registry.GetAgent PlannerAgent with
      | error err => exact ⟨rfl, rfl⟩
      | ok planner =>
        dsimp only
        cases planner.Process (planningTrace description) [] (planPrompt description) with
        | error err => exact ⟨rfl, rfl⟩
        | ok planResponse =>
          dsimp only
          by_cases h : (parsePlan planResponse.Content).length = 0
          · simp only [h, if_true, and_self]
          · simp only [h, if_false, and_self]

set_option maxRecDepth 100000 in
/-- C17, witness: with a file writer that finds the blocks `main.go` and a blank
`empty.txt` and fails on every write, `writeGeneratedFiles` calls `WriteFile` for
`main.go` only; the run of scenario A with this writer returns no error, completes
both tasks and calls `WriteFile` once for each task. -/
theorem writeGeneratedFiles_calls_witness :
    writeCalls (writeGeneratedFiles scenarioWriteFailure [] "code".toList)
        = [("main.go".toList, "package main".toList)] ∧
      (ExecuteBuild scenarioWriteFailure "a todo app".toList).err = none ∧
      ((ExecuteBuild scenarioWriteFailure "a todo app".toList).locals.map
        (fun t => t.Status)) = ["completed".toList, "completed".toList] ∧
      writeCalls (ExecuteBuild scenarioWriteFailure "a todo app".toList).trace
        = [("main.go".toList, "package main".toList), ("main.go".toList, "package main".toList)] :=
  ⟨(writeGeneratedFiles_calls scenarioWriteFailure [] "code".toList).1.trans (by decide),
    by decide, by decide, by decide⟩

/-! ## The message of `config allow-commands` -/

/-- C20 (the message is inverted): `config allow-commands` negates
`RequireCommandPermission` in the configuration it saves, and it prints
`Command execution enabled (agents can run system commands)` exactly when the
saved configuration requires permission, and
`Command execution disabled (agents will ask for permission)` exactly when it does
not.  On the default configuration, which requires permission, it saves a
configuration that does not require permission, for which `config show` prints
`Command Execution: Allowed`, and it prints `Command execution disabled (agents
will ask for permission)`. -/
theorem allowCommandsCmd_message (m : Manager) (save : Config → Option Str) :
    (∀ config, (allowCommandsCmd (.ok m) save).saved = some config →
      config = { m.config with RequireCommandPermission := !m.config.RequireCommandPermission } ∧
      (allowCommandsCmd (.ok m) save).exitCode = 0 ∧
      ((allowCommandsCmd (.ok m) save).stdout
          = ["✅ Command execution enabled (agents can run system commands)".toList]
        ↔ config.RequireCommandPermission = true) ∧
      ((allowCommandsCmd (.ok m) save).stdout
          = ["✅ Command execution disabled (agents will ask for permission)".toList]
        ↔ config.RequireCommandPermission = false)) ∧
    (allowCommandsCmd (.ok ⟨DefaultConfig⟩) (fun _ => none)).saved
      = some { DefaultConfig with RequireCommandPermission := false } ∧
    (allowCommandsCmd (.ok ⟨DefaultConfig⟩) (fun _ => none)).stdout
      = ["✅ Command execution disabled (agents will ask for permission)".toList] ∧
    showCmdPermissions { DefaultConfig with RequireCommandPermission := false }
      = "🔓 Command Execution: Allowed".toList := by
  refine ⟨?_, rfl, rfl, rfl⟩
  intro config h
  simp only [allowCommandsCmd, Manager.SetAllowCommands, Bool.not_not] at h ⊢
  cases hs : save { m.config with RequireCommandPermission := !m.config.RequireCommandPermission } with
  | some err => simp [hs] at h
  | none =>
    simp only [hs, Option.some.injEq] at h ⊢
    subst h
    cases hr : m.config.RequireCommandPermission <;> simp [hr]


/-! ## The allowed commands -/

theorem removeLoop_eq (cmds : List Str) (command : Str) :
    ∀ (rest pre : List Str) (i : Nat), cmds = pre ++ rest → i = pre.length →
      removeLoop cmds command i rest = pre ++ rest.erase command := by
  intro rest
  induction rest with
  | nil => intro pre i h _; simp [removeLoop, h]
  | cons cmd rest ih =>
    intro pre i h hi
    by_cases hc : cmd = command
    · subst hc
      simp only [removeLoop, if_true, List.erase_cons_head]
      subst h
      subst hi
      simp
    · have hb : (cmd == command) = false := by simpa using hc
      simp only [removeLoop, if_neg hc, List.erase_cons, hb]
      have := ih (pre ++ [cmd]) (i + 1) (by simp [h]) (by simp [hi])
      simpa using this

theorem filter_erase_ne (command : Str) : ∀ l : List Str,
    (l.erase command).filter (fun cmd => cmd ≠ command) = l.filter (fun cmd => cmd ≠ command) := by
  intro l
  induction l with
  | nil => rfl
  | cons a l ih =>
    by_cases h : a = command
    · subst h; simp
    · have hb : (a == command) = false := by simpa using h
      have ih' : List.filter (fun cmd => !decide (cmd = command)) (l.erase command)
          = List.filter (fun cmd => !decide (cmd = command)) l := by simpa using ih
      simp [List.erase_cons, hb, List.filter_cons, h, ih']

/-- C22, as stated, fails: from the list `git`, `git` the method removes the first
`git` only, and the list still contains `git` afterwards. -/
theorem RemoveAllowedCommand_duplicate :
    ((Manager.mk { DefaultConfig with AllowedCommands := ["git".toList, "git".toList] }).RemoveAllowedCommand
        (fun _ => none) "git".toList).1.config.AllowedCommands = ["git".toList] ∧
      "git".toList ∈ ((Manager.mk { DefaultConfig with
          AllowedCommands := ["git".toList, "git".toList] }).RemoveAllowedCommand
        (fun _ => none) "git".toList).1.config.AllowedCommands := by
  decide

/-- C22, amended: for every allowed-command list and every command `c`,
`RemoveAllowedCommand(c)` removes the first entry equal to `c`, if there is one:
all entries other than `c` remain, in their original order, nothing else of the
configuration changes, and the list does not contain `c` afterwards when `c`
occurred at most once in it.  This is so for every list without repetition, and
`AddAllowedCommand` keeps a list without repetition. -/
theorem RemoveAllowedCommand_erase (m : Manager) (save : Config → Option Str) (command : Str) :
    (m.RemoveAllowedCommand save command).1.config
        = { m.config with AllowedCommands := m.config.AllowedCommands.erase command } ∧
      ((m.RemoveAllowedCommand save command).1.config.AllowedCommands.filter
          (fun cmd => cmd ≠ command)
        = m.config.AllowedCommands.filter (fun cmd => cmd ≠ command)) ∧
      (m.config.AllowedCommands.count command ≤ 1 →
        command ∉ (m.RemoveAllowedCommand save command).1.config.AllowedCommands) ∧
      (m.config.AllowedCommands.Nodup →
        command ∉ (m.RemoveAllowedCommand save command).1.config.AllowedCommands ∧
        (m.RemoveAllowedCommand save command).1.config.AllowedCommands.Nodup ∧
        (m.AddAllowedCommand save command).1.config.AllowedCommands.Nodup) := by
  have h0 : (m.RemoveAllowedCommand save command).1.config
      = { m.config with AllowedCommands := m.config.AllowedCommands.erase command } := by
    simp only [Manager.RemoveAllowedCommand]
    rw [removeLoop_eq m.config.AllowedCommands command m.config.AllowedCommands [] 0 rfl rfl]
    rfl
  have hcount : m.config.AllowedCommands.count command ≤ 1 →
      command ∉ m.config.AllowedCommands.erase command := by
    intro hc
    rw [← List.count_eq_zero, List.count_erase_self]
    omega
  refine ⟨h0, ?_, ?_, ?_⟩
  · rw [h0]; exact filter_erase_ne command _
  · intro hc; rw [h0]; exact hcount hc
  · intro hnd
    refine ⟨?_, ?_, ?_⟩
    · rw [h0]
      exact hnd.not_mem_erase
    · rw [h0]; exact hnd.erase command
    · simp only [Manager.AddAllowedCommand]
      split_ifs with h
      · exact hnd
      · simp only [List.any_eq_true, beq_iff_eq, not_exists, not_and] at h
        apply List.Nodup.append hnd (List.nodup_singleton _)
        intro x hx hx'
        simp only [List.mem_singleton] at hx'
        exact h x hx hx'

/-- C22, witness: removing `go` from the default list `npm`, `go`, `docker`, `git`
leaves `npm`, `docker`, `git`. -/
theorem RemoveAllowedCommand_erase_witness :
    (NewManager.RemoveAllowedCommand (fun _ => none) "go".toList).1.config.AllowedCommands
        = ["npm".toList, "docker".toList, "git".toList] ∧
      "go".toList ∉
        (NewManager.RemoveAllowedCommand (fun _ => none) "go".toList).1.config.AllowedCommands :=
  ⟨(congrArg Config.AllowedCommands
      (RemoveAllowedCommand_erase NewManager (fun _ => none) "go".toList).1).trans (by decide),
    (RemoveAllowedCommand_erase NewManager (fun _ => none) "go".toList).2.2.1 (by decide)⟩

/-! ## The validation of the default configuration -/

theorem default_models_invalid :
    ∀ e ∈ mapEntries DefaultConfig.AgentPreferences,
      (decide (e.2.Model ≠ []) && !isValidModel e.2.Model) = true ∧
      e.2.Model ∈ ["llama-3.1-70b-versatile".toList, "qwen2.5-coder-32b-instruct".toList] := by
  decide

/-- C24: for every API key that is not empty and every order in which the loop
visits the agent preferences, `ValidateConfig` rejects the default configuration
with that key (the configuration of `NewManager` after `SetGroqAPIKey`): it returns
the error `invalid model '<model>' for agent <type>` for the first preference
visited.  The model is `llama-3.1-70b-versatile` or `qwen2.5-coder-32b-instruct`,
and `isValidModel` is false on both, as on the model of every default
preference. -/
theorem ValidateConfig_default (save : Config → Option Str) (apiKey : Str)
    (range : List (AgentType × AgentConfig)) (hkey : apiKey ≠ [])
    (hrange : range.Perm (mapEntries DefaultConfig.AgentPreferences)) :
    (∃ e, range.head? = some e ∧
      (NewManager.SetGroqAPIKey save apiKey).1.ValidateConfig range
        = some ("invalid model '".toList ++ e.2.Model ++ "' for agent ".toList ++ e.1) ∧
      e.2.Model ∈ ["llama-3.1-70b-versatile".toList, "qwen2.5-coder-32b-instruct".toList]) ∧
    isValidModel "llama-3.1-70b-versatile".toList = false ∧
    isValidModel "qwen2.5-coder-32b-instruct".toList = false ∧
    (NewManager.SetGroqAPIKey save apiKey).1.config = { DefaultConfig with GroqAPIKey := apiKey } := by
  refine ⟨?_, by decide, by decide, rfl⟩
  cases range with
  | nil =>
    have := hrange.length_eq
    simp [mapEntries, DefaultConfig] at this
  | cons e rest =>
    have he : e ∈ mapEntries DefaultConfig.AgentPreferences :=
      hrange.subset (List.mem_cons_self _ _)
    obtain ⟨h1, h2⟩ := default_models_invalid e he
    refine ⟨e, rfl, ?_, h2⟩
    have hm : DefaultConfig.DefaultModel ≠ [] := by decide
    simp only [Manager.ValidateConfig, Manager.SetGroqAPIKey, NewManager, hkey, if_false, hm,
      List.find?_cons, h1]

/-- C24, witness: the key `gsk_test`, with the preferences visited in the order of
`DefaultConfig`; the planner's model is reported. -/
theorem ValidateConfig_default_witness :
    (NewManager.SetGroqAPIKey (fun _ => none) "gsk_test".toList).1.ValidateConfig
        (mapEntries DefaultConfig.AgentPreferences)
      = some "invalid model 'llama-3.1-70b-versatile' for agent planner".toList :=
  (ValidateConfig_default (fun _ => none) "gsk_test".toList
    (mapEntries DefaultConfig.AgentPreferences) (by decide) (List.Perm.refl _)).1.elim
    (fun e h => by
      have he : e = (PlannerAgent, ⟨"llama-3.1-70b-versatile".toList, ⟨7, 1⟩, 4096⟩) := by
        have := h.1
        simp only [mapEntries, DefaultConfig, Option.getD_some, List.head?_cons,
          Option.some.injEq] at this
        exact this.symm
      rw [h.2.1, he]
      decide)


/-! ## The merge with the default configuration -/

theorem find_replace (k : AgentType) (v : AgentConfig) (t : AgentType) :
    ∀ entries : List (AgentType × AgentConfig),
      ((entries.map (fun e => if e.1 == k then (k, v) else e)).find? (fun e => e.1 == t)).map
          (fun e => e.2)
        = if t = k then (if entries.any (fun e => e.1 == k) then some v else none)
          else (entries.find? (fun e => e.1 == t)).map (fun e => e.2) := by
  intro entries
  induction entries with
  | nil => simp
  | cons e es ih =>
    by_cases hek : e.1 = k
    · have hb1 : (e.1 == k) = true := by simpa using hek
      by_cases htk : t = k
      · subst htk
        simp [hek]
      · have hb2 : (k == t) = false := by simpa using fun h : k = t => htk h.symm
        have hb3 : (e.1 == t) = false := by rw [hek]; exact hb2
        simp only [List.map_cons, List.find?_cons, hb1, hb2, hb3, if_neg htk, ↓reduceIte]
        rw [ih, if_neg htk]
    · have hb1 : (e.1 == k) = false := by simpa using hek
      by_cases htk : t = k
      · have hb3 : (e.1 == t) = false := by rw [htk]; exact hb1
        simp only [List.map_cons, List.find?_cons, hb1, hb3, if_pos htk, List.any_cons,
          Bool.false_or, Bool.false_eq_true, ↓reduceIte]
        rw [ih, if_pos htk]
      · by_cases het : e.1 = t
        · have hb3 : (e.1 == t) = true := by simpa using het
          simp only [List.map_cons, List.find?_cons, hb1, hb3, if_neg htk, Bool.false_eq_true,
            ↓reduceIte, Option.map_some']
        · have hb3 : (e.1 == t) = false := by simpa using het
          simp only [List.map_cons, List.find?_cons, hb1, hb3, if_neg htk, Bool.false_eq_true,
            ↓reduceIte]
          rw [ih, if_neg htk]

theorem mapLookup_mapSet (entries : List (AgentType × AgentConfig)) (k : AgentType)
    (v : AgentConfig) (t : AgentType) :
    mapLookup (some (mapSet entries k v)) t
      = if t = k then some v else mapLookup (some entries) t := by
  unfold mapSet
  by_cases hany : entries.any (fun e => e.1 == k) = true
  · simp only [hany, if_true, mapLookup, find_replace]
  · have hnone : entries.find? (fun e => e.1 == k) = none := by
      rw [List.find?_eq_none]
      intro e he
      simp only [List.any_eq_true, not_exists, not_and] at hany
      exact hany e he
    simp only [hany, mapLookup, List.find?_append]
    by_cases htk : t = k
    · subst htk
      simp [hnone]
    · have hkt : ¬ k = t := fun h => htk h.symm
      simp [htk, hkt]

theorem mergeLoop_keeps : ∀ (range prefs : List (AgentType × AgentConfig)) (t : AgentType)
    (v : AgentConfig), mapLookup (some prefs) t = some v →
    mapLookup (some (mergeLoop prefs range)) t = some v := by
  intro range
  induction range with
  | nil => intro prefs t v h; exact h
  | cons e rest ih =>
    intro prefs t v h
    obtain ⟨k, d⟩ := e
    simp only [mergeLoop]
    cases hk : mapLookup (some prefs) k with
    | some _ => exact ih prefs t v h
    | none =>
      apply ih
      rw [mapLookup_mapSet]
      have htk : t ≠ k := by
        intro e
        rw [e, hk] at h
        cases h
      simp [htk, h]

theorem mergeLoop_covers : ∀ (range prefs : List (AgentType × AgentConfig)),
    ∀ e ∈ range, mapLookup (some (mergeLoop prefs range)) e.1 ≠ none := by
  intro range
  induction range with
  | nil => intro prefs e he; cases he
  | cons e0 rest ih =>
    intro prefs e he
    obtain ⟨k, d⟩ := e0
    simp only [mergeLoop]
    rcases List.mem_cons.mp he with h | h
    · subst h
      cases hk : mapLookup (some prefs) k with
      | some v =>
        simp only
        rw [mergeLoop_keeps rest prefs k v hk]
        simp
      | none =>
        simp only
        rw [mergeLoop_keeps rest (mapSet prefs k d) k d (by rw [mapLookup_mapSet]; simp)]
        simp
    · cases mapLookup (some prefs) k with
      | some v => exact ih prefs e h
      | none => exact ih _ e h

theorem mapLookup_mem (entries : List (AgentType × AgentConfig)) (t : AgentType)
    (h : mapLookup (some entries) t ≠ none) : ∃ e ∈ entries, e.1 = t := by
  simp only [mapLookup] at h
  cases hf : entries.find? (fun e => e.1 == t) with
  | none => simp [hf] at h
  | some e =>
    refine ⟨e, List.mem_of_find?_eq_some hf, ?_⟩
    have := List.find?_some hf
    simpa using this

theorem mergeWithDefaults_eq (range : List (AgentType × AgentConfig)) (config : Config) :
    mergeWithDefaults range config
      = { GroqAPIKey := config.GroqAPIKey,
          DefaultModel :=
            if config.DefaultModel = [] then DefaultConfig.DefaultModel else config.DefaultModel,
          AllowedCommands :=
            if config.AllowedCommands = [] then DefaultConfig.AllowedCommands
            else config.AllowedCommands,
          RequireCommandPermission := config.RequireCommandPermission,
          RestrictToCurrentDir := config.RestrictToCurrentDir,
          AgentPreferences :=
            match config.AgentPreferences with
            | none => DefaultConfig.AgentPreferences
            | some prefs => some (mergeLoop prefs range),
          WorkingDirectory := config.WorkingDirectory,
          SessionPermissions :=
            match config.SessionPermissions with
            | none => some []
            | some s => some s } := by
  obtain ⟨key, model, cmds, rcp, rcd, prefs, wd, sp⟩ := config
  cases model <;> cases cmds <;> cases prefs <;> cases sp <;> rfl

/-- C28: for every configuration read from the file and every order in which the
loop visits the default agent preferences, the configuration after
`mergeWithDefaults` has a default model and a list of allowed commands that are not
empty, a map of session permissions that is not nil and an agent preference for
every agent type that has one in `DefaultConfig`; a default model and a list of
allowed commands that were not empty, every agent preference that existed, a map of
session permissions that was not nil, the API key and the other settings are as
they were. -/
theorem mergeWithDefaults_spec (range : List (AgentType × AgentConfig)) (config : Config)
    (hrange : range.Perm (mapEntries DefaultConfig.AgentPreferences)) :
    (mergeWithDefaults range config).DefaultModel ≠ [] ∧
    (mergeWithDefaults range config).AllowedCommands ≠ [] ∧
    (mergeWithDefaults range config).SessionPermissions ≠ none ∧
    (∀ t, mapLookup DefaultConfig.AgentPreferences t ≠ none →
      mapLookup (mergeWithDefaults range config).AgentPreferences t ≠ none) ∧
    (config.DefaultModel ≠ [] →
      (mergeWithDefaults range config).DefaultModel = config.DefaultModel) ∧
    (config.AllowedCommands ≠ [] →
      (mergeWithDefaults range config).AllowedCommands = config.AllowedCommands) ∧
    (∀ t v, mapLookup config.AgentPreferences t = some v →
      mapLookup (mergeWithDefaults range config).AgentPreferences t = some v) ∧
    (config.SessionPermissions ≠ none →
      (mergeWithDefaults range config).SessionPermissions = config.SessionPermissions) ∧
    (mergeWithDefaults range config).GroqAPIKey = config.GroqAPIKey ∧
    (mergeWithDefaults range config).RequireCommandPermission = config.RequireCommandPermission ∧
    (mergeWithDefaults range config).RestrictToCurrentDir = config.RestrictToCurrentDir ∧
    (mergeWithDefaults range config).WorkingDirectory = config.WorkingDirectory := by
  have hdm : DefaultConfig.DefaultModel ≠ [] := by decide
  have hdc : DefaultConfig.AllowedCommands ≠ [] := by decide
  rw [mergeWithDefaults_eq]
  refine ⟨?_, ?_, ?_, ?_, ?_, ?_, ?_, ?_, rfl, rfl, rfl, rfl⟩
  · show (if config.DefaultModel = [] then _ else _) ≠ []
    split_ifs with h
    · exact hdm
    · exact h
  · show (if config.AllowedCommands = [] then _ else _) ≠ []
    split_ifs with h
    · exact hdc
    · exact h
  · show (match config.SessionPermissions with | none => some [] | some s => some s) ≠ none
    cases config.SessionPermissions <;> simp
  · intro t ht
    show mapLookup (match config.AgentPreferences with
      | none => DefaultConfig.AgentPreferences
      | some prefs => some (mergeLoop prefs range)) t ≠ none
    cases config.AgentPreferences with
    | none => exact ht
    | some ps =>
      obtain ⟨e, he, het⟩ := mapLookup_mem _ t ht
      have he' : e ∈ range := hrange.symm.subset he
      have := mergeLoop_covers range ps e he'
      rw [het] at this
      exact this
  · intro h
    show (if config.DefaultModel = [] then _ else _) = _
    rw [if_neg h]
  · intro h
    show (if config.AllowedCommands = [] then _ else _) = _
    rw [if_neg h]
  · intro t v h
    show mapLookup (match config.AgentPreferences with
      | none => DefaultConfig.AgentPreferences
      | some prefs => some (mergeLoop prefs range)) t = some v
    cases hp : config.AgentPreferences with
    | none => rw [hp] at h; simp [mapLookup] at h
    | some ps => rw [hp] at h; exact mergeLoop_keeps range ps t v h
  · intro h
    show (match config.SessionPermissions with | none => some [] | some s => some s) = _
    cases hs : config.SessionPermissions with
    | none => exact absurd hs h
    | some s => rfl

/-- C28, witness: a configuration with only an API key and a planner preference gets
the default model, and keeps the key and the planner preference. -/
theorem mergeWithDefaults_spec_witness :
    (mergeWithDefaults (mapEntries DefaultConfig.AgentPreferences)
        { GroqAPIKey := "gsk_test".toList, DefaultModel := [], AllowedCommands := [],
          RequireCommandPermission := false, RestrictToCurrentDir := false,
          AgentPreferences := some [(PlannerAgent, ⟨"gemma2-9b-it".toList, ⟨1, 1⟩, 100⟩)],
          WorkingDirectory := [], SessionPermissions := none }).DefaultModel ≠ [] ∧
      mapLookup (mergeWithDefaults (mapEntries DefaultConfig.AgentPreferences)
        { GroqAPIKey := "gsk_test".toList, DefaultModel := [], AllowedCommands := [],
          RequireCommandPermission := false, RestrictToCurrentDir := false,
          AgentPreferences := some [(PlannerAgent, ⟨"gemma2-9b-it".toList, ⟨1, 1⟩, 100⟩)],
          WorkingDirectory := [], SessionPermissions := none }).AgentPreferences PlannerAgent
        = some ⟨"gemma2-9b-it".toList, ⟨1, 1⟩, 100⟩ :=
  ⟨(mergeWithDefaults_spec (mapEntries DefaultConfig.AgentPreferences) _ (List.Perm.refl _)).1,
    (mergeWithDefaults_spec (mapEntries DefaultConfig.AgentPreferences) _
      (List.Perm.refl _)).2.2.2.2.2.2.1 PlannerAgent _ (by decide)⟩


/-! ## The lookup of an agent by its name -/

theorem Contains_iff (s substr : Str) : Contains s substr = true ↔ substr <:+: s := by
  simp [Contains]

theorem HasPrefix_within (s pre : Str) (h : HasPrefix s pre = true) : pre <:+: s := by
  simp only [HasPrefix, List.isPrefixOf_iff_prefix] at h
  exact h.isInfix

/-- What `GetAgentByName` returns, by the outcome of its two loops. -/
theorem GetAgentByName_cases (r : Registry) (table : Char → Char)
    (range1 range2 : List (AgentType × Agent)) (name : Str) :
    (∃ e ∈ range1, ToLowerText table e.2.Name = ToLowerText table (TrimSpace name) ∧
        r.GetAgentByName table range1 range2 name = .ok e.2) ∨
      ((∀ e ∈ range1, ToLowerText table e.2.Name ≠ ToLowerText table (TrimSpace name)) ∧
        ∃ e ∈ range2, ToLowerText table (TrimSpace name) <:+: ToLowerText table e.2.Name ∧
          r.GetAgentByName table range1 range2 name = .ok e.2) ∨
      ((∀ e ∈ range1, ToLowerText table e.2.Name ≠ ToLowerText table (TrimSpace name)) ∧
        (∀ e ∈ range2, ¬ ToLowerText table (TrimSpace name) <:+: ToLowerText table e.2.Name) ∧
        r.GetAgentByName table range1 range2 name
          = .error ("no agent found matching '".toList ++ ToLowerText table (TrimSpace name)
              ++ "'".toList)) := by
  simp only [Registry.GetAgentByName]
  cases h1 : range1.find? (fun e => ToLowerText table e.2.Name == ToLowerText table (TrimSpace name)) with
  | some e =>
    refine Or.inl ⟨e, List.mem_of_find?_eq_some h1, ?_, rfl⟩
    simpa using List.find?_some h1
  | none =>
    refine Or.inr ?_
    have hn1 : ∀ e ∈ range1, ToLowerText table e.2.Name ≠ ToLowerText table (TrimSpace name) := by
      intro e he
      have := List.find?_eq_none.mp h1 e he
      simpa using this
    cases h2 : range2.find? (fun e =>
        ( HasPrefix (ToLowerText table e.2.Name) (ToLowerText table (TrimSpace name)))
          || Contains (ToLowerText table e.2.Name) (ToLowerText table (TrimSpace name))) with
    | some e =>
      refine Or.inl ⟨hn1, e, List.mem_of_find?_eq_some h2, ?_, rfl⟩
      have := List.find?_some h2
      simp only [Bool.or_eq_true] at this
      rcases this with h | h
      · exact HasPrefix_within _ _ h
      · exact (Contains_iff _ _).mp h
    | none =>
      refine Or.inr ⟨hn1, ?_, rfl⟩
      intro e he hin
      have := List.find?_eq_none.mp h2 e he
      simp only [Bool.or_eq_true, not_or] at this
      exact this.2 ((Contains_iff _ _).mpr hin)

/-- C27: whatever the order in which the two loops visit the agents, `GetAgentByName`
returns an error if and only if the lower-cased name of no registered agent contains
the trimmed, lower-cased query; the error is `no agent found matching '<query>'`
with that query.  A query that is empty or holds white space only never fails on a
registry that is not empty. -/
theorem GetAgentByName_error_iff (r : Registry) (table : Char → Char)
    (range1 range2 : List (AgentType × Agent)) (name : Str)
    (h1 : range1.Perm r.agents) (h2 : range2.Perm r.agents) :
    ((∃ err, r.GetAgentByName table range1 range2 name = .error err) ↔
      ∀ e ∈ r.agents, ¬ ToLowerText table (TrimSpace name) <:+: ToLowerText table e.2.Name) ∧
    (∀ err, r.GetAgentByName table range1 range2 name = .error err →
      err = "no agent found matching '".toList ++ ToLowerText table (TrimSpace name)
        ++ "'".toList) ∧
    (r.agents ≠ [] → (∀ c ∈ name, isSpace c = true) →
      ∃ e ∈ r.agents, r.GetAgentByName table range1 range2 name = .ok e.2) := by
  have hcases := GetAgentByName_cases r table range1 range2 name
  refine ⟨⟨?_, ?_⟩, ?_, ?_⟩
  · rintro ⟨err, herr⟩ e he
    rcases hcases with ⟨e', _, _, h⟩ | ⟨_, e', _, _, h⟩ | ⟨_, hn, _⟩
    · rw [h] at herr; cases herr
    · rw [h] at herr; cases herr
    · exact hn e (h2.symm.subset he)
  · intro hall
    rcases hcases with ⟨e', he', heq, _⟩ | ⟨_, e', he', hin, _⟩ | ⟨_, _, h⟩
    · exact absurd (heq ▸ List.infix_refl _) (hall e' (h1.subset he'))
    · exact absurd hin (hall e' (h2.subset he'))
    · exact ⟨_, h⟩
  · intro err herr
    rcases hcases with ⟨e', _, _, h⟩ | ⟨_, e', _, _, h⟩ | ⟨_, _, h⟩
    · rw [h] at herr; cases herr
    · rw [h] at herr; cases herr
    · rw [h] at herr; cases herr; rfl
  · intro hne hsp
    have ht : TrimSpace name = [] := by
      have := TrimSpace_append_spaces name [] hsp
      simpa [TrimSpace] using this
    rcases hcases with ⟨e', he', _, h⟩ | ⟨_, e', he', _, h⟩ | ⟨_, hn, _⟩
    · exact ⟨e', h1.subset he', h⟩
    · exact ⟨e', h2.subset he', h⟩
    · exfalso
      cases hr : range2 with
      | nil =>
        rw [hr] at h2
        exact hne (List.Perm.nil_eq h2).symm
      | cons e rest =>
        apply hn e (by rw [hr]; exact List.mem_cons_self _ _)
        rw [ht]
        simp [ToLowerText]

set_option maxRecDepth 100000 in
/-- C27, witness: on the registry of `NewRegistry` the query `zzz`, which no name
contains, fails. -/
theorem GetAgentByName_error_iff_witness :
    ∃ err, (NewRegistry emptyPrompts offlineClient DefaultConfig).GetAgentByName (fun c => c)
      (NewRegistry emptyPrompts offlineClient DefaultConfig).agents
      (NewRegistry emptyPrompts offlineClient DefaultConfig).agents "zzz".toList = .error err :=
  (GetAgentByName_error_iff (NewRegistry emptyPrompts offlineClient DefaultConfig) (fun c => c)
    _ _ "zzz".toList (List.Perm.refl _) (List.Perm.refl _)).1.mpr (by decide)


theorem asciiToLower_letter (c : Char)
    (h : 97 ≤ (asciiToLower c).toNat ∧ (asciiToLower c).toNat ≤ 122) :
    c.toNat < 128 ∧ isSpace c = false := by
  unfold asciiToLower at h
  by_cases hc : 'A' ≤ c ∧ c ≤ 'Z'
  · have hb : 65 ≤ c.toNat ∧ c.toNat ≤ 90 := ⟨hc.1, hc.2⟩
    refine ⟨by omega, ?_⟩
    simp only [isSpace, Bool.or_eq_false_iff, Bool.and_eq_false_iff, decide_eq_false_iff_not,
      beq_eq_false_iff_ne, ne_eq]
    omega
  · rw [if_neg hc] at h
    refine ⟨by omega, ?_⟩
    simp only [isSpace, Bool.or_eq_false_iff, Bool.and_eq_false_iff, decide_eq_false_iff_not,
      beq_eq_false_iff_ne, ne_eq]
    omega

theorem ToLowerText_ascii (table : Char → Char) (s : Str) (h : ∀ c ∈ s, c.toNat < 128) :
    ToLowerText table s = s.map asciiToLower := by
  unfold ToLowerText
  apply List.map_congr_left
  intro c hc
  simp [unicodeToLower, h c hc]

/-- The names of the agents of `NewRegistry`: letters of ASCII. -/
theorem NewRegistry_names (prompts : SystemPrompts) (client : GroqClient) (config : Config) :
    ∀ e ∈ (NewRegistry prompts client config).agents,
      e.2.Name ∈ ["Planner".toList, "Frontend".toList, "Backend".toList, "Security".toList] := by
  rw [NewRegistry_agents]
  intro e he
  simp only [List.mem_cons, List.mem_singleton, List.not_mem_nil, or_false] at he
  rcases he with h | h | h | h <;> subst h
  · exact List.mem_cons_self _ _
  · exact List.mem_cons_of_mem _ (List.mem_cons_self _ _)
  · exact List.mem_cons_of_mem _ (List.mem_cons_of_mem _ (List.mem_cons_self _ _))
  · exact List.mem_cons_of_mem _ (List.mem_cons_of_mem _ (List.mem_cons_of_mem _
      (List.mem_cons_self _ _)))

theorem names_letters :
    ∀ name ∈ ["Planner".toList, "Frontend".toList, "Backend".toList, "Security".toList],
      name ≠ [] ∧ (∀ c ∈ name, c.toNat < 128) ∧
      ∀ c ∈ name.map asciiToLower, 97 ≤ c.toNat ∧ c.toNat ≤ 122 := by
  decide

/-- Two agents of `NewRegistry` whose names are equal up to the case of the letters
are the same agent. -/
theorem NewRegistry_names_distinct (prompts : SystemPrompts) (client : GroqClient)
    (config : Config) :
    ∀ e ∈ (NewRegistry prompts client config).agents,
    ∀ e' ∈ (NewRegistry prompts client config).agents,
      e.2.Name.map asciiToLower = e'.2.Name.map asciiToLower → e = e' := by
  rw [NewRegistry_agents]
  intro e he e' he' h
  simp only [List.mem_cons, List.mem_singleton, List.not_mem_nil, or_false] at he he'
  rcases he with h1 | h1 | h1 | h1 <;> rcases he' with h2 | h2 | h2 | h2 <;> subst h1 <;>
    subst h2 <;> first
      | rfl
      | (simp only [NewPlannerAgent, NewFrontendAgent, NewBackendAgent, NewSecurityAgent,
          NewBaseAgent, BaseAgent.toAgent, BaseAgent.Name] at h
         exact absurd h (by decide))

/-- C21: on the registry that `NewRegistry` builds, whatever the order in which the
loops visit the agents, for every registered agent and every query made of white
space, then the agent's name with any of its letters in upper or lower case, then
white space, `GetAgentByName` returns that agent and no error. -/
theorem GetAgentByName_name (prompts : SystemPrompts) (client : GroqClient) (config : Config)
    (table : Char → Char) (range1 range2 : List (AgentType × Agent))
    (e : AgentType × Agent) (l s r : Str)
    (h1 : range1.Perm (NewRegistry prompts client config).agents)
    (he : e ∈ (NewRegistry prompts client config).agents)
    (hl : ∀ c ∈ l, isSpace c = true) (hr : ∀ c ∈ r, isSpace c = true)
    (hs : s.map asciiToLower = e.2.Name.map asciiToLower) :
    (NewRegistry prompts client config).GetAgentByName table range1 range2 (l ++ s ++ r)
      = .ok e.2 := by
  obtain ⟨hne, hascii, hlet⟩ := names_letters _ (NewRegistry_names prompts client config e he)
  have hsc : ∀ c ∈ s, c.toNat < 128 ∧ isSpace c = false := by
    intro c hc
    apply asciiToLower_letter
    apply hlet
    rw [← hs]
    exact List.mem_map_of_mem _ hc
  have hsne : s ≠ [] := by
    intro h0
    rw [h0] at hs
    exact hne (List.map_eq_nil_iff.mp hs.symm)
  have htrim : TrimSpace (l ++ s ++ r) = s :=
    TrimSpace_eq l s r hsne hl hr (hsc _ (List.getLast_mem hsne)).2
      (hsc _ (List.head_mem hsne)).2
  have hlow : ToLowerText table s = ToLowerText table e.2.Name := by
    rw [ToLowerText_ascii table s (fun c hc => (hsc c hc).1),
      ToLowerText_ascii table e.2.Name hascii, hs]
  rcases GetAgentByName_cases (NewRegistry prompts client config) table range1 range2
    (l ++ s ++ r) with ⟨e', he', heq, h⟩ | ⟨hn, _⟩ | ⟨hn, _, _⟩
  · rw [h]
    have he'' := h1.subset he'
    have hascii' := (names_letters _ (NewRegistry_names prompts client config e' he'')).2.1
    rw [htrim, hlow, ToLowerText_ascii table e'.2.Name hascii',
      ToLowerText_ascii table e.2.Name hascii] at heq
    rw [NewRegistry_names_distinct prompts client config e' he'' e he heq]
  · exact absurd (by rw [htrim, hlow]) (hn e (h1.symm.subset he))
  · exact absurd (by rw [htrim, hlow]) (hn e (h1.symm.subset he))

/-- C21, witness: the query ` BACKEND ` returns the backend agent. -/
theorem GetAgentByName_name_witness :
    (NewRegistry emptyPrompts offlineClient DefaultConfig).GetAgentByName (fun c => c)
        (NewRegistry emptyPrompts offlineClient DefaultConfig).agents
        (NewRegistry emptyPrompts offlineClient DefaultConfig).agents
        (" ".toList ++ "BACKEND".toList ++ " ".toList)
      = .ok (NewBackendAgent emptyPrompts offlineClient
          (getAgentConfig DefaultConfig BackendAgent)) :=
  GetAgentByName_name emptyPrompts offlineClient DefaultConfig (fun c => c) _ _
    (BackendAgent, NewBackendAgent emptyPrompts offlineClient
      (getAgentConfig DefaultConfig BackendAgent))
    " ".toList "BACKEND".toList " ".toList (List.Perm.refl _)
    (by rw [NewRegistry_agents]; simp) (by decide) (by decide) (by decide)


/-! ## What a run shows: stages, warnings and contexts -/

theorem filterMap_writeLoop {α : Type} (f : Event → Option α)
    (hw : ∀ a b, f (Event.WriteFile a b) = none) (hp : ∀ t, f (Event.Printf t) = none)
    (fw : FileWriter) : ∀ (blocks : List (Str × Str)) (trace : List Event),
    (writeLoop fw trace blocks).filterMap f = trace.filterMap f := by
  intro blocks
  induction blocks with
  | nil => intro trace; rfl
  | cons b bs ih =>
    intro trace
    obtain ⟨filename, code⟩ := b
    simp only [writeLoop]
    split_ifs with h
    · exact ih trace
    · cases fw.WriteFile trace filename code with
      | none => simp [ih, List.filterMap_append, hw]
      | some err => simp [ih, List.filterMap_append, hw, hp]

theorem filterMap_writeGeneratedFiles {α : Type} (f : Event → Option α)
    (hw : ∀ a b, f (Event.WriteFile a b) = none) (hp : ∀ t, f (Event.Printf t) = none)
    (hx : ∀ c, f (Event.ExtractCodeBlocks c) = none)
    (o : Orchestrator) (trace : List Event) (content : Str) :
    (writeGeneratedFiles o trace content).filterMap f = trace.filterMap f := by
  simp [writeGeneratedFiles, filterMap_writeLoop f hw hp, List.filterMap_append, hx]

theorem progressCalls_taskStep (o : Orchestrator) (tasks : List Task) (totalStages : Nat)
    (s : LoopState) (i : Nat) (task : Task) :
    progressCalls (taskStep o tasks totalStages s i task).trace
      = progressCalls s.trace ++ [(i + 3, totalStages)] := by
  unfold taskStep progressCalls
  cases o.registry.GetAgent task.AgentType with
  | error err => simp [List.filterMap_append]
  | ok agent =>
    simp only
    cases agent.Process (s.trace ++ [Event.DisplayProgress (stageName task) (i + 3) totalStages])
        (buildContext (tasks.take i)) task.Description with
    | error err => simp [List.filterMap_append]
    | ok response =>
      simp only [List.filterMap_append]
      rw [filterMap_writeGeneratedFiles _ (fun _ _ => rfl) (fun _ => rfl) (fun _ => rfl)]
      simp [List.filterMap_append]

theorem progressCalls_taskLoop (o : Orchestrator) (tasks : List Task) (totalStages : Nat) :
    ∀ (rest : List Task) (s : LoopState) (i : Nat),
      progressCalls (taskLoop o tasks totalStages s i rest).trace
        = progressCalls s.trace ++ (List.range' i rest.length).map (fun j => (j + 3, totalStages)) := by
  intro rest
  induction rest with
  | nil => intro s i; simp [taskLoop]
  | cons t ts ih =>
    intro s i
    simp only [taskLoop, ih, progressCalls_taskStep, List.length_cons, List.range'_succ,
      List.map_cons, List.append_assoc, List.singleton_append]

theorem warnings_taskStep (o : Orchestrator) (tasks : List Task) (totalStages : Nat)
    (s : LoopState) (i : Nat) (task : Task) (agent : Agent)
    (h : o.registry.GetAgent task.AgentType = .ok agent) :
    warnings (taskStep o tasks totalStages s i task).trace = warnings s.trace := by
  unfold taskStep warnings
  rw [h]
  simp only
  cases agent.Process (s.trace ++ [Event.DisplayProgress (stageName task) (i + 3) totalStages])
      (buildContext (tasks.take i)) task.Description with
  | error err => simp [List.filterMap_append]
  | ok response =>
    simp only [List.filterMap_append]
    rw [filterMap_writeGeneratedFiles _ (fun _ _ => rfl) (fun _ => rfl) (fun _ => rfl)]
    simp [List.filterMap_append]

theorem warnings_taskLoop (o : Orchestrator) (tasks : List Task) (totalStages : Nat) :
    ∀ (rest : List Task) (s : LoopState) (i : Nat),
      (∀ t ∈ rest, ∃ a, o.registry.GetAgent t.AgentType = .ok a) →
      warnings (taskLoop o tasks totalStages s i rest).trace = warnings s.trace := by
  intro rest
  induction rest with
  | nil => intro s i _; rfl
  | cons t ts ih =>
    intro s i h
    obtain ⟨a, ha⟩ := h t (List.mem_cons_self _ _)
    simp only [taskLoop]
    rw [ih _ _ (fun t' ht' => h t' (List.mem_cons_of_mem _ ht')),
      warnings_taskStep o tasks totalStages s i t a ha]

/-- The run of `ExecuteBuild` when the plan has tasks. -/
theorem ExecuteBuild_of_tasks (o : Orchestrator) (description : Str)
    (hne : (ExecuteBuild o description).tasks ≠ []) :
    ∃ planner r, o.registry.GetAgent PlannerAgent = .ok planner ∧
      planner.Process (planningTrace description) [] (planPrompt description) = .ok r ∧
      parsePlan r.Content ≠ [] ∧
      (ExecuteBuild o description).tasks = parsePlan r.Content ∧
      (ExecuteBuild o description).err = none ∧
      (ExecuteBuild o description).trace
        = (taskLoop o (parsePlan r.Content) ((parsePlan r.Content).length + 2)
            ⟨plannedTrace description, []⟩ 0 (parsePlan r.Content)).trace
          ++ [Event.DisplayFinalResults ((parsePlan r.Content).length + 2)] := by
  simp only [ExecuteBuild] at hne ⊢
  cases h1 : o.fileWriter.CreateProjectStructure (startTrace description) with
  | some err => simp [h1] at hne
  | none =>
    simp only [h1] at hne ⊢
    cases h2 : o.registry.GetAgent PlannerAgent with
    | error err => simp [h2] at hne
    | ok planner =>
      simp only [h2] at hne ⊢
      cases h3 : planner.Process (planningTrace description) [] (planPrompt description) with
      | error err => simp [h3] at hne
      | ok r =>
        simp only [h3] at hne ⊢
        by_cases h : (parsePlan r.Content).length = 0
        · simp only [h, if_true] at hne
          exact absurd (List.length_eq_zero.mp h) hne
        · simp only [h, if_false]
          refine ⟨planner, r, rfl, h3, fun e => h (by rw [e]; rfl), ?_, ?_, ?_⟩ <;>
            first | rfl | trivial

theorem progressBar_filled (fl : Float64) (current total : Nat) (ht : 0 < total)
    (hc : current ≤ total) :
    ∃ k : Nat, k ≤ 20 ∧
      progressBar fl current total = some (List.replicate k '█' ++ List.replicate (20 - k) '░') := by
  have h0 : fl.round 0 = 0 := by simpa using fl.exact 0 (by norm_num)
  have h1 : fl.round 1 = 1 := by simpa using fl.exact 1 (by norm_num)
  have h100 : fl.round 100 = 100 := by simpa using fl.exact 100 (by norm_num)
  have h20 : fl.round 20 = 20 := by simpa using fl.exact 20 (by norm_num)
  have ht' : (0 : ℚ) < total := by exact_mod_cast ht
  have hx0 : (0 : ℚ) ≤ (current : ℚ) / total := by positivity
  have hx1 : (current : ℚ) / total ≤ 1 := by
    rw [div_le_one ht']
    exact_mod_cast hc
  have ha0 : 0 ≤ fl.round ((current : ℚ) / total) := by
    have := fl.mono _ _ hx0
    rwa [h0] at this
  have ha1 : fl.round ((current : ℚ) / total) ≤ 1 := by
    have := fl.mono _ _ hx1
    rwa [h1] at this
  have hp0 : 0 ≤ fl.round (fl.round ((current : ℚ) / total) * 100) := by
    have := fl.mono 0 (fl.round ((current : ℚ) / total) * 100) (by positivity)
    rwa [h0] at this
  have hp1 : fl.round (fl.round ((current : ℚ) / total) * 100) ≤ 100 := by
    have := fl.mono (fl.round ((current : ℚ) / total) * 100) 100 (by linarith)
    rwa [h100] at this
  have hz0 : 0 ≤ fl.round (fl.round (fl.round ((current : ℚ) / total) * 100) / 5) := by
    have := fl.mono 0 (fl.round (fl.round ((current : ℚ) / total) * 100) / 5) (by positivity)
    rwa [h0] at this
  have hz1 : fl.round (fl.round (fl.round ((current : ℚ) / total) * 100) / 5) ≤ 20 := by
    have := fl.mono (fl.round (fl.round ((current : ℚ) / total) * 100) / 5) 20 (by linarith)
    rwa [h20] at this
  have hf0 : 0 ≤ ⌊fl.round (fl.round (fl.round ((current : ℚ) / total) * 100) / 5)⌋ :=
    Int.floor_nonneg.mpr hz0
  have hf1 : ⌊fl.round (fl.round (fl.round ((current : ℚ) / total) * 100) / 5)⌋ ≤ 20 := by
    have := (Int.floor_le _).trans hz1
    exact_mod_cast this
  refine ⟨⌊fl.round (fl.round (fl.round ((current : ℚ) / total) * 100) / 5)⌋.toNat,
    by omega, ?_⟩
  have e2 : (20 - ⌊fl.round (fl.round (fl.round ((current : ℚ) / total) * 100) / 5)⌋).toNat
      = 20 - ⌊fl.round (fl.round (fl.round ((current : ℚ) / total) * 100) / 5)⌋.toNat := by
    omega
  simp only [progressBar, if_neg (Nat.ne_of_gt ht), truncate, Repeat, if_pos hz0,
    if_neg (not_lt.mpr hf0),
    if_neg (not_lt.mpr (show (0 : Int) ≤ 20 - ⌊fl.round (fl.round (fl.round
      ((current : ℚ) / total) * 100) / 5)⌋ by omega)), e2]

/-- C29: in a run of `ExecuteBuild` whose plan has `n` tasks, `n ≥ 1`, the calls of
`DisplayProgress` are the two of the preparation, with stages 0 and 1 of 10, and one
for every task, whether it is done, fails or is skipped: the task at index `i` is
shown as stage `i + 3` of `n + 2`.  So `3 ≤ i + 3 ≤ n + 2`, the last task is stage
`n + 2`, and the run ends with `DisplayFinalResults` for `n + 2` stages.  For every
one of these calls and every rounding of `float64`, the progress bar has `k ≤ 20`
filled cells and `20 - k` empty ones: `strings.Repeat` gets no negative count. -/
theorem ExecuteBuild_stages (o : Orchestrator) (description : Str)
    (hne : (ExecuteBuild o description).tasks ≠ []) :
    progressCalls (ExecuteBuild o description).trace
        = (0, 10) :: (1, 10) :: (List.range (ExecuteBuild o description).tasks.length).map
            (fun i => (i + 3, (ExecuteBuild o description).tasks.length + 2)) ∧
      (ExecuteBuild o description).trace.getLast?
        = some (Event.DisplayFinalResults ((ExecuteBuild o description).tasks.length + 2)) ∧
      (∀ i < (ExecuteBuild o description).tasks.length,
        3 ≤ i + 3 ∧ i + 3 ≤ (ExecuteBuild o description).tasks.length + 2) ∧
      ((ExecuteBuild o description).tasks.length - 1) + 3
        = (ExecuteBuild o description).tasks.length + 2 ∧
      (∀ (fl : Float64), ∀ p ∈ progressCalls (ExecuteBuild o description).trace,
        ∃ k : Nat, k ≤ 20 ∧
          progressBar fl p.1 p.2
            = some (List.replicate k '█' ++ List.replicate (20 - k) '░')) := by
  obtain ⟨planner, r, _, _, hne', htasks, _, htrace⟩ := ExecuteBuild_of_tasks o description hne
  have hlen : 0 < (ExecuteBuild o description).tasks.length := List.length_pos.mpr hne
  have hcalls : progressCalls (ExecuteBuild o description).trace
      = (0, 10) :: (1, 10) :: (List.range (ExecuteBuild o description).tasks.length).map
          (fun i => (i + 3, (ExecuteBuild o description).tasks.length + 2)) := by
    rw [htrace, htasks]
    have hfin : ∀ (t : List Event) (n : Nat),
        progressCalls (t ++ [Event.DisplayFinalResults n]) = progressCalls t := by
      intro t n; simp [progressCalls, List.filterMap_append]
    rw [hfin, progressCalls_taskLoop, List.range_eq_range']
    rfl
  refine ⟨hcalls, ?_, ?_, ?_, ?_⟩
  · rw [htrace, htasks]; simp
  · intro i hi; omega
  · omega
  · intro fl p hp
    rw [hcalls] at hp
    simp only [List.mem_cons, List.mem_map, List.mem_range] at hp
    rcases hp with h | h | ⟨i, hi, h⟩
    · subst h; exact progressBar_filled fl 0 10 (by norm_num) (by norm_num)
    · subst h; exact progressBar_filled fl 1 10 (by norm_num) (by norm_num)
    · subst h; exact progressBar_filled fl _ _ (by omega) (by omega)

set_option maxRecDepth 100000 in
/-- C29, witness: scenario A with a backend agent that fails has two tasks; the
stages shown are 0 and 1 of 10, then 3 and 4 of 4. -/
theorem ExecuteBuild_stages_witness :
    progressCalls (ExecuteBuild scenarioFailure "a todo app".toList).trace
      = [(0, 10), (1, 10), (3, 4), (4, 4)] :=
  (ExecuteBuild_stages scenarioFailure "a todo app".toList (by decide)).1.trans (by decide)

theorem parsePlan_roles (plan : Str) :
    ∀ t ∈ parsePlan plan,
      t.AgentType ∈ [BackendAgent, FrontendAgent, SecurityAgent, PlannerAgent] := by
  have key : ∀ (lines : List Str) (st : ParseState),
      (∀ t ∈ st.tasks, t.AgentType ∈ [BackendAgent, FrontendAgent, SecurityAgent, PlannerAgent]) →
      ∀ t ∈ (lines.foldl parseLine st).tasks,
        t.AgentType ∈ [BackendAgent, FrontendAgent, SecurityAgent, PlannerAgent] := by
    intro lines
    induction lines with
    | nil => intro st h; exact h
    | cons l ls ih =>
      intro st h
      apply ih
      rcases parseLine_cases st l with e | ⟨role, desc, hrole, e⟩
      · rw [e]; exact h
      · rw [e]
        intro t ht
        rcases List.mem_append.mp ht with ht | ht
        · exact h t ht
        · simp only [List.mem_singleton] at ht
          subst ht
          exact hrole
  exact key _ _ (by simp)

theorem NewRegistry_resolves (prompts : SystemPrompts) (client : GroqClient) (config : Config) :
    ∀ role ∈ [BackendAgent, FrontendAgent, SecurityAgent, PlannerAgent],
      ∃ a, (NewRegistry prompts client config).GetAgent role = .ok a := by
  intro role h
  simp only [List.mem_cons, List.mem_singleton, List.not_mem_nil, or_false] at h
  rcases h with h | h | h | h <;> subst h <;> exact ⟨_, rfl⟩

theorem warnings_append (xs ys : List Event) : warnings (xs ++ ys) = warnings xs ++ warnings ys := by
  simp [warnings, List.filterMap_append]

theorem warnings_plannedTrace (description : Str) : warnings (plannedTrace description) = [] := by
  simp [warnings, plannedTrace, planningTrace, startTrace]

/-- C25: for every plan text, every task that `parsePlan` returns has the role
backend, frontend, security or planner, and `GetAgent` resolves each of these roles
on a registry built by `NewRegistry`; so a run of `ExecuteBuild` with such a
registry shows no warning, which is what the branch that skips a task does, and
when the plan has tasks it invokes the planner and then one agent for every
task. -/
theorem parsePlan_roles_resolve (prompts : SystemPrompts) (client : GroqClient)
    (config : Config) (fw : FileWriter) (plan description : Str) :
    (∀ t ∈ parsePlan plan,
      t.AgentType ∈ [BackendAgent, FrontendAgent, SecurityAgent, PlannerAgent] ∧
      ∃ a, (NewRegistry prompts client config).GetAgent t.AgentType = .ok a) ∧
    warnings (ExecuteBuild ⟨NewRegistry prompts client config, fw⟩
      description).trace = [] ∧
    ((ExecuteBuild ⟨NewRegistry prompts client config, fw⟩
        description).tasks ≠ [] →
      (invocations (ExecuteBuild ⟨NewRegistry prompts client config, fw⟩ description).trace).length
        = 1 + (ExecuteBuild ⟨NewRegistry prompts client config, fw⟩
            description).tasks.length) := by
  have hres : ∀ plan' : Str, ∀ t ∈ parsePlan plan',
      ∃ a, (NewRegistry prompts client config).GetAgent t.AgentType = .ok a :=
    fun plan' t ht => NewRegistry_resolves prompts client config _ (parsePlan_roles plan' t ht)
  refine ⟨fun t ht => ⟨parsePlan_roles plan t ht, hres plan t ht⟩, ?_, ?_⟩
  · simp only [ExecuteBuild]
    cases fw.CreateProjectStructure (startTrace description) with
    | some err => simp [warnings, startTrace]
    | none =>
      simp only
      cases (NewRegistry prompts client config).GetAgent PlannerAgent with
      | error err => simp [warnings, planningTrace, startTrace]
      | ok planner =>
        simp only
        cases planner.Process (planningTrace description) [] (planPrompt description) with
        | error err => simp [warnings, planningTrace, startTrace]
        | ok r =>
          simp only
          by_cases h : (parsePlan r.Content).length = 0
          · simp only [h, if_true]
            exact warnings_plannedTrace description
          · simp only [h, if_false]
            rw [warnings_append, warnings_taskLoop _ _ _ _ _ _ (hres r.Content)]
            simp [warnings, plannedTrace, planningTrace, startTrace]
  · intro hne
    obtain ⟨planner, r, _, _, _, htasks, _, htrace⟩ := ExecuteBuild_of_tasks _ description hne
    rw [htrace, htasks, invocations_append, invocations_taskLoop,
      taskInvocations_resolved _ _ _ _ (hres r.Content)]
    simp [invocations_plannedTrace, invocations]
    omega

/-! ## The contexts of the tasks -/

theorem buildContext_take_pending (tasks : List Task) (i : Nat)
    (hpend : ∀ t ∈ tasks, t.Status = "pending".toList ∧ t.Result = none)
    (hi : i < tasks.length) :
    buildContext (tasks.take i)
      = if i = 0 then [] else utf8 "Previous task results:".toList := by
  unfold buildContext
  by_cases h0 : i = 0
  · subst h0; simp
  · have hlen : (tasks.take i).length ≠ 0 := by
      rw [List.length_take]; omega
    rw [if_neg hlen, if_neg h0, contextLoop_none]
    · rfl
    · intro t ht hc
      have := (hpend t (List.mem_of_mem_take ht)).2
      exact hc.1 this

theorem taskInvocations_pending (o : Orchestrator) (tasks : List Task)
    (hpend : ∀ t ∈ tasks, t.Status = "pending".toList ∧ t.Result = none) :
    ∀ (rest : List Task) (i : Nat), i + rest.length ≤ tasks.length →
      taskInvocations o tasks i rest
        = (rest.enumFrom i).filterMap (fun p =>
            match o.registry.GetAgent p.2.AgentType with
            | .ok _ => some (p.2.AgentType,
                (if p.1 = 0 then [] else utf8 "Previous task results:".toList), p.2.Description)
            | .error _ => none) := by
  intro rest
  induction rest with
  | nil => intro i _; rfl
  | cons t ts ih =>
    intro i hi
    simp only [List.length_cons] at hi
    simp only [taskInvocations, List.enumFrom_cons, List.filterMap_cons]
    rw [ih (i + 1) (by omega), buildContext_take_pending tasks i hpend (by omega)]
    cases o.registry.GetAgent t.AgentType <;> rfl

/-- C23: in a run of `ExecuteBuild` whose plan has tasks, whatever the agents
answer, the agent invocations are the one of the planner and then, for every task
whose role resolves, in order, one with the task's role and description and with
the context that is empty for the task at index 0 and exactly
`Previous task results:` for every task at index 1 and above; the tasks of the list
that is passed to `buildContext` stay pending and without result. -/
theorem ExecuteBuild_contexts (o : Orchestrator) (description : Str)
    (hne : (ExecuteBuild o description).tasks ≠ []) :
    invocations (ExecuteBuild o description).trace
        = (PlannerAgent, [], planPrompt description) ::
          (ExecuteBuild o description).tasks.enum.filterMap (fun p =>
            match o.registry.GetAgent p.2.AgentType with
            | .ok _ => some (p.2.AgentType,
                (if p.1 = 0 then [] else utf8 "Previous task results:".toList), p.2.Description)
            | .error _ => none) ∧
      (∀ t ∈ (ExecuteBuild o description).tasks,
        t.Status = "pending".toList ∧ t.Result = none) ∧
      (∀ i < (ExecuteBuild o description).tasks.length,
        buildContext ((ExecuteBuild o description).tasks.take i)
          = if i = 0 then [] else utf8 "Previous task results:".toList) := by
  obtain ⟨planner, r, _, _, _, htasks, _, htrace⟩ := ExecuteBuild_of_tasks o description hne
  have hpend := parsePlan_pending r.Content
  refine ⟨?_, ?_, ?_⟩
  · rw [htrace, htasks, invocations_append, invocations_taskLoop,
      taskInvocations_pending o _ hpend _ 0 (by omega), invocations_plannedTrace]
    simp [invocations, List.enum]
  · rw [htasks]; exact hpend
  · intro i hi
    rw [htasks] at hi ⊢
    exact buildContext_take_pending _ i hpend hi

set_option maxRecDepth 100000 in
/-- C23, witness: in scenario A the backend agent gets the empty context and the
frontend agent gets `Previous task results:`, though the backend agent answered. -/
theorem ExecuteBuild_contexts_witness :
    invocations (ExecuteBuild scenarioA "a todo app".toList).trace
      = [(PlannerAgent, [], planPrompt "a todo app".toList),
         (BackendAgent, [], "Create todo API".toList),
         (FrontendAgent, utf8 "Previous task results:".toList, "Build todo UI".toList)] :=
  (ExecuteBuild_contexts scenarioA "a todo app".toList (by decide)).1.trans (by decide)


/-! ## `parsePlan` line by line -/

/-- What a line adds to the tasks does not depend on the state of the loop: nothing,
or one task with a role and a description that the line fixes. -/
theorem parseLine_uniform (line : Str) :
    (∀ st, parseLine st line = st) ∨
      ∃ role desc, ∀ st : ParseState, parseLine st line
        = { tasks := st.tasks ++ [{ ID := taskIDString st.taskID, AgentType := role,
                                    Description := desc, Dependencies := [],
                                    Status := "pending".toList, Result := none }],
            taskID := st.taskID + 1 } := by
  by_cases h0 : TrimSpace line = []
  · left; intro st; rw [parseLine_taskMatch, if_pos h0]
  · cases hm : taskMatch (TrimSpace line) with
    | none => left; intro st; rw [parseLine_taskMatch, if_neg h0, hm]
    | some wg =>
      obtain ⟨w, g⟩ := wg
      by_cases hr : mapAgentName (ToLower w) = []
      · left; intro st; rw [parseLine_taskMatch, if_neg h0, hm]; simp only [hr, if_true]
      · right
        refine ⟨mapAgentName (ToLower w), cleanDescription g, ?_⟩
        intro st
        rw [parseLine_taskMatch, if_neg h0, hm]
        simp only [hr, if_false]

theorem foldl_parseLine_shift : ∀ (lines : List Str) (st : ParseState),
    lines.foldl parseLine st
      = { tasks := st.tasks ++ ((lines.foldl parseLine ⟨[], 1⟩).tasks.enum.map
            (fun p => { p.2 with ID := taskIDString (st.taskID + p.1) })),
          taskID := st.taskID + (lines.foldl parseLine ⟨[], 1⟩).tasks.length } := by
  intro lines
  induction lines using List.reverseRecOn with
  | nil => intro st; simp
  | append_singleton ls l ih =>
    intro st
    simp only [List.foldl_append, List.foldl_cons, List.foldl_nil]
    have hinv := (foldl_parseLine_inv ls ⟨[], 1⟩ ⟨rfl, rfl, by simp⟩).1
    rcases parseLine_uniform l with h | ⟨role, desc, h⟩
    · rw [h, h]; exact ih st
    · rw [h, h, ih st]
      simp only [List.enum, List.enumFrom_append, List.map_append, List.length_append,
        List.length_cons, List.length_nil, hinv, List.enumFrom_cons, List.enumFrom_nil,
        List.map_cons, List.map_nil, List.append_assoc, Nat.add_assoc, zero_add]

theorem parsePlan_append (a b : Str) :
    parsePlan (a ++ '\n' :: b)
      = parsePlan a ++ (parsePlan b).enum.map
          (fun p => { p.2 with ID := taskIDString ((parsePlan a).length + 1 + p.1) }) := by
  unfold parsePlan
  rw [splitLines_append_newline, List.foldl_append, foldl_parseLine_shift (splitLines b)]
  have hinv := (foldl_parseLine_inv (splitLines a) ⟨[], 1⟩ ⟨rfl, rfl, by simp⟩).1
  simp only [hinv]

theorem taskMatch_number (n n' Y : Str) (hn : n ≠ []) (hnd : ∀ c ∈ n, reDigit c = true)
    (hn' : n' ≠ []) (hnd' : ∀ c ∈ n', reDigit c = true) :
    taskMatch (n ++ '.' :: Y) = taskMatch (n' ++ '.' :: Y) := by
  have hdot : reDigit '.' = false := by decide
  simp only [taskMatch, scanHead, takeWhile_append_stop reDigit n '.' Y hnd hdot,
    dropWhile_append_stop reDigit n '.' Y hnd hdot,
    takeWhile_append_stop reDigit n' '.' Y hnd' hdot,
    dropWhile_append_stop reDigit n' '.' Y hnd' hdot, hn, hn', if_false, if_true]
  cases (dropStars (List.dropWhile reSpace Y)).2 with
  | nil => rfl
  | cons c2 r3 =>
    by_cases h2 : c2 = '['
    · simp only [h2, if_true]
      by_cases hw : List.takeWhile reWord r3 = []
      · simp only [hw, if_true]
      · simp only [hw, if_false]
        cases List.dropWhile reWord r3 with
        | nil => rfl
        | cons c3 r4 =>
          by_cases h3 : c3 = ']'
          · simp only [h3, if_true]
          · simp only [h3, if_false]
    · simp only [h2, if_false]

theorem TrimSpace_numbered (r0 : Str) :
    ∃ Y, ∀ m : Str, m ≠ [] → (∀ c ∈ m, reDigit c = true) →
      TrimSpace (m ++ '.' :: r0) = m ++ '.' :: Y := by
  have hd : TrimSpace ('.' :: r0) ≠ [] :=
    TrimSpace_ne_nil_of_mem _ '.' (List.mem_cons_self _ _) (by decide)
  have hne := TrimSpace_eq_rdropWhile _ hd
  obtain ⟨t, ht⟩ := List.rdropWhile_prefix isSpace ('.' :: r0)
  cases hY : ('.' :: r0).rdropWhile isSpace with
  | nil => exact absurd hY hne
  | cons c Y =>
    rw [hY] at ht
    have hc : c = '.' := by
      simp only [List.cons_append, List.cons.injEq] at ht
      exact ht.1
    subst hc
    refine ⟨Y, ?_⟩
    intro m hm hmd
    obtain ⟨c, cs, hcs, hsp⟩ := not_isSpace_of_reDigit_head m hm hmd
    subst hcs
    rw [TrimSpace_line c cs ('.' :: r0) hsp hd, hY]

theorem parseLine_number (st : ParseState) (n n' r0 : Str) (hn : n ≠ [])
    (hnd : ∀ c ∈ n, reDigit c = true) (hn' : n' ≠ []) (hnd' : ∀ c ∈ n', reDigit c = true) :
    parseLine st (n ++ '.' :: r0) = parseLine st (n' ++ '.' :: r0) := by
  obtain ⟨Y, hY⟩ := TrimSpace_numbered r0
  rw [parseLine_taskMatch, parseLine_taskMatch, hY n hn hnd, hY n' hn' hnd',
    taskMatch_number n n' Y hn hnd hn' hnd']
  have e1 : n ++ '.' :: Y ≠ [] := by simp
  have e2 : n' ++ '.' :: Y ≠ [] := by simp
  rw [if_neg e1, if_neg e2]

theorem parsePlan_number (n n' rest : Str) (hn : n ≠ []) (hnd : ∀ c ∈ n, reDigit c = true)
    (hn' : n' ≠ []) (hnd' : ∀ c ∈ n', reDigit c = true) :
    parsePlan (n ++ '.' :: rest) = parsePlan (n' ++ '.' :: rest) := by
  have hsplit : rest = rest.takeWhile (fun c => c != '\n') ++ rest.dropWhile (fun c => c != '\n') :=
    (List.takeWhile_append_dropWhile _ _).symm
  have hr0 : '\n' ∉ rest.takeWhile (fun c => c != '\n') := by
    intro h
    have := List.mem_takeWhile_imp h
    simp at this
  have hline : ∀ m : Str, (∀ c ∈ m, reDigit c = true) →
      '\n' ∉ m ++ '.' :: rest.takeWhile (fun c => c != '\n') := by
    intro m hm h
    rcases List.mem_append.mp h with h | h
    · exact reDigit_ne_newline _ (hm _ h) rfl
    · rcases List.mem_cons.mp h with h | h
      · exact absurd h (by decide)
      · exact hr0 h
  cases hd : rest.dropWhile (fun c => c != '\n') with
  | nil =>
    rw [hd, List.append_nil] at hsplit
    rw [hsplit]
    unfold parsePlan
    rw [splitLines_no_newline _ (hline n hnd), splitLines_no_newline _ (hline n' hnd')]
    simp only [List.foldl_cons, List.foldl_nil]
    rw [parseLine_number _ n n' _ hn hnd hn' hnd']
  | cons c r1 =>
    have hc : c = '\n' := by
      have := List.head_dropWhile_not (fun c => c != '\n') rest (by rw [hd]; simp)
      simp only [hd, List.head_cons] at this
      simpa using this
    subst hc
    rw [hd] at hsplit
    rw [hsplit]
    have e : ∀ m : Str, m ++ '.' :: (rest.takeWhile (fun c => c != '\n') ++ '\n' :: r1)
        = (m ++ '.' :: rest.takeWhile (fun c => c != '\n')) ++ '\n' :: r1 := by
      intro m; simp
    unfold parsePlan
    rw [e n, e n', splitLines_append_newline, splitLines_append_newline,
      splitLines_no_newline _ (hline n hnd), splitLines_no_newline _ (hline n' hnd')]
    simp only [List.singleton_append, List.foldl_cons]
    rw [parseLine_number _ n n' _ hn hnd hn' hnd']

/-- C26: for all plan texts `a` and `b`, `parsePlan(a + "\n" + b)` is `parsePlan(a)`
followed by the tasks of `parsePlan(b)`, each with the same role, description,
dependencies, status and result, and with the identifier `task_<k + j>` in place of
`task_<j>`, where `k` is the number of tasks of `parsePlan(a)` and `j` counts the
tasks of `parsePlan(b)` from 1.  The number at the start of a plan line has no
effect: two plans that differ only in the number before the first dot, at the
start of the text or of a later line, give the same tasks. -/
theorem parsePlan_compositional (a b : Str) :
    parsePlan (a ++ '\n' :: b)
        = parsePlan a ++ (parsePlan b).enum.map
            (fun p => { p.2 with ID := taskIDString ((parsePlan a).length + (p.1 + 1)) }) ∧
      (parsePlan b).map (fun t => t.ID)
        = (List.range (parsePlan b).length).map (fun j => taskIDString (j + 1)) ∧
      (∀ n n' rest : Str, n ≠ [] → (∀ c ∈ n, reDigit c = true) → n' ≠ [] →
        (∀ c ∈ n', reDigit c = true) →
        parsePlan (n ++ '.' :: rest) = parsePlan (n' ++ '.' :: rest) ∧
        parsePlan (a ++ '\n' :: (n ++ '.' :: rest))
          = parsePlan (a ++ '\n' :: (n' ++ '.' :: rest))) := by
  refine ⟨?_, ?_, ?_⟩
  · rw [parsePlan_append]
    congr 2
    funext p
    dsimp only
    rw [show (parsePlan a).length + 1 + p.1 = (parsePlan a).length + (p.1 + 1) by omega]
  · exact (foldl_parseLine_inv (splitLines b) ⟨[], 1⟩ ⟨rfl, rfl, by simp⟩).2.1
  · intro n n' rest hn hnd hn' hnd'
    have h := parsePlan_number n n' rest hn hnd hn' hnd'
    exact ⟨h, by rw [parsePlan_append, parsePlan_append, h]⟩

set_option maxRecDepth 100000 in
/-- C26, witness: the plans `7. [BACKEND] Create todo API` and
`7. [FRONTEND] Build todo UI`, joined by a newline, give `task_1` and `task_2`. -/
theorem parsePlan_compositional_witness :
    parsePlan ("7. [BACKEND] Create todo API".toList ++ '\n' :: "7. [FRONTEND] Build todo UI".toList)
      = [{ ID := "task_1".toList, AgentType := BackendAgent,
           Description := "Create todo API".toList, Dependencies := [],
           Status := "pending".toList, Result := none },
         { ID := "task_2".toList, AgentType := FrontendAgent,
           Description := "Build todo UI".toList, Dependencies := [],
           Status := "pending".toList, Result := none }] :=
  (parsePlan_compositional "7. [BACKEND] Create todo API".toList
    "7. [FRONTEND] Build todo UI".toList).1.trans (by decide)

/-! ## Result and status at the observable points of a run -/

theorem writeLoop_extends (fw : FileWriter) : ∀ (blocks : List (Str × Str)) (trace : List Event),
    trace <+: writeLoop fw trace blocks := by
  intro blocks
  induction blocks with
  | nil => intro trace; exact List.prefix_refl _
  | cons b bs ih =>
    intro trace
    obtain ⟨filename, code⟩ := b
    simp only [writeLoop]
    split_ifs with h
    · exact ih trace
    · cases fw.WriteFile trace filename code with
      | none => exact (List.prefix_append _ _).trans (ih _)
      | some err => exact (List.prefix_append _ _).trans (ih _)

theorem writeGeneratedFiles_extends (o : Orchestrator) (trace : List Event) (content : Str) :
    trace ++ (writeGeneratedFiles o trace content).drop trace.length
      = writeGeneratedFiles o trace content :=
  List.prefix_iff_eq_append.mp
    ((List.prefix_append _ _).trans (writeLoop_extends o.fileWriter _ _))

/-- The events of the observable points of an iteration are the calls that the
iteration adds to the trace. -/
theorem events_taskStepPoints (o : Orchestrator) (tasks : List Task) (totalStages : Nat)
    (s : LoopState) (i : Nat) (task : Task) :
    s.trace ++ (taskStepPoints o tasks totalStages s i task).map (fun p => p.event)
      = (taskStep o tasks totalStages s i task).trace := by
  unfold taskStepPoints taskStep
  cases o.registry.GetAgent task.AgentType with
  | error err => simp
  | ok agent =>
    simp only
    cases agent.Process (s.trace ++ [Event.DisplayProgress (stageName task) (i + 3) totalStages])
        (buildContext (tasks.take i)) task.Description with
    | error err => simp
    | ok response =>
      simp only [List.map_append, List.map_cons, List.map_nil, List.map_map]
      have hmap : ∀ (l : List Event) (t : Option Task),
          l.map ((fun p : RunPoint => p.event) ∘ fun e => (⟨e, tasks, t⟩ : RunPoint)) = l := by
        intro l t
        induction l with
        | nil => rfl
        | cons e es ih => simp [ih]
      rw [hmap]
      conv_rhs => rw [← writeGeneratedFiles_extends o _ response.Content]
      simp only [List.append_assoc]

theorem events_taskLoopPoints (o : Orchestrator) (tasks : List Task) (totalStages : Nat) :
    ∀ (rest : List Task) (s : LoopState) (i : Nat),
      s.trace ++ (taskLoopPoints o tasks totalStages s i rest).map (fun p => p.event)
        = (taskLoop o tasks totalStages s i rest).trace := by
  intro rest
  induction rest with
  | nil => intro s i; simp [taskLoopPoints, taskLoop]
  | cons t ts ih =>
    intro s i
    simp only [taskLoopPoints, taskLoop, List.map_append, ← List.append_assoc,
      events_taskStepPoints, ih]

/-- What an observable point of the iteration for `task` holds: the slice, and the
loop variable as the loop took it or completed with a result. -/
theorem taskStepPoints_spec (o : Orchestrator) (tasks : List Task) (totalStages : Nat)
    (s : LoopState) (i : Nat) (task : Task) (p : RunPoint)
    (hp : p ∈ taskStepPoints o tasks totalStages s i task) :
    p.tasks = tasks ∧
      (p.task = some task ∨
       ∃ r, p.task = some { task with Result := some r, Status := "completed".toList }) := by
  simp only [taskStepPoints] at hp
  cases hg : o.registry.GetAgent task.AgentType with
  | error err =>
    simp only [hg, List.cons_append, List.nil_append, List.mem_cons, List.mem_singleton,
      List.not_mem_nil, or_false] at hp
    rcases hp with h | h <;> subst h <;> exact ⟨rfl, Or.inl rfl⟩
  | ok agent =>
    simp only [hg] at hp
    cases hr : agent.Process (s.trace ++ [Event.DisplayProgress (stageName task) (i + 3) totalStages])
        (buildContext (tasks.take i)) task.Description with
    | error err =>
      simp only [hr, List.cons_append, List.nil_append, List.mem_cons, List.mem_singleton,
        List.not_mem_nil, or_false] at hp
      rcases hp with h | h | h <;> subst h <;> exact ⟨rfl, Or.inl rfl⟩
    | ok response =>
      simp only [hr, List.mem_append, List.mem_cons, List.mem_singleton, List.not_mem_nil,
        or_false, List.mem_map] at hp
      rcases hp with ((h | h) | ⟨e, _, h⟩) | h
      · subst h; exact ⟨rfl, Or.inl rfl⟩
      · subst h; exact ⟨rfl, Or.inl rfl⟩
      · subst h; exact ⟨rfl, Or.inr ⟨response, rfl⟩⟩
      · subst h; exact ⟨rfl, Or.inr ⟨response, rfl⟩⟩

theorem taskLoopPoints_spec (o : Orchestrator) (tasks : List Task) (totalStages : Nat) :
    ∀ (rest : List Task) (s : LoopState) (i : Nat) (p : RunPoint),
      p ∈ taskLoopPoints o tasks totalStages s i rest →
      p.tasks = tasks ∧ ∃ task ∈ rest,
        (p.task = some task ∨
         ∃ r, p.task = some { task with Result := some r, Status := "completed".toList }) := by
  intro rest
  induction rest with
  | nil => intro s i p hp; simp [taskLoopPoints] at hp
  | cons task rest ih =>
    intro s i p hp
    simp only [taskLoopPoints, List.mem_append] at hp
    rcases hp with hp | hp
    · obtain ⟨h1, h2⟩ := taskStepPoints_spec o tasks totalStages s i task p hp
      exact ⟨h1, task, List.mem_cons_self _ _, h2⟩
    · obtain ⟨h1, t, ht, h2⟩ := ih _ _ p hp
      exact ⟨h1, t, List.mem_cons_of_mem _ ht, h2⟩

theorem pending_iff (t : Task) (h : t.Status = "pending".toList ∧ t.Result = none) :
    (t.Result ≠ none ↔ t.Status = "completed".toList) := by
  have hpc : "pending".toList ≠ "completed".toList := by decide
  rw [h.1, h.2]
  simp [hpc]

theorem ExecuteBuildPoints_nil (o : Orchestrator) (description : Str)
    (h : (ExecuteBuild o description).tasks = []) : ExecuteBuildPoints o description = [] := by
  simp only [ExecuteBuild] at h
  simp only [ExecuteBuildPoints]
  cases h1 : o.fileWriter.CreateProjectStructure (startTrace description) with
  | some err => rfl
  | none =>
    simp only [h1] at h ⊢
    cases h2 : o.registry.GetAgent PlannerAgent with
    | error err => rfl
    | ok planner =>
      simp only [h2] at h ⊢
      cases h3 : planner.Process (planningTrace description) [] (planPrompt description) with
      | error err => rfl
      | ok r =>
        simp only [h3] at h ⊢
        by_cases hl : (parsePlan r.Content).length = 0
        · simp only [hl, if_true]
        · simp only [hl, if_false] at h
          exact absurd (by rw [h]; rfl) hl

theorem ExecuteBuildPoints_of_tasks (o : Orchestrator) (description : Str)
    (hne : (ExecuteBuild o description).tasks ≠ []) :
    ExecuteBuildPoints o description
      = taskLoopPoints o (ExecuteBuild o description).tasks
          ((ExecuteBuild o description).tasks.length + 2) ⟨plannedTrace description, []⟩ 0
          (ExecuteBuild o description).tasks
        ++ [⟨Event.DisplayFinalResults ((ExecuteBuild o description).tasks.length + 2),
            (ExecuteBuild o description).tasks, none⟩] := by
  obtain ⟨planner, r, h2, h3, hne', htasks, _, _⟩ := ExecuteBuild_of_tasks o description hne
  have h1 : o.fileWriter.CreateProjectStructure (startTrace description) = none := by
    cases hc : o.fileWriter.CreateProjectStructure (startTrace description) with
    | none => rfl
    | some err =>
      exfalso
      apply hne
      simp only [ExecuteBuild, hc]
  have hl : ¬ (parsePlan r.Content).length = 0 := fun e => hne' (List.length_eq_zero.mp e)
  rw [htasks]
  simp only [ExecuteBuildPoints, h1, h2, h3, hl, if_false]

/-- C13: the observable points of a run of `ExecuteBuild` once the plan is parsed are
the calls that the task loop and the final report add to the trace, each with the
slice `tasks` and the loop variable `task` at the time of the call.  At every one
of them, for every task of the slice and for the task being executed, the result
is set if and only if the status is `completed`; the same holds for every task of
the list at the end of the run and for the loop variable at the end of every
iteration. -/
theorem ExecuteBuild_result_iff_completed (o : Orchestrator) (description : Str) :
    ((ExecuteBuild o description).tasks ≠ [] →
      plannedTrace description ++ (ExecuteBuildPoints o description).map (fun p => p.event)
        = (ExecuteBuild o description).trace) ∧
    (∀ p ∈ ExecuteBuildPoints o description,
      p.tasks = (ExecuteBuild o description).tasks ∧
      (∀ t ∈ p.tasks, (t.Result ≠ none ↔ t.Status = "completed".toList)) ∧
      (∀ t, p.task = some t → (t.Result ≠ none ↔ t.Status = "completed".toList))) ∧
    (∀ t ∈ (ExecuteBuild o description).tasks,
      (t.Result ≠ none ↔ t.Status = "completed".toList)) ∧
    (∀ t ∈ (ExecuteBuild o description).locals,
      (t.Result ≠ none ↔ t.Status = "completed".toList)) := by
  by_cases hne : (ExecuteBuild o description).tasks = []
  · have hloc : (ExecuteBuild o description).locals = [] := by
      rcases ExecuteBuild_cases o description with ⟨_, h, _⟩ | ⟨planner, r, _, _, _, hne', hrun⟩
      · exact h
      · rw [hrun] at hne
        exact absurd hne hne'
    rw [ExecuteBuildPoints_nil o description hne, hne, hloc]
    simp
  · obtain ⟨planner, r, _, _, _, htasks, _, htrace⟩ := ExecuteBuild_of_tasks o description hne
    have hpend : ∀ t ∈ (ExecuteBuild o description).tasks,
        t.Status = "pending".toList ∧ t.Result = none := by
      rw [htasks]; exact parsePlan_pending r.Content
    have hpts := ExecuteBuildPoints_of_tasks o description hne
    refine ⟨fun _ => ?_, ?_, fun t ht => pending_iff t (hpend t ht), ?_⟩
    · rw [hpts, List.map_append, ← List.append_assoc,
        events_taskLoopPoints o _ _ _ ⟨plannedTrace description, []⟩ 0, htrace, htasks]
      rfl
    · intro p hp
      rw [hpts] at hp
      rcases List.mem_append.mp hp with hp | hp
      · obtain ⟨h1, task, hmem, h2⟩ := taskLoopPoints_spec o _ _ _ _ _ p hp
        refine ⟨h1, ?_, ?_⟩
        · rw [h1]; exact fun t ht => pending_iff t (hpend t ht)
        · intro t ht
          rcases h2 with h2 | ⟨r', h2⟩
          · rw [h2] at ht; cases ht
            exact pending_iff _ (hpend _ hmem)
          · rw [h2] at ht; cases ht
            simp
      · simp only [List.mem_singleton] at hp
        subst hp
        exact ⟨rfl, fun t ht => pending_iff t (hpend t ht), fun t ht => by cases ht⟩
    · intro t ht
      rcases ExecuteBuild_cases o description with ⟨_, h, _⟩ | ⟨planner', r', _, _, _, _, hrun⟩
      · rw [h] at ht; cases ht
      · have hl : (ExecuteBuild o description).locals
            = (taskLoop o (parsePlan r'.Content) ((parsePlan r'.Content).length + 2)
                ⟨plannedTrace description, []⟩ 0 (parsePlan r'.Content)).locals := by
          rw [hrun]
        obtain ⟨locs, h3, h4⟩ := locals_taskLoop o (parsePlan r'.Content)
          ((parsePlan r'.Content).length + 2) (parsePlan r'.Content)
          ⟨plannedTrace description, []⟩ 0
        rw [hl, h3] at ht
        simp only [List.nil_append] at ht
        obtain ⟨i, hi, hti⟩ := List.getElem_of_mem ht
        have hlen := h4.length_eq
        have hrel := (List.forall₂_iff_get.mp h4).2 i (by omega) hi
        simp only [List.get_eq_getElem] at hrel
        rw [hti] at hrel
        rcases hrel with h | ⟨_, _, _, h⟩
        · rw [h]
          exact pending_iff _ (parsePlan_pending r'.Content _ (List.getElem_mem _))
        · rw [h]; simp

set_option maxRecDepth 100000 in
/-- C13, witness: in scenario A the call of `DisplayStageComplete` for the first
task is an observable point, with the two pending tasks in the slice and the loop
variable completed with the response `API code`; there the result is set and the
status is `completed`. -/
theorem ExecuteBuild_result_iff_completed_witness :
    (⟨Event.DisplayStageComplete (utf8 "backend: Create todo API".toList) 3 4,
        parsePlan "1. [BACKEND] Create todo API\n2. [FRONTEND] Build todo UI".toList,
        some { pendingTask with
          Result := some ⟨"API code".toList, 0, [], BackendAgent⟩,
          Status := "completed".toList }⟩ : RunPoint)
        ∈ ExecuteBuildPoints scenarioA "a todo app".toList ∧
      ((some ⟨"API code".toList, 0, [], BackendAgent⟩ : Option Response) ≠ none ↔
        "completed".toList = "completed".toList) :=
  ⟨by decide,
    ((ExecuteBuild_result_iff_completed scenarioA "a todo app".toList).2.1
      ⟨Event.DisplayStageComplete (utf8 "backend: Create todo API".toList) 3 4,
        parsePlan "1. [BACKEND] Create todo API\n2. [FRONTEND] Build todo UI".toList,
        some { pendingTask with
          Result := some ⟨"API code".toList, 0, [], BackendAgent⟩,
          Status := "completed".toList }⟩ (by decide)).2.2 _ rfl⟩

end GoCode
